import Mathlib

/-!
# ngxlib pool allocator (`src/ngxa_palloc.c`, `src/ngxa_palloc.h`)

A shallow embedding of the region allocator and the properties of its
specification.

Modelling conventions.

* Addresses and sizes are natural numbers.  A nullable C pointer is an
  `Option Nat` (`none` is `NULL`).  `size_t` arithmetic that can wrap is written
  with an explicit `% 2 ^ 64` (`size_t_sub`).
* The intrusive block chain `pool, pool->d.next, ...` is the list
  `ngx_pool_t.blocks` (the head of the list is the pool itself);
  `pool->current` is an index into that list.  The large list and the cleanup
  list are lists in link order.
* The records of the cleanup list lie in pool memory, and `ngx_reset_pool` rewinds
  the blocks without emptying that list.  Where this matters the cleanup list is
  kept as it lies in memory (`MemWorld`): the pointer `pool->cleanup` and the
  words written through the records.
* The raw memory provider (`ngx_alloc`, `ngx_memalign`, `ngx_free`) is external
  to the repository: it is a script of answers that the allocation calls consume
  in order, together with the set of live raw allocations and a trace of the
  calls made.
* `ngx_palloc` and `ngx_palloc_large` are mutually recursive in the source; the
  embedding recurses on a fuel argument and returns `none` when it runs out.
* Structure sizes are those of the declarations in `ngxa_palloc.h` on an LP64
  target (pointers, `size_t` and `ngx_uint_t` of 8 bytes).
-/

namespace NgxPalloc

/-! ## Constants -/

/-- Alignment of pool blocks, `#define NGX_POOL_ALIGNMENT 16`. -/
def NGX_POOL_ALIGNMENT : Nat := 16

/-- Modelled from the spec: `NGX_ALIGNMENT` is defined in `ngx_config.h`, which is
not part of the sources; it is "the platform's natural alignment",
`sizeof(unsigned long)`, 8 on LP64. -/
def NGX_ALIGNMENT : Nat := 8

/-- Size of `ngx_pool_data_t`: two pointers, a pointer and an `ngx_uint_t`. -/
def sizeof_ngx_pool_data_t : Nat := 32

/-- Size of `ngx_pool_t`: `d`, `max`, `current`, `chain`, `large`, `cleanup`, `log`. -/
def sizeof_ngx_pool_t : Nat := 80

/-- Size of `ngx_pool_large_t`: `next`, `alloc`. -/
def sizeof_ngx_pool_large_t : Nat := 16

/-- Size of `ngx_pool_cleanup_t`: `handler`, `data`, `next`. -/
def sizeof_ngx_pool_cleanup_t : Nat := 24

/-- Return code `NGX_OK` / `NGX_DECLINED` of `ngx_pfree`. -/
inductive ngx_int_t where
  | NGX_OK
  | NGX_DECLINED
deriving DecidableEq, Repr

/-! ## Machine arithmetic -/

/-- Subtraction `a - b` in `size_t` arithmetic (modulo `2 ^ 64`); also the cast
`(size_t) (a - b)` of a pointer difference. -/
def size_t_sub (a b : Nat) : Nat := (a + (2 ^ 64 - b % 2 ^ 64)) % 2 ^ 64

/-- Modelled from the spec: the macro `ngx_align_ptr(p, a)` is defined in
`ngx_config.h`, which is not part of the sources; it "aligns the pointer up" to
the next multiple of `a`. -/
def ngx_align_ptr (p a : Nat) : Nat := (p + (a - 1)) / a * a

/-- Modelled from the spec: the macro `ngx_align(d, a)` is defined in `ngx_config.h`,
which is not part of the sources; like `ngx_align_ptr` it rounds up to the next
multiple of `a`. -/
def ngx_align (d a : Nat) : Nat := (d + (a - 1)) / a * a

/-- The macro `NGX_MIN_POOL_SIZE` of the header (112 on LP64). -/
def NGX_MIN_POOL_SIZE : Nat :=
  ngx_align (sizeof_ngx_pool_t + 2 * sizeof_ngx_pool_large_t) NGX_POOL_ALIGNMENT

/-- The macro `NGX_DEFAULT_POOL_SIZE` of the header. -/
def NGX_DEFAULT_POOL_SIZE : Nat := 16 * 1024

/-! ## Raw memory provider -/

/-- One call to the raw memory provider. -/
inductive RawCall where
  | alloc (size : Nat)
  | memalign (alignment size : Nat)
  | free (p : Option Nat)
deriving DecidableEq, Repr

/-- State of the raw memory provider: the answers it will give to the coming
allocation requests (`none` is a failed request; an exhausted script fails), the
raw allocations that are live, and the calls made so far, oldest first. -/
structure Heap where
  script : List (Option Nat)
  live : List Nat
  trace : List RawCall
deriving DecidableEq, Repr

/-- Next answer of the provider to an allocation request `c`. -/
def Heap.request (h : Heap) (c : RawCall) : Option Nat × Heap :=
  match h.script with
  | [] => (none, { h with trace := h.trace ++ [c] })
  | none :: rest => (none, { h with script := rest, trace := h.trace ++ [c] })
  | some a :: rest =>
    (some a, { script := rest, live := a :: h.live, trace := h.trace ++ [c] })

/-- Modelled from the spec: `ngx_alloc(size, log)` is declared in the header, its
body is outside the sources; it is `rawAllocate(size) -> pointer|none`. -/
def ngx_alloc (h : Heap) (size : Nat) : Option Nat × Heap :=
  h.request (RawCall.alloc size)

/-- Modelled from the spec: the body of `ngx_memalign(alignment, size, log)` is
outside the sources; it is `rawAllocateAligned(alignment, size) -> pointer|none`. -/
def ngx_memalign (h : Heap) (alignment size : Nat) : Option Nat × Heap :=
  h.request (RawCall.memalign alignment size)

/-- Modelled from the spec: the body of `ngx_free(p)` is outside the sources; it is
`rawFree(pointer)`, and releasing `NULL` releases nothing. -/
def ngx_free (h : Heap) (p : Option Nat) : Heap :=
  match p with
  | none => { h with trace := h.trace ++ [RawCall.free none] }
  | some a => { h with live := h.live.erase a, trace := h.trace ++ [RawCall.free (some a)] }

/-! ## Data model -/

/-- Cleanup handlers: the two built-in ones and caller-supplied ones. -/
inductive Handler where
  | ngx_pool_cleanup_file
  | ngx_pool_delete_file
  | user (id : Nat)
deriving DecidableEq, Repr

/-- A block of the chain: `ngx_pool_data_t` together with the address `addr` of
the block it heads (`d.next` is the next element of the list of blocks). -/
structure ngx_pool_data_t where
  addr : Nat
  last : Nat
  end_ : Nat
  failed : Nat
deriving DecidableEq, Repr

/-- A record of the large list, stored at `addr` (`next` is the list order). -/
structure ngx_pool_large_t where
  addr : Nat
  alloc : Option Nat
deriving DecidableEq, Repr

/-- A record of the cleanup list, stored at `addr` (`next` is the list order). -/
structure ngx_pool_cleanup_t where
  addr : Nat
  handler : Option Handler
  data : Option Nat
deriving DecidableEq, Repr

/-- The pool `struct ngx_pool_s`.  `blocks` is the chain starting at the pool
itself, `current` the position in it of `pool->current`; `log` is not modelled. -/
structure ngx_pool_t where
  blocks : List ngx_pool_data_t
  max : Nat
  current : Nat
  chain : Option Nat
  large : List ngx_pool_large_t
  cleanup : List ngx_pool_cleanup_t
deriving DecidableEq, Repr

/-- A pool together with the raw memory provider it draws from and the cleanup
handlers that were invoked so far (handler and argument, oldest first). -/
structure World where
  pool : ngx_pool_t
  heap : Heap
  ran : List (Handler × Option Nat)
deriving DecidableEq, Repr

/-! ## Pool creation and reset -/

/-- `NGX_MAX_ALLOC_FROM_POOL`, `(ngx_pagesize - 1)`, for the page size of the host. -/
def NGX_MAX_ALLOC_FROM_POOL (ngx_pagesize : Nat) : Nat := size_t_sub ngx_pagesize 1

/-- `ngx_create_pool(size, log)`; the global `ngx_pagesize` is an argument. -/
def ngx_create_pool (h : Heap) (ngx_pagesize size : Nat) : Option ngx_pool_t × Heap :=
  match ngx_memalign h NGX_POOL_ALIGNMENT size with
  | (none, h1) => (none, h1)
  | (some p, h1) =>
    let size1 := size_t_sub size sizeof_ngx_pool_t
    (some
      { blocks := [{ addr := p, last := p + sizeof_ngx_pool_t, end_ := p + size, failed := 0 }]
        max := if size1 < NGX_MAX_ALLOC_FROM_POOL ngx_pagesize then size1
               else NGX_MAX_ALLOC_FROM_POOL ngx_pagesize
        current := 0
        chain := none
        large := []
        cleanup := [] },
      h1)

/-- The first loop of `ngx_reset_pool` (and the second of `ngx_destroy_pool`):
release the memory of every non-empty large record. -/
def free_large (h : Heap) : List ngx_pool_large_t → Heap
  | [] => h
  | l :: rest =>
    match l.alloc with
    | some a => free_large (ngx_free h (some a)) rest
    | none => free_large h rest

/-- `ngx_reset_pool(pool)`. -/
def ngx_reset_pool (w : World) : World :=
  { w with
    heap := free_large w.heap w.pool.large
    pool :=
      { w.pool with
        blocks := w.pool.blocks.map
          (fun p => { p with last := p.addr + sizeof_ngx_pool_t, failed := 0 })
        current := 0
        chain := none
        large := [] } }

/-! ## Small allocations -/

/-- The `do ... while (p)` loop of `ngx_palloc` (`al` is `ngx_align_ptr(., NGX_ALIGNMENT)`)
and of `ngx_pnalloc` (`al` is the identity), run on the blocks from `pool->current`
on: the pointer returned and the blocks after the bump, or `none` when the loop
falls through to `ngx_palloc_block`. -/
def scan_blocks (al : Nat → Nat) (size : Nat) :
    List ngx_pool_data_t → Option (Nat × List ngx_pool_data_t)
  | [] => none
  | p :: rest =>
    let m := al p.last
    if size ≤ size_t_sub p.end_ m then
      some (m, { p with last := m + size } :: rest)
    else
      match scan_blocks al size rest with
      | none => none
      | some (r, rest1) => some (r, p :: rest1)

/-- The `for` loop of `ngx_palloc_block`, run on the blocks from `pool->current`
on (`idx` is the position of the first of them, `cur` the value of
`pool->current`): every block that has a successor gets `failed++`, and
`pool->current` moves past it when the old counter exceeded 4. -/
def walk_failed : List ngx_pool_data_t → Nat → Nat → List ngx_pool_data_t × Nat
  | [], _, cur => ([], cur)
  | [p], _, cur => ([p], cur)
  | p :: q :: rest, idx, cur =>
    let r := walk_failed (q :: rest) (idx + 1) (if 4 < p.failed then idx + 1 else cur)
    ({ p with failed := p.failed + 1 } :: r.1, r.2)

/-- `ngx_palloc_block(pool, size)`. -/
def ngx_palloc_block (w : World) (size : Nat) : Option Nat × World :=
  match w.pool.blocks with
  | [] => (none, w)
  | d :: _ =>
    let psize := size_t_sub d.end_ d.addr
    match ngx_memalign w.heap NGX_POOL_ALIGNMENT psize with
    | (none, h1) => (none, { w with heap := h1 })
    | (some m0, h1) =>
      let m := ngx_align_ptr (m0 + sizeof_ngx_pool_data_t) NGX_ALIGNMENT
      let new : ngx_pool_data_t :=
        { addr := m0, last := m + size, end_ := m0 + psize, failed := 0 }
      let r := walk_failed (w.pool.blocks.drop w.pool.current) w.pool.current w.pool.current
      (some m,
        { w with
          heap := h1
          pool := { w.pool with
                    blocks := w.pool.blocks.take w.pool.current ++ r.1 ++ [new]
                    current := r.2 } })

/-- The branch `size <= pool->max` of `ngx_palloc` and `ngx_pnalloc`. -/
def palloc_small (al : Nat → Nat) (w : World) (size : Nat) : Option Nat × World :=
  match scan_blocks al size (w.pool.blocks.drop w.pool.current) with
  | some (m, rest) =>
    (some m,
      { w with pool := { w.pool with blocks := w.pool.blocks.take w.pool.current ++ rest } })
  | none => ngx_palloc_block w size

/-! ## Large allocations -/

/-- The `for` loop of `ngx_palloc_large` with loop counter `n`: the list with `p`
stored in the empty record found, or `none` when the loop ends without one. -/
def scan_large (p : Nat) : List ngx_pool_large_t → Nat → Option (List ngx_pool_large_t)
  | [], _ => none
  | l :: rest, n =>
    if l.alloc = none then some ({ l with alloc := some p } :: rest)
    else if 3 < n then none
    else
      match scan_large p rest (n + 1) with
      | none => none
      | some rest1 => some (l :: rest1)

mutual

/-- `ngx_palloc(pool, size)`; the outer `none` is "out of fuel". -/
def ngx_palloc : Nat → World → Nat → Option (Option Nat × World)
  | 0, _, _ => none
  | fuel + 1, w, size =>
    if size ≤ w.pool.max then
      some (palloc_small (fun x => ngx_align_ptr x NGX_ALIGNMENT) w size)
    else ngx_palloc_large fuel w size

/-- `ngx_palloc_large(pool, size)`; the outer `none` is "out of fuel". -/
def ngx_palloc_large : Nat → World → Nat → Option (Option Nat × World)
  | 0, _, _ => none
  | fuel + 1, w, size =>
    match ngx_alloc w.heap size with
    | (none, h1) => some (none, { w with heap := h1 })
    | (some p, h1) =>
      match scan_large p w.pool.large 0 with
      | some large1 =>
        some (some p, { w with heap := h1, pool := { w.pool with large := large1 } })
      | none =>
        match ngx_palloc fuel { w with heap := h1 } sizeof_ngx_pool_large_t with
        | none => none
        | some (none, w2) => some (none, { w2 with heap := ngx_free w2.heap (some p) })
        | some (some l, w2) =>
          some (some p,
            { w2 with pool := { w2.pool with
                                large := { addr := l, alloc := some p } :: w2.pool.large } })

end

/-- `ngx_pnalloc(pool, size)`. -/
def ngx_pnalloc (fuel : Nat) (w : World) (size : Nat) : Option (Option Nat × World) :=
  if size ≤ w.pool.max then some (palloc_small (fun x => x) w size)
  else ngx_palloc_large fuel w size

/-- `ngx_pcalloc(pool, size)`: `ngx_palloc` followed by `ngx_memzero`; the content
of memory is not modelled. -/
def ngx_pcalloc (fuel : Nat) (w : World) (size : Nat) : Option (Option Nat × World) :=
  ngx_palloc fuel w size

/-- `ngx_pmemalign(pool, size, alignment)`. -/
def ngx_pmemalign (fuel : Nat) (w : World) (size alignment : Nat) :
    Option (Option Nat × World) :=
  match ngx_memalign w.heap alignment size with
  | (none, h1) => some (none, { w with heap := h1 })
  | (some p, h1) =>
    match ngx_palloc fuel { w with heap := h1 } sizeof_ngx_pool_large_t with
    | none => none
    | some (none, w2) => some (none, { w2 with heap := ngx_free w2.heap (some p) })
    | some (some l, w2) =>
      some (some p,
        { w2 with pool := { w2.pool with
                            large := { addr := l, alloc := some p } :: w2.pool.large } })

/-- The loop of `ngx_pfree`: the list with the first record whose `alloc` equals
`p` emptied, or `none` when no record matches. -/
def pfree_scan (p : Option Nat) : List ngx_pool_large_t → Option (List ngx_pool_large_t)
  | [] => none
  | l :: rest =>
    if p = l.alloc then some ({ l with alloc := none } :: rest)
    else
      match pfree_scan p rest with
      | none => none
      | some rest1 => some (l :: rest1)

/-- `ngx_pfree(pool, p)`. -/
def ngx_pfree (w : World) (p : Option Nat) : ngx_int_t × World :=
  match pfree_scan p w.pool.large with
  | some large1 =>
    (ngx_int_t.NGX_OK,
      { w with heap := ngx_free w.heap p, pool := { w.pool with large := large1 } })
  | none => (ngx_int_t.NGX_DECLINED, w)

/-! ## Cleanup records -/

/-- `ngx_pool_cleanup_add(p, size)`, with the cleanup list kept as the list of its
records, newest first.  That list is the list that the source links through
`c->next = p->cleanup` as long as the record returned lies on no record that is
still linked.  `ngx_reset_pool` rewinds the blocks and keeps `pool->cleanup`, so a
record added after it can lie on a linked one: `ngx_pool_cleanup_add_mem` is the
same function with the record written to memory, for that case. -/
def ngx_pool_cleanup_add (fuel : Nat) (w : World) (size : Nat) :
    Option (Option ngx_pool_cleanup_t × World) :=
  match ngx_palloc fuel w sizeof_ngx_pool_cleanup_t with
  | none => none
  | some (none, w1) => some (none, w1)
  | some (some c, w1) =>
    if size ≠ 0 then
      match ngx_palloc fuel w1 size with
      | none => none
      | some (none, w2) => some (none, w2)
      | some (some d, w2) =>
        let rec_ : ngx_pool_cleanup_t := { addr := c, handler := none, data := some d }
        some (some rec_, { w2 with pool := { w2.pool with cleanup := rec_ :: w2.pool.cleanup } })
    else
      let rec_ : ngx_pool_cleanup_t := { addr := c, handler := none, data := none }
      some (some rec_, { w1 with pool := { w1.pool with cleanup := rec_ :: w1.pool.cleanup } })

/-! ## Running sequences of calls -/

/-- Make a world from the result of `ngx_create_pool`. -/
def create_world (h : Heap) (ngx_pagesize size : Nat) : Option World :=
  match ngx_create_pool h ngx_pagesize size with
  | (some pool, h1) => some { pool := pool, heap := h1, ran := [] }
  | (none, _) => none

/-- Call `ngx_palloc` for each size in turn: the pointers returned and the final world. -/
def ngx_palloc_seq (fuel : Nat) : World → List Nat → Option (List (Option Nat) × World)
  | w, [] => some ([], w)
  | w, s :: rest =>
    match ngx_palloc fuel w s with
    | none => none
    | some (r, w1) =>
      match ngx_palloc_seq fuel w1 rest with
      | none => none
      | some (rs, w2) => some (r :: rs, w2)

/-- The public operations that act on a live pool. -/
inductive PoolOp where
  | palloc (size : Nat)
  | pnalloc (size : Nat)
  | pcalloc (size : Nat)
  | pmemalign (size alignment : Nat)
  | pfree (p : Option Nat)
  | cleanup_add (size : Nat)
  | reset
deriving DecidableEq, Repr

/-- Run one public operation, dropping its result. -/
def PoolOp.run (fuel : Nat) (w : World) : PoolOp → Option World
  | PoolOp.palloc size => (ngx_palloc fuel w size).map Prod.snd
  | PoolOp.pnalloc size => (ngx_pnalloc fuel w size).map Prod.snd
  | PoolOp.pcalloc size => (ngx_pcalloc fuel w size).map Prod.snd
  | PoolOp.pmemalign size alignment => (ngx_pmemalign fuel w size alignment).map Prod.snd
  | PoolOp.pfree p => some (ngx_pfree w p).2
  | PoolOp.cleanup_add size => (ngx_pool_cleanup_add fuel w size).map Prod.snd
  | PoolOp.reset => some (ngx_reset_pool w)

/-- Run a sequence of public operations. -/
def run_ops (fuel : Nat) : World → List PoolOp → Option World
  | w, [] => some w
  | w, op :: rest =>
    match op.run fuel w with
    | none => none
    | some w1 => run_ops fuel w1 rest

/-! ## Concrete pools -/

/-- A provider that answers four requests. -/
def heap4 : Heap :=
  { script := [some 4096, some 8192, some 100000, some 12288], live := [], trace := [] }

/-- The pool `ngx_create_pool(121)` on a host with pages of 4096 bytes: 41 usable
bytes after the header of 80 bytes (`NGX_MIN_POOL_SIZE` is 112). -/
def pool121 : World :=
  { pool := { blocks := [{ addr := 4096, last := 4176, end_ := 4217, failed := 0 }]
              max := 41, current := 0, chain := none, large := [], cleanup := [] }
    heap := { script := [some 8192, some 100000, some 12288], live := [4096]
              trace := [RawCall.memalign 16 121] }
    ran := [] }

/-- The pool `ngx_create_pool(4096)` on a host with pages of 4096 bytes. -/
def pool4096 : World :=
  { pool := { blocks := [{ addr := 4096, last := 4176, end_ := 8192, failed := 0 }]
              max := 4016, current := 0, chain := none, large := [], cleanup := [] }
    heap := { script := [some 8192, some 100000, some 12288], live := [4096]
              trace := [RawCall.memalign 16 4096] }
    ran := [] }

/-- The pool `ngx_create_pool(112)` after `ngx_palloc(32)`: its only block is full,
and the provider has one more answer. -/
def pool112_full : World :=
  { pool := { blocks := [{ addr := 4096, last := 4208, end_ := 4208, failed := 0 }]
              max := 32, current := 0, chain := none, large := [], cleanup := [] }
    heap := { script := [some 100000], live := [4096], trace := [RawCall.memalign 16 112] }
    ran := [] }

/-- The pool `ngx_create_pool(4096)` after `ngx_palloc(5000)`, which the provider
served at 8192 and for which a record was made at 4176. -/
def pool_large : World :=
  { pool := { blocks := [{ addr := 4096, last := 4192, end_ := 8192, failed := 0 }]
              max := 4016, current := 0, chain := none
              large := [{ addr := 4176, alloc := some 8192 }], cleanup := [] }
    heap := { script := [some 100000, some 12288], live := [8192, 4096]
              trace := [RawCall.memalign 16 4096, RawCall.alloc 5000] }
    ran := [] }

/-- The pool `pool_large` after `ngx_pfree(8192)`: its only large record is empty. -/
def pool_freed : World :=
  { pool := { blocks := [{ addr := 4096, last := 4192, end_ := 8192, failed := 0 }]
              max := 4016, current := 0, chain := none
              large := [{ addr := 4176, alloc := none }], cleanup := [] }
    heap := { script := [some 100000, some 12288], live := [4096]
              trace := [RawCall.memalign 16 4096, RawCall.alloc 5000, RawCall.free (some 8192)] }
    ran := [] }

/-- The pool `ngx_create_pool(121)` after `ngx_palloc(41)`: the bytes after the
header are taken and `last` is at `end`. -/
def pool121_full : World :=
  { pool121 with
    pool := { pool121.pool with
              blocks := [{ addr := 4096, last := 4217, end_ := 4217, failed := 0 }] } }

/-- The pool `ngx_create_pool(4096)` after `ngx_palloc(3000)` and `ngx_palloc(2000)`:
the second request did not fit and was served from a second block at 8192. -/
def pool_two_blocks : World :=
  { pool := { blocks := [{ addr := 4096, last := 7176, end_ := 8192, failed := 0 },
                         { addr := 8192, last := 10224, end_ := 12288, failed := 0 }]
              max := 4016, current := 0, chain := none, large := [], cleanup := [] }
    heap := { script := [some 100000, some 12288], live := [8192, 4096]
              trace := [RawCall.memalign 16 4096, RawCall.memalign 16 4096] }
    ran := [] }

/-- Start address and end of a block, the part of a block that no operation changes. -/
def ngx_pool_data_t.span (b : ngx_pool_data_t) : Nat × Nat := (b.addr, b.end_)

/-- The pool `p1` has the threshold `max` of `p`, and its chain is the chain of `p`
(same blocks at the same places, in the same order) followed by zero or more
new blocks. -/
def SpanExt (p p1 : ngx_pool_t) : Prop :=
  p1.max = p.max ∧
    ∃ ext, p1.blocks.map ngx_pool_data_t.span = p.blocks.map ngx_pool_data_t.span ++ ext

/-- Position of the bump cursor of a block after it has served the requests
`sizes` in turn, starting at `c`: every request first aligns the cursor to
`NGX_ALIGNMENT` (the padding) and then advances it by its size. -/
def bump_end (c : Nat) : List Nat → Nat
  | [] => c
  | s :: rest => bump_end (ngx_align_ptr c NGX_ALIGNMENT + s) rest

/-- A provider whose next block is at 32768. -/
def heap_b : Heap := { script := [some 32768], live := [], trace := [] }

/-- The pool `ngx_create_pool(4096)` placed at 32768. -/
def pool4096_b : World :=
  { pool := { blocks := [{ addr := 32768, last := 32848, end_ := 36864, failed := 0 }]
              max := 4016, current := 0, chain := none, large := [], cleanup := [] }
    heap := { script := [], live := [32768], trace := [RawCall.memalign 16 4096] }
    ran := [] }

/-- A block of a pool of `S` bytes that is placed and filled as the allocator
intends: aligned start, span of `S` bytes, cursor between start and end. -/
def BlockOk (S : Nat) (b : ngx_pool_data_t) : Prop :=
  8 ∣ b.addr ∧ b.end_ = b.addr + S ∧ b.addr ≤ b.last ∧ b.last ≤ b.end_

/-- Well-formed pool of `S` bytes, for a size `S` that is a multiple of
`NGX_ALIGNMENT` and a provider that returns aligned memory. -/
def PoolOk (S : Nat) (w : World) : Prop :=
  8 ∣ S ∧ sizeof_ngx_pool_t ≤ S ∧ S < 2 ^ 64 ∧ w.pool.max ≤ S - sizeof_ngx_pool_t ∧
    w.pool.blocks ≠ [] ∧ (∀ b ∈ w.pool.blocks, BlockOk S b) ∧
    ∀ a, some a ∈ w.heap.script → 8 ∣ a

/-! ## Destruction and the cleanup handlers -/

/-- The first loop of `ngx_destroy_pool`: every record of the cleanup list whose
handler is not `NULL` has its handler called with its data, in list order. -/
def run_cleanups (ran : List (Handler × Option Nat)) :
    List ngx_pool_cleanup_t → List (Handler × Option Nat)
  | [] => ran
  | c :: rest =>
    match c.handler with
    | some f => run_cleanups (ran ++ [(f, c.data)]) rest
    | none => run_cleanups ran rest

/-- The last loop of `ngx_destroy_pool`: every block of the chain is released, in
chain order. -/
def free_blocks (h : Heap) : List ngx_pool_data_t → Heap
  | [] => h
  | p :: rest => free_blocks (ngx_free h (some p.addr)) rest

/-- What is left once a pool is destroyed: the provider and the handlers that ran. -/
structure Destroyed where
  heap : Heap
  ran : List (Handler × Option Nat)
deriving DecidableEq, Repr

/-- `ngx_destroy_pool(pool)` (the loop under `NGX_DEBUG` only logs), with the cleanup
list kept as the list of its records; `ngx_destroy_pool_mem` runs the first loop
on the list as it lies in memory, where it need not end. -/
def ngx_destroy_pool (w : World) : Destroyed :=
  { ran := run_cleanups w.ran w.pool.cleanup
    heap := free_blocks (free_large w.heap w.pool.large) w.pool.blocks }

/-- The loop of `ngx_pool_run_cleanup_file`: the data of the record whose handler is
called and the list with that record disabled, or `none` when the loop ends
without a call.  `fd_of d` is the field `fd` of the `ngx_pool_cleanup_file_t` that
the data pointer `d` points to (memory that the caller has filled). -/
def run_cleanup_file_scan (fd_of : Option Nat → Int) (fd : Int) :
    List ngx_pool_cleanup_t → Option (Option Nat × List ngx_pool_cleanup_t)
  | [] => none
  | c :: rest =>
    if c.handler = some Handler.ngx_pool_cleanup_file then
      if fd_of c.data = fd then some (c.data, { c with handler := none } :: rest)
      else
        match run_cleanup_file_scan fd_of fd rest with
        | none => none
        | some (d, rest1) => some (d, c :: rest1)
    else
      match run_cleanup_file_scan fd_of fd rest with
      | none => none
      | some (d, rest1) => some (d, c :: rest1)

/-- `ngx_pool_run_cleanup_file(p, fd)`. -/
def ngx_pool_run_cleanup_file (fd_of : Option Nat → Int) (w : World) (fd : Int) : World :=
  match run_cleanup_file_scan fd_of fd w.pool.cleanup with
  | some (d, cleanup1) =>
    { w with
      ran := w.ran ++ [(Handler.ngx_pool_cleanup_file, d)]
      pool := { w.pool with cleanup := cleanup1 } }
  | none => w

/-- File data in which every descriptor is 5. -/
def fd_five : Option Nat → Int := fun _ => 5

/-- A call of the cleanup interface by the owner of the pool:
`ngx_pool_cleanup_add(pool, size)`, after which the caller stores `handler` in the
record returned (if one was returned), or `ngx_pool_run_cleanup_file(pool, fd)`. -/
inductive CleanupOp where
  | add (size : Nat) (handler : Option Handler)
  | run_file (fd : Int)
deriving DecidableEq, Repr

/-- The caller's assignment `c->handler = handler` to the record that
`ngx_pool_cleanup_add` has just returned, the head of the cleanup list. -/
def set_head_handler (handler : Option Handler) (w : World) : World :=
  match w.pool.cleanup with
  | [] => w
  | c :: rest => { w with pool := { w.pool with cleanup := { c with handler := handler } :: rest } }

/-- What the specification says of `runCleanupByFileHandle`, on the records in the
order in which they were added (oldest first): the newest record whose handler
is the file-close handler and whose data has the descriptor `fd` is invoked and
disabled; the data handed to the handler and the records afterwards, or `none`
when no record matches. -/
def disable_newest (fd_of : Option Nat → Int) (fd : Int) :
    List ngx_pool_cleanup_t → Option (Option Nat × List ngx_pool_cleanup_t)
  | [] => none
  | c :: newer =>
    match disable_newest fd_of fd newer with
    | some (d, newer1) => some (d, c :: newer1)
    | none =>
      if c.handler = some Handler.ngx_pool_cleanup_file ∧ fd_of c.data = fd then
        some (c.data, { c with handler := none } :: newer)
      else none

/-- Run a sequence of calls of the cleanup interface on the pool, and keep the
book of the records added, oldest first, as the specification describes them:
a record enters the book with the handler the caller stored, and a record that
`runCleanupByFileHandle` invoked has no handler any more. -/
def run_cleanup_ops (fuel : Nat) (fd_of : Option Nat → Int) :
    World → List ngx_pool_cleanup_t → List CleanupOp →
      Option (World × List ngx_pool_cleanup_t)
  | w, book, [] => some (w, book)
  | w, book, CleanupOp.add size handler :: rest =>
    match ngx_pool_cleanup_add fuel w size with
    | none => none
    | some (none, w1) => run_cleanup_ops fuel fd_of w1 book rest
    | some (some c, w1) =>
      run_cleanup_ops fuel fd_of (set_head_handler handler w1)
        (book ++ [{ c with handler := handler }]) rest
  | w, book, CleanupOp.run_file fd :: rest =>
    match disable_newest fd_of fd book with
    | some (_, book1) =>
      run_cleanup_ops fuel fd_of (ngx_pool_run_cleanup_file fd_of w fd) book1 rest
    | none => run_cleanup_ops fuel fd_of (ngx_pool_run_cleanup_file fd_of w fd) book rest

/-- The handlers that the specification has `destroy` invoke for a book of records
(oldest first): every record that still has a handler, once, with its data,
newest first. -/
def destroy_calls (book : List ngx_pool_cleanup_t) : List (Handler × Option Nat) :=
  book.reverse.filterMap (fun c => c.handler.map (fun f => (f, c.data)))

/-- The raw allocations that a pool holds: its blocks, and the pointers of the
non-empty records of its large list. -/
def tracked (p : ngx_pool_t) : List Nat :=
  p.blocks.map (fun b => b.addr) ++ p.large.filterMap (fun l => l.alloc)

/-- A provider that returns fresh pointers: no pointer that it is going to return
is live or is returned twice. -/
def Heap.Fresh (h : Heap) : Prop := (h.live ++ h.script.filterMap id).Nodup

/-- The pool owns what is live: the live raw allocations of a fresh provider are
those that the pool holds, together with the allocations `extra` made beside the
pool. -/
def Owns (extra : List Nat) (w : World) : Prop :=
  w.heap.Fresh ∧ w.heap.live.Perm (extra ++ tracked w.pool)

/-- The pool of 4096 bytes after `ngx_palloc(3000)`, `ngx_palloc(2000)` and
`ngx_palloc(5000)`: two blocks, and a large record at 7176 for the memory that
the provider served at 100000. -/
def pool_scenario : World :=
  { pool := { blocks := [{ addr := 4096, last := 7192, end_ := 8192, failed := 0 },
                         { addr := 8192, last := 10224, end_ := 12288, failed := 0 }]
              max := 4016, current := 0, chain := none
              large := [{ addr := 7176, alloc := some 100000 }], cleanup := [] }
    heap := { script := [some 12288], live := [100000, 8192, 4096]
              trace := [RawCall.memalign 16 4096, RawCall.memalign 16 4096,
                        RawCall.alloc 5000] }
    ran := [] }

/-- A provider that answers nine requests. -/
def heap9 : Heap :=
  { script := [some 4096, some 20000, some 30000, some 40000, some 50000, some 60000,
               some 70000, some 80000, some 90000]
    live := [], trace := [] }

/-- The pool `ngx_create_pool(4096)` drawn from `heap9`. -/
def pool9 : World :=
  { pool := { blocks := [{ addr := 4096, last := 4176, end_ := 8192, failed := 0 }]
              max := 4016, current := 0, chain := none, large := [], cleanup := [] }
    heap := { script := [some 20000, some 30000, some 40000, some 50000, some 60000,
                         some 70000, some 80000, some 90000]
              live := [4096], trace := [RawCall.memalign 16 4096] }
    ran := [] }

/-- The pool `pool9` after five calls `ngx_palloc(5000)` and `ngx_pfree` of the first
pointer returned: five large records, the first four of the list live and the
fifth (the oldest) empty. -/
def pool_five_large : World :=
  { pool := { blocks := [{ addr := 4096, last := 4256, end_ := 8192, failed := 0 }]
              max := 4016, current := 0, chain := none
              large := [{ addr := 4240, alloc := some 60000 },
                        { addr := 4224, alloc := some 50000 },
                        { addr := 4208, alloc := some 40000 },
                        { addr := 4192, alloc := some 30000 },
                        { addr := 4176, alloc := none }]
              cleanup := [] }
    heap := { script := [some 70000, some 80000, some 90000]
              live := [60000, 50000, 40000, 30000, 4096]
              trace := [RawCall.memalign 16 4096, RawCall.alloc 5000, RawCall.alloc 5000,
                        RawCall.alloc 5000, RawCall.alloc 5000, RawCall.alloc 5000,
                        RawCall.free (some 20000)] }
    ran := [] }

/-- The pool `ngx_create_pool(80)` on a host with pages of 4096 bytes: no usable
byte after the header, `max = 0`. -/
def pool80 : World :=
  { pool := { blocks := [{ addr := 4096, last := 4176, end_ := 4176, failed := 0 }]
              max := 0, current := 0, chain := none, large := [], cleanup := [] }
    heap := { script := [some 8192, some 100000, some 12288], live := [4096]
              trace := [RawCall.memalign 16 80] }
    ran := [] }

/-- The pool `pool9` after seven calls `ngx_palloc(3000)`: six blocks were added, the
head block has `failed = 5` and is still `current`. -/
def pool_seven : World :=
  { pool := { blocks := [{ addr := 4096, last := 7176, end_ := 8192, failed := 5 },
                         { addr := 20000, last := 23032, end_ := 24096, failed := 4 },
                         { addr := 30000, last := 33032, end_ := 34096, failed := 3 },
                         { addr := 40000, last := 43032, end_ := 44096, failed := 2 },
                         { addr := 50000, last := 53032, end_ := 54096, failed := 1 },
                         { addr := 60000, last := 63032, end_ := 64096, failed := 0 },
                         { addr := 70000, last := 73032, end_ := 74096, failed := 0 }]
              max := 4016, current := 0, chain := none, large := [], cleanup := [] }
    heap := { script := [some 80000, some 90000]
              live := [70000, 60000, 50000, 40000, 30000, 20000, 4096]
              trace := [RawCall.memalign 16 4096, RawCall.memalign 16 4096,
                        RawCall.memalign 16 4096, RawCall.memalign 16 4096,
                        RawCall.memalign 16 4096, RawCall.memalign 16 4096,
                        RawCall.memalign 16 4096] }
    ran := [] }

/-- The pool `pool9` after three calls `ngx_palloc(5000)`. -/
def pool_three_large : World :=
  { pool := { blocks := [{ addr := 4096, last := 4224, end_ := 8192, failed := 0 }]
              max := 4016, current := 0, chain := none
              large := [{ addr := 4208, alloc := some 40000 },
                        { addr := 4192, alloc := some 30000 },
                        { addr := 4176, alloc := some 20000 }]
              cleanup := [] }
    heap := { script := [some 50000, some 60000, some 70000, some 80000, some 90000]
              live := [40000, 30000, 20000, 4096]
              trace := [RawCall.memalign 16 4096, RawCall.alloc 5000, RawCall.alloc 5000,
                        RawCall.alloc 5000] }
    ran := [] }

/-- The pool `pool9` after three calls `ngx_palloc(3000)`. -/
def pool_seven_3 : World :=
  { pool := { blocks := [{ addr := 4096, last := 7176, end_ := 8192, failed := 1 },
                         { addr := 20000, last := 23032, end_ := 24096, failed := 0 },
                         { addr := 30000, last := 33032, end_ := 34096, failed := 0 }]
              max := 4016, current := 0, chain := none
              large := []
              cleanup := [] }
    heap := { script := [some 40000, some 50000, some 60000, some 70000, some 80000, some 90000]
              live := [30000, 20000, 4096]
              trace := [RawCall.memalign 16 4096, RawCall.memalign 16 4096,
                        RawCall.memalign 16 4096] }
    ran := [] }

/-- The pool `pool9` after six calls `ngx_palloc(3000)`. -/
def pool_seven_6 : World :=
  { pool := { blocks := [{ addr := 4096, last := 7176, end_ := 8192, failed := 4 },
                         { addr := 20000, last := 23032, end_ := 24096, failed := 3 },
                         { addr := 30000, last := 33032, end_ := 34096, failed := 2 },
                         { addr := 40000, last := 43032, end_ := 44096, failed := 1 },
                         { addr := 50000, last := 53032, end_ := 54096, failed := 0 },
                         { addr := 60000, last := 63032, end_ := 64096, failed := 0 }]
              max := 4016, current := 0, chain := none
              large := []
              cleanup := [] }
    heap := { script := [some 70000, some 80000, some 90000]
              live := [60000, 50000, 40000, 30000, 20000, 4096]
              trace := [RawCall.memalign 16 4096, RawCall.memalign 16 4096,
                        RawCall.memalign 16 4096, RawCall.memalign 16 4096,
                        RawCall.memalign 16 4096, RawCall.memalign 16 4096] }
    ran := [] }

/-- The pool `pool_five_large` after one more `ngx_palloc(5000)`, which took the
empty fifth record: all five records are live. -/
def pool_five_live : World :=
  { pool_five_large with
    heap := { script := [some 80000, some 90000]
              live := [70000, 60000, 50000, 40000, 30000, 4096]
              trace := pool_five_large.heap.trace ++ [RawCall.alloc 5000] }
    pool := { pool_five_large.pool with
              large := [{ addr := 4240, alloc := some 60000 },
                        { addr := 4224, alloc := some 50000 },
                        { addr := 4208, alloc := some 40000 },
                        { addr := 4192, alloc := some 30000 },
                        { addr := 4176, alloc := some 70000 }] } }

/-- The provider of `pool_five_live` after one more `ngx_alloc(5000)`. -/
def heap_six : Heap :=
  { script := [some 90000]
    live := [80000, 70000, 60000, 50000, 40000, 30000, 4096]
    trace := pool_five_live.heap.trace ++ [RawCall.alloc 5000] }

/-- The pool `pool_five_live` after one more `ngx_palloc(5000)`: a sixth record, made
at 4256, is the head of the large list. -/
def pool_six_large : World :=
  { pool_five_live with
    heap := heap_six
    pool := { pool_five_live.pool with
              blocks := [{ addr := 4096, last := 4272, end_ := 8192, failed := 0 }]
              large := { addr := 4256, alloc := some 80000 } :: pool_five_live.pool.large } }

/-- The blocks that an allocation can reach are in order: `pool->current` is a block
of the chain, and every block from it on has a failure counter of at most `n`. -/
def FailedAtMost (n : Nat) (p : ngx_pool_t) : Prop :=
  p.current < p.blocks.length ∧ ∀ b ∈ p.blocks.drop p.current, b.failed ≤ n

/-! ## The cleanup list as it lies in memory -/

/-- A word of memory as the cleanup loops read it: `NULL`, an address, or a
handler. -/
inductive Word where
  | null
  | addr (a : Nat)
  | handler (h : Handler)
deriving DecidableEq, Repr

/-- A pointer as a word. -/
def Word.of_ptr : Option Nat → Word
  | none => Word.null
  | some a => Word.addr a

/-- A handler field as a word. -/
def Word.of_handler : Option Handler → Word
  | none => Word.null
  | some f => Word.handler f

/-- A word read as a data pointer or as a `next` pointer; `none` when it holds a
handler. -/
def Word.as_ptr : Word → Option (Option Nat)
  | Word.null => some none
  | Word.addr a => some (some a)
  | Word.handler _ => none

/-- A word read as a handler; `none` when it holds an address that is not a
handler. -/
def Word.as_handler : Word → Option (Option Handler)
  | Word.null => some none
  | Word.handler f => some (some f)
  | Word.addr _ => none

/-- The word at address `a`: the latest write to it, `none` when no write went
there. -/
def read_word (words : List (Nat × Word)) (a : Nat) : Option Word :=
  (words.find? (fun x => x.1 == a)).map Prod.snd

/-- The pool with its cleanup list in memory.  `cleanup` is the pointer
`pool->cleanup`, and `words` are the words written through cleanup records, latest
write first: `c->handler` at `c`, `c->data` at `c + 8` and `c->next` at `c + 16`.
The blocks, the large list and the provider are those of `world`, whose own list
of cleanup records is not used.  The words that `ngx_palloc_large` writes into a
large record are not kept. -/
structure MemWorld where
  world : World
  cleanup : Option Nat
  words : List (Nat × Word)
deriving DecidableEq, Repr

/-- `ngx_pool_cleanup_add(p, size)` with the record written to memory: `c->data`,
then `c->handler = NULL`, then `c->next = p->cleanup`, then `p->cleanup = c`.  When
the data allocation fails, `c->data = NULL` has been written before the return. -/
def ngx_pool_cleanup_add_mem (fuel : Nat) (s : MemWorld) (size : Nat) :
    Option (Option Nat × MemWorld) :=
  match ngx_palloc fuel s.world sizeof_ngx_pool_cleanup_t with
  | none => none
  | some (none, w1) => some (none, { s with world := w1 })
  | some (some c, w1) =>
    if size ≠ 0 then
      match ngx_palloc fuel w1 size with
      | none => none
      | some (none, w2) =>
        some (none, { s with world := w2, words := (c + 8, Word.null) :: s.words })
      | some (some d, w2) =>
        some (some c,
          { world := w2
            cleanup := some c
            words := (c + 16, Word.of_ptr s.cleanup) :: (c, Word.null) ::
              (c + 8, Word.addr d) :: s.words })
    else
      some (some c,
        { world := w1
          cleanup := some c
          words := (c + 16, Word.of_ptr s.cleanup) :: (c, Word.null) ::
            (c + 8, Word.null) :: s.words })

/-- `ngx_reset_pool(pool)` with the cleanup list in memory: it writes to no cleanup
record and leaves `pool->cleanup` as it is. -/
def ngx_reset_pool_mem (s : MemWorld) : MemWorld :=
  { s with world := ngx_reset_pool s.world }

/-- The caller's assignment `c->handler = f` to a record `c`. -/
def store_handler (c : Nat) (f : Handler) (s : MemWorld) : MemWorld :=
  { s with words := (c, Word.handler f) :: s.words }

/-- Outcome of a loop that follows the `next` pointers of the cleanup list in
memory: it has ended; or it is still running when the fuel is spent, with the
handler calls made so far; or it is stuck, on a word that no cleanup record wrote
or that does not hold what the loop reads it as. -/
inductive Run (α : Type) where
  | done (a : α)
  | running (ran : List (Handler × Option Nat))
  | stuck
deriving DecidableEq, Repr

/-- The first loop of `ngx_destroy_pool`, `for (c = pool->cleanup; c; c = c->next)`,
on the list in memory: one turn of the loop for each unit of fuel. -/
def run_cleanups_mem (words : List (Nat × Word)) :
    Nat → Option Nat → List (Handler × Option Nat) → Run (List (Handler × Option Nat))
  | _, none, ran => Run.done ran
  | 0, some _, ran => Run.running ran
  | fuel + 1, some c, ran =>
    match (read_word words c).bind Word.as_handler with
    | none => Run.stuck
    | some none =>
      match (read_word words (c + 16)).bind Word.as_ptr with
      | none => Run.stuck
      | some n => run_cleanups_mem words fuel n ran
    | some (some f) =>
      match (read_word words (c + 8)).bind Word.as_ptr with
      | none => Run.stuck
      | some d =>
        match (read_word words (c + 16)).bind Word.as_ptr with
        | none => Run.stuck
        | some n => run_cleanups_mem words fuel n (ran ++ [(f, d)])

/-- `ngx_destroy_pool(pool)` with the cleanup list in memory: the two loops that
release memory run once the loop over the cleanup list has ended. -/
def ngx_destroy_pool_mem (fuel : Nat) (s : MemWorld) : Run Destroyed :=
  match run_cleanups_mem s.words fuel s.cleanup s.world.ran with
  | Run.done ran =>
    Run.done
      { ran := ran
        heap := free_blocks (free_large s.world.heap s.world.pool.large) s.world.pool.blocks }
  | Run.running ran => Run.running ran
  | Run.stuck => Run.stuck

/-- The list `l` of records is the cleanup list that lies in memory from the
pointer `p` on. -/
def chain_is (words : List (Nat × Word)) : Option Nat → List ngx_pool_cleanup_t → Prop
  | p, [] => p = none
  | p, r :: rest =>
    p = some r.addr ∧ read_word words r.addr = some (Word.of_handler r.handler) ∧
      read_word words (r.addr + 8) = some (Word.of_ptr r.data) ∧
      ∃ n, read_word words (r.addr + 16) = some (Word.of_ptr n) ∧ chain_is words n rest

/-- The pool `ngx_create_pool(4096)` with its empty cleanup list in memory. -/
def mem4096 : MemWorld := { world := pool4096, cleanup := none, words := [] }

/-- The pool `mem4096` after `ngx_pool_cleanup_add(pool, 0)`: one record at 4176. -/
def mem_added : MemWorld :=
  { world := { pool4096 with
               pool := { pool4096.pool with
                         blocks := [{ addr := 4096, last := 4200, end_ := 8192, failed := 0 }] } }
    cleanup := some 4176
    words := [(4192, Word.null), (4176, Word.null), (4184, Word.null)] }

/-- The pool `mem_added` after the caller stored the handler `user 1` in the record,
`ngx_reset_pool(pool)` and `ngx_pool_cleanup_add(pool, 0)`: the record returned is
the record at 4176 again, and its `next` is 4176. -/
def mem_cyclic : MemWorld :=
  { world := mem_added.world
    cleanup := some 4176
    words := [(4192, Word.addr 4176), (4176, Word.null), (4184, Word.null),
              (4176, Word.handler (Handler.user 1)),
              (4192, Word.null), (4176, Word.null), (4184, Word.null)] }

/-! ## Arithmetic lemmas -/

theorem size_t_sub_of_le (a b : Nat) (hba : b ≤ a) (hlt : a - b < 2 ^ 64) :
    size_t_sub a b = a - b := by
  unfold size_t_sub
  omega

theorem size_t_sub_lt (a b : Nat) : size_t_sub a b < 2 ^ 64 := by
  unfold size_t_sub
  omega

theorem size_t_sub_shift (c a b : Nat) : size_t_sub (c + a) (c + b) = size_t_sub a b := by
  unfold size_t_sub
  omega

theorem ngx_align_ptr_eq (p : Nat) : ngx_align_ptr p NGX_ALIGNMENT = (p + 7) / 8 * 8 := rfl

theorem ngx_align_ptr_dvd (p : Nat) : NGX_ALIGNMENT ∣ ngx_align_ptr p NGX_ALIGNMENT :=
  Nat.dvd_mul_left _ _

theorem le_ngx_align_ptr (p : Nat) : p ≤ ngx_align_ptr p NGX_ALIGNMENT := by
  rw [ngx_align_ptr_eq]; omega

theorem ngx_align_ptr_add (a x : Nat) (h : 8 ∣ a) :
    ngx_align_ptr (a + x) NGX_ALIGNMENT = a + ngx_align_ptr x NGX_ALIGNMENT := by
  simp only [ngx_align_ptr_eq]; omega

/-! ## Lemmas on the provider -/

theorem request_none_live (h h1 : Heap) (c : RawCall) (hr : h.request c = (none, h1)) :
    h1.live = h.live := by
  unfold Heap.request at hr
  split at hr <;> simp at hr <;> (subst hr; rfl)

/-! ## C3: pool creation -/

/-- C3: `ngx_create_pool` returns `NULL` exactly when the aligned raw allocation
`ngx_memalign(NGX_POOL_ALIGNMENT, size)` fails; otherwise the pool is the block the
provider returned, with `d.last = pool + sizeof(ngx_pool_t)`, `d.end = pool + size`,
no next block, `d.failed = 0`, `current` the pool itself, empty large and cleanup
lists, and `max` the minimum of `size - sizeof(ngx_pool_t)` (in `size_t`
arithmetic) and `NGX_MAX_ALLOC_FROM_POOL`. -/
theorem c3_ngx_create_pool (h : Heap) (ngx_pagesize size : Nat) :
    ((ngx_create_pool h ngx_pagesize size).1 = none ↔
        (ngx_memalign h NGX_POOL_ALIGNMENT size).1 = none) ∧
    (ngx_create_pool h ngx_pagesize size).2 = (ngx_memalign h NGX_POOL_ALIGNMENT size).2 ∧
    ∀ p, (ngx_memalign h NGX_POOL_ALIGNMENT size).1 = some p →
      ∃ pool, (ngx_create_pool h ngx_pagesize size).1 = some pool ∧
        pool.blocks =
          [{ addr := p, last := p + sizeof_ngx_pool_t, end_ := p + size, failed := 0 }] ∧
        pool.current = 0 ∧ pool.chain = none ∧ pool.large = [] ∧ pool.cleanup = [] ∧
        pool.max = min (size_t_sub size sizeof_ngx_pool_t)
          (NGX_MAX_ALLOC_FROM_POOL ngx_pagesize) := by
  unfold ngx_create_pool
  rcases hm : ngx_memalign h NGX_POOL_ALIGNMENT size with ⟨r, h1⟩
  cases r with
  | none => simp
  | some a =>
    refine ⟨by simp, rfl, ?_⟩
    intro p hp
    simp only [Option.some.injEq] at hp
    subst hp
    refine ⟨_, rfl, rfl, rfl, rfl, rfl, rfl, ?_⟩
    simp only [Nat.min_def]
    split <;> split <;> omega

/-- C3, at a concrete request: a pool of 4096 bytes placed at address 4096. -/
theorem c3_ngx_create_pool_witness :
    ∃ pool, (ngx_create_pool heap4 4096 4096).1 = some pool ∧
      pool.blocks = [{ addr := 4096, last := 4096 + sizeof_ngx_pool_t, end_ := 4096 + 4096,
                       failed := 0 }] ∧
      pool.current = 0 ∧ pool.chain = none ∧ pool.large = [] ∧ pool.cleanup = [] ∧
      pool.max = min (size_t_sub 4096 sizeof_ngx_pool_t) (NGX_MAX_ALLOC_FROM_POOL 4096) :=
  (c3_ngx_create_pool heap4 4096 4096).2.2 4096 (by decide)

/-! ## C5: alignment of small allocations -/

theorem scan_blocks_mem (al : Nat → Nat) (size : Nat) :
    ∀ (l : List ngx_pool_data_t) (m : Nat) (rest : List ngx_pool_data_t),
      scan_blocks al size l = some (m, rest) → ∃ b ∈ l, m = al b.last := by
  intro l
  induction l with
  | nil => intro m rest h; simp [scan_blocks] at h
  | cons p tl ih =>
    intro m rest h
    unfold scan_blocks at h
    simp only at h
    split at h
    · simp only [Option.some.injEq, Prod.mk.injEq] at h
      exact ⟨p, List.mem_cons_self _ _, h.1.symm⟩
    · split at h
      · simp at h
      · rename_i r rest1 hs
        simp only [Option.some.injEq, Prod.mk.injEq] at h
        obtain ⟨b, hb, hm⟩ := ih r rest1 hs
        exact ⟨b, List.mem_cons_of_mem _ hb, by rw [← h.1]; exact hm⟩

theorem ngx_palloc_block_ok (w w1 : World) (size m : Nat)
    (h : ngx_palloc_block w size = (some m, w1)) :
    ∃ d tl m0 h1, w.pool.blocks = d :: tl ∧
      ngx_memalign w.heap NGX_POOL_ALIGNMENT (size_t_sub d.end_ d.addr) = (some m0, h1) ∧
      m = ngx_align_ptr (m0 + sizeof_ngx_pool_data_t) NGX_ALIGNMENT ∧
      w1 = { w with
             heap := h1
             pool := { w.pool with
                       blocks := w.pool.blocks.take w.pool.current ++
                         (walk_failed (w.pool.blocks.drop w.pool.current) w.pool.current
                           w.pool.current).1 ++
                         [{ addr := m0, last := m + size,
                            end_ := m0 + size_t_sub d.end_ d.addr, failed := 0 }]
                       current := (walk_failed (w.pool.blocks.drop w.pool.current)
                         w.pool.current w.pool.current).2 } } := by
  unfold ngx_palloc_block at h
  split at h
  · simp at h
  · rename_i d tl hb
    simp only at h
    split at h
    · simp at h
    · rename_i m0 h1 hm
      simp only [Prod.mk.injEq, Option.some.injEq] at h
      refine ⟨d, tl, m0, h1, hb, hm, h.1.symm, ?_⟩
      rw [← h.2, ← h.1]

theorem ngx_palloc_block_fail (w w1 : World) (size : Nat)
    (h : ngx_palloc_block w size = (none, w1)) :
    w1.pool = w.pool ∧ w1.heap.live = w.heap.live ∧ w1.ran = w.ran := by
  unfold ngx_palloc_block at h
  split at h
  · simp only [Prod.mk.injEq, true_and] at h
    subst h
    exact ⟨rfl, rfl, rfl⟩
  · simp only at h
    split at h
    · rename_i h1 hm
      simp only [Prod.mk.injEq, true_and] at h
      subst h
      exact ⟨rfl, request_none_live _ _ _ hm, rfl⟩
    · simp at h

theorem ngx_palloc_block_aligned (w w1 : World) (size m : Nat)
    (h : ngx_palloc_block w size = (some m, w1)) : NGX_ALIGNMENT ∣ m := by
  obtain ⟨_, _, _, _, _, _, hm, _⟩ := ngx_palloc_block_ok w w1 size m h
  rw [hm]
  exact ngx_align_ptr_dvd _

theorem palloc_small_aligned (w w1 : World) (size m : Nat)
    (h : palloc_small (fun x => ngx_align_ptr x NGX_ALIGNMENT) w size = (some m, w1)) :
    NGX_ALIGNMENT ∣ m := by
  unfold palloc_small at h
  split at h
  · rename_i m1 rest hs
    simp only [Prod.mk.injEq, Option.some.injEq] at h
    obtain ⟨b, _, hm⟩ := scan_blocks_mem _ _ _ _ _ hs
    rw [← h.1, hm]
    exact ngx_align_ptr_dvd _
  · exact ngx_palloc_block_aligned w w1 size m h

/-- C5: for every pool and every `size <= pool->max`, `ngx_palloc` returns (with any
positive fuel), and a non-null result is a multiple of `NGX_ALIGNMENT`: both a
pointer found by the scan of the existing blocks and a pointer into a block that
`ngx_palloc_block` has just added. -/
theorem c5_ngx_palloc_aligned (fuel : Nat) (w : World) (size : Nat) (hsize : size ≤ w.pool.max) :
    (∃ r w1, ngx_palloc (fuel + 1) w size = some (r, w1) ∧
        ∀ m, r = some m → NGX_ALIGNMENT ∣ m) ∧
    (∀ m rest, scan_blocks (fun x => ngx_align_ptr x NGX_ALIGNMENT) size
        (w.pool.blocks.drop w.pool.current) = some (m, rest) → NGX_ALIGNMENT ∣ m) ∧
    (∀ m w1, ngx_palloc_block w size = (some m, w1) → NGX_ALIGNMENT ∣ m) := by
  refine ⟨?_, ?_, ?_⟩
  · refine ⟨(palloc_small (fun x => ngx_align_ptr x NGX_ALIGNMENT) w size).1,
      (palloc_small (fun x => ngx_align_ptr x NGX_ALIGNMENT) w size).2, ?_, ?_⟩
    · simp [ngx_palloc, hsize]
    · intro m hm
      exact palloc_small_aligned w _ size m (Prod.ext hm rfl)
  · intro m rest hs
    obtain ⟨b, _, hm⟩ := scan_blocks_mem _ _ _ _ _ hs
    rw [hm]
    exact ngx_align_ptr_dvd _
  · intro m w1 hb
    exact ngx_palloc_block_aligned w w1 size m hb

/-- C5, at a concrete request: `ngx_palloc(pool, 2000)` on a pool whose head block
has 1016 bytes left is served from a new block, at an aligned address. -/
theorem c5_ngx_palloc_aligned_witness :
    ∃ r w1, ngx_palloc (0 + 1)
        { pool4096 with
          pool := { pool4096.pool with
                    blocks := [{ addr := 4096, last := 7176, end_ := 8192, failed := 0 }] } }
        2000 = some (r, w1) ∧
      ∀ m, r = some m → NGX_ALIGNMENT ∣ m :=
  (c5_ngx_palloc_aligned 0
    { pool4096 with
      pool := { pool4096.pool with
                blocks := [{ addr := 4096, last := 7176, end_ := 8192, failed := 0 }] } }
    2000 (by decide)).1

/-! ## C10: what reset leaves alone -/

theorem request_some_live (h h1 : Heap) (c : RawCall) (a : Nat)
    (hr : h.request c = (some a, h1)) : h1.live = a :: h.live := by
  unfold Heap.request at hr
  split at hr <;> simp at hr
  obtain ⟨ha, hh⟩ := hr
  subst hh
  subst ha
  rfl

theorem palloc_small_fail (al : Nat → Nat) (w w1 : World) (size : Nat)
    (h : palloc_small al w size = (none, w1)) :
    w1.pool = w.pool ∧ w1.heap.live = w.heap.live ∧ w1.ran = w.ran := by
  unfold palloc_small at h
  split at h
  · simp at h
  · exact ngx_palloc_block_fail w w1 size h

/-- A record allocation that fails after the raw memory `p` was obtained: the
memory is released again and nothing else has changed. -/
theorem record_fail_frame (w w2 : World) (h1 : Heap) (p : Nat)
    (hlive : h1.live = p :: w.heap.live)
    (hw2 : w2.pool = w.pool ∧ w2.heap.live = h1.live ∧ w2.ran = w.ran) :
    ({ w2 with heap := ngx_free w2.heap (some p) } : World).pool = w.pool ∧
    ({ w2 with heap := ngx_free w2.heap (some p) } : World).heap.live = w.heap.live ∧
    ({ w2 with heap := ngx_free w2.heap (some p) } : World).ran = w.ran := by
  refine ⟨hw2.1, ?_, hw2.2.2⟩
  simp [ngx_free, hw2.2.1, hlive]

theorem palloc_fail_frame (fuel : Nat) :
    (∀ w size w1, ngx_palloc fuel w size = some (none, w1) →
      w1.pool = w.pool ∧ w1.heap.live = w.heap.live ∧ w1.ran = w.ran) ∧
    (∀ w size w1, ngx_palloc_large fuel w size = some (none, w1) →
      w1.pool = w.pool ∧ w1.heap.live = w.heap.live ∧ w1.ran = w.ran) := by
  induction fuel with
  | zero => simp [ngx_palloc, ngx_palloc_large]
  | succ n ih =>
    constructor
    · intro w size w1 h
      unfold ngx_palloc at h
      split at h
      · simp only [Option.some.injEq] at h
        exact palloc_small_fail _ w w1 size h
      · exact ih.2 w size w1 h
    · intro w size w1 h
      unfold ngx_palloc_large at h
      split at h
      · rename_i h1 ha
        simp only [Option.some.injEq, Prod.mk.injEq, true_and] at h
        subst h
        exact ⟨rfl, request_none_live _ _ _ ha, rfl⟩
      · rename_i p h1 ha
        split at h
        · simp at h
        · split at h
          · simp at h
          · rename_i w2 hp
            simp only [Option.some.injEq, Prod.mk.injEq, true_and] at h
            subst h
            exact record_fail_frame w w2 h1 p (request_some_live _ _ _ _ ha)
              (ih.1 _ _ w2 hp)
          · simp at h

/-- C7: when `ngx_palloc_large` or `ngx_pmemalign` returns `NULL`, the live raw
allocations are those from before the call (raw memory obtained during the call
has been released again) and the pool, in particular its large list, its block
chain and `current`, is unchanged. -/
theorem c7_failed_large_alloc_frame :
    (∀ fuel w size w1, ngx_palloc_large fuel w size = some (none, w1) →
      w1.heap.live = w.heap.live ∧ w1.pool.large = w.pool.large ∧
      w1.pool.blocks = w.pool.blocks ∧ w1.pool.current = w.pool.current ∧
      w1.pool = w.pool) ∧
    (∀ fuel w size alignment w1, ngx_pmemalign fuel w size alignment = some (none, w1) →
      w1.heap.live = w.heap.live ∧ w1.pool.large = w.pool.large ∧
      w1.pool.blocks = w.pool.blocks ∧ w1.pool.current = w.pool.current ∧
      w1.pool = w.pool) := by
  constructor
  · intro fuel w size w1 h
    obtain ⟨hp, hl, _⟩ := (palloc_fail_frame fuel).2 w size w1 h
    exact ⟨hl, by rw [hp], by rw [hp], by rw [hp], hp⟩
  · intro fuel w size alignment w1 h
    have key : w1.pool = w.pool ∧ w1.heap.live = w.heap.live ∧ w1.ran = w.ran := by
      unfold ngx_pmemalign at h
      split at h
      · rename_i h1 ha
        simp only [Option.some.injEq, Prod.mk.injEq, true_and] at h
        subst h
        exact ⟨rfl, request_none_live _ _ _ ha, rfl⟩
      · rename_i p h1 ha
        split at h
        · simp at h
        · rename_i w2 hp
          simp only [Option.some.injEq, Prod.mk.injEq, true_and] at h
          subst h
          exact record_fail_frame w w2 h1 p (request_some_live _ _ _ _ ha)
            ((palloc_fail_frame fuel).1 _ _ w2 hp)
        · simp at h
    obtain ⟨hp, hl, _⟩ := key
    exact ⟨hl, by rw [hp], by rw [hp], by rw [hp], hp⟩

/-- C7, at a concrete failure: on a full pool of 112 bytes the provider serves the
raw memory at 100000 and then refuses the block needed for the record. -/
theorem c7_failed_large_alloc_frame_witness :
    ({ pool112_full with
       heap := { script := [], live := [4096]
                 trace := [RawCall.memalign 16 112, RawCall.alloc 5000,
                           RawCall.memalign 16 112, RawCall.free (some 100000)] } }
      : World).heap.live = pool112_full.heap.live ∧
    ({ pool112_full with
       heap := { script := [], live := [4096]
                 trace := [RawCall.memalign 16 112, RawCall.memalign 32 64,
                           RawCall.memalign 16 112, RawCall.free (some 100000)] } }
      : World).pool = pool112_full.pool :=
  ⟨(c7_failed_large_alloc_frame.1 2 pool112_full 5000 _ (by decide)).1,
   (c7_failed_large_alloc_frame.2 1 pool112_full 64 32 _ (by decide)).2.2.2.2⟩

/-! ## C6: explicit free -/

theorem pfree_scan_some (p : Option Nat) :
    ∀ (l l1 : List ngx_pool_large_t), pfree_scan p l = some l1 →
      ∃ pre x post, l = pre ++ x :: post ∧ (∀ y ∈ pre, y.alloc ≠ p) ∧ x.alloc = p ∧
        l1 = pre ++ { x with alloc := none } :: post := by
  intro l
  induction l with
  | nil => intro l1 h; simp [pfree_scan] at h
  | cons a tl ih =>
    intro l1 h
    unfold pfree_scan at h
    split at h
    · rename_i hpa
      simp only [Option.some.injEq] at h
      exact ⟨[], a, tl, rfl, by simp, hpa.symm, h.symm⟩
    · rename_i hpa
      split at h
      · simp at h
      · rename_i rest1 hs
        simp only [Option.some.injEq] at h
        obtain ⟨pre, x, post, hl, hpre, hx, hl1⟩ := ih rest1 hs
        refine ⟨a :: pre, x, post, by rw [hl]; rfl, ?_, hx, by rw [← h, hl1]; rfl⟩
        intro y hy
        rcases List.mem_cons.1 hy with hya | hyp
        · rw [hya]; exact fun e => hpa e.symm
        · exact hpre y hyp

theorem pfree_scan_none (p : Option Nat) :
    ∀ (l : List ngx_pool_large_t), pfree_scan p l = none ↔ ∀ y ∈ l, y.alloc ≠ p := by
  intro l
  induction l with
  | nil => simp [pfree_scan]
  | cons a tl ih =>
    unfold pfree_scan
    by_cases hpa : p = a.alloc
    · simp only [hpa, if_true]
      constructor
      · intro h; simp at h
      · intro h; exact absurd rfl (h a (List.mem_cons_self _ _))
    · simp only [hpa, if_false]
      cases hs : pfree_scan p tl with
      | none =>
        simp only [true_iff]
        intro y hy
        rcases List.mem_cons.1 hy with hya | hyp
        · rw [hya]; exact fun e => hpa e.symm
        · exact (ih.1 hs) y hyp
      | some rest1 =>
        simp only [reduceCtorEq, false_iff]
        intro h
        have := ih.2 (fun y hy => h y (List.mem_cons_of_mem _ hy))
        rw [hs] at this
        simp at this

/-- C6, as the claim states it, fails for `p = NULL`: in the pool obtained from
`ngx_create_pool(4096)` by `ngx_palloc(5000)` and `ngx_pfree` of the pointer
returned, no record of the large list is live, and `ngx_pfree(pool, NULL)` returns
`NGX_OK` all the same. -/
theorem c6_pfree_null_counterexample :
    run_ops 3 pool4096 [PoolOp.palloc 5000, PoolOp.pfree (some 8192)] = some pool_freed ∧
    (ngx_pfree pool_freed none).1 = ngx_int_t.NGX_OK ∧
    ¬ ((ngx_pfree pool_freed none).1 = ngx_int_t.NGX_OK ↔
        ∃ l ∈ pool_freed.pool.large, l.alloc ≠ none ∧ l.alloc = none) := by
  decide

/-- C6, amended: for a non-null pointer `p`, `ngx_pfree(pool, p)` returns `NGX_OK`
exactly when a (live) record of the large list holds `p`; then the first such
record is emptied, `p` is released once, and every other record and the rest of
the pool are unchanged.  Otherwise it returns `NGX_DECLINED`, makes no call to the
provider and leaves the pool unchanged. -/
theorem c6_ngx_pfree (w : World) (a : Nat) :
    ((ngx_pfree w (some a)).1 = ngx_int_t.NGX_OK ↔
        ∃ l ∈ w.pool.large, l.alloc ≠ none ∧ l.alloc = some a) ∧
    ((ngx_pfree w (some a)).1 = ngx_int_t.NGX_OK →
      ∃ pre x post, w.pool.large = pre ++ x :: post ∧
        (∀ y ∈ pre, y.alloc ≠ some a) ∧ x.alloc = some a ∧
        (ngx_pfree w (some a)).2.pool =
          { w.pool with large := pre ++ { x with alloc := none } :: post } ∧
        (ngx_pfree w (some a)).2.heap.live = w.heap.live.erase a ∧
        (ngx_pfree w (some a)).2.heap.trace = w.heap.trace ++ [RawCall.free (some a)] ∧
        (ngx_pfree w (some a)).2.heap.script = w.heap.script ∧
        (ngx_pfree w (some a)).2.ran = w.ran) ∧
    ((ngx_pfree w (some a)).1 ≠ ngx_int_t.NGX_OK →
      (ngx_pfree w (some a)).1 = ngx_int_t.NGX_DECLINED ∧ (ngx_pfree w (some a)).2 = w) := by
  unfold ngx_pfree
  cases hs : pfree_scan (some a) w.pool.large with
  | none =>
    have hn := (pfree_scan_none (some a) w.pool.large).1 hs
    refine ⟨?_, ?_, ?_⟩
    · simp only [false_iff, reduceCtorEq]
      rintro ⟨l, hl, _, hla⟩
      exact hn l hl hla
    · intro h; simp at h
    · intro _; exact ⟨rfl, rfl⟩
  | some l1 =>
    obtain ⟨pre, x, post, hl, hpre, hx, hl1⟩ := pfree_scan_some (some a) _ _ hs
    refine ⟨?_, ?_, ?_⟩
    · simp only [true_iff]
      refine ⟨x, ?_, ?_, hx⟩
      · rw [hl]; simp
      · rw [hx]; simp
    · intro _
      refine ⟨pre, x, post, hl, hpre, hx, ?_, rfl, rfl, rfl, rfl⟩
      simp only [hl1]
    · intro h; simp at h

/-- C6 amended, at a concrete pool: freeing the pointer 8192 that the only large
record of `pool_large` holds. -/
theorem c6_ngx_pfree_witness :
    ∃ pre x post, pool_large.pool.large = pre ++ x :: post ∧
      (∀ y ∈ pre, y.alloc ≠ some 8192) ∧ x.alloc = some 8192 ∧
      (ngx_pfree pool_large (some 8192)).2.pool =
        { pool_large.pool with large := pre ++ { x with alloc := none } :: post } ∧
      (ngx_pfree pool_large (some 8192)).2.heap.live = pool_large.heap.live.erase 8192 ∧
      (ngx_pfree pool_large (some 8192)).2.heap.trace =
        pool_large.heap.trace ++ [RawCall.free (some 8192)] ∧
      (ngx_pfree pool_large (some 8192)).2.heap.script = pool_large.heap.script ∧
      (ngx_pfree pool_large (some 8192)).2.ran = pool_large.ran :=
  (c6_ngx_pfree pool_large 8192).2.1 (by decide)

/-! ## C1, C4, C8: the code at the inputs where it leaves the specification -/

/-- C1, the code at a failing input: on `ngx_create_pool(121)` (41 usable bytes after
the header of 80 bytes) the calls `ngx_palloc(pool, 41)` and `ngx_palloc(pool, 1)`
leave the head block with `last = 4225` beyond `end = 4217`.  In the second call
the aligned `last`, 4224, is already beyond `end`, and `(size_t) (p->d.end - m)`
wraps to `2 ^ 64 - 7`, which passes the test. -/
theorem c1_last_beyond_end :
    NGX_MIN_POOL_SIZE ≤ 121 ∧
    create_world heap4 4096 121 = some pool121 ∧
    run_ops 1 pool121 [PoolOp.palloc 41] = some pool121_full ∧
    size_t_sub 4217 (ngx_align_ptr 4217 NGX_ALIGNMENT) = 2 ^ 64 - 7 ∧
    (∃ w, run_ops 1 pool121 [PoolOp.palloc 41, PoolOp.palloc 1] = some w ∧
      w.pool.blocks = [{ addr := 4096, last := 4225, end_ := 4217, failed := 0 }] ∧
      ¬ ∀ b ∈ w.pool.blocks, b.last ≤ b.end_) := by
  refine ⟨by decide, by decide, by decide, by decide, ?_⟩
  exact ⟨{ pool121 with
           pool := { pool121.pool with
                     blocks := [{ addr := 4096, last := 4225, end_ := 4217, failed := 0 }] } },
    by decide, by decide, by decide⟩

/-- C4, the code at a failing input: on `ngx_create_pool(121)` after
`ngx_palloc(pool, 41)`, the call `ngx_palloc(pool, 1)` (with `1 <= pool->max`) returns
4224, an address that lies in no block of the chain, neither before nor after
the call: the only block spans 4096 to 4217. -/
theorem c4_small_result_outside_blocks :
    create_world heap4 4096 121 = some pool121 ∧
    ngx_palloc 1 pool121 41 = some (some 4176, pool121_full) ∧
    1 ≤ pool121_full.pool.max ∧
    (∃ w, ngx_palloc 1 pool121_full 1 = some (some 4224, w) ∧
      (∀ b ∈ pool121_full.pool.blocks, ¬ (b.addr ≤ 4224 ∧ 4224 + 1 ≤ b.end_)) ∧
      (∀ b ∈ w.pool.blocks, ¬ (b.addr ≤ 4224 ∧ 4224 + 1 ≤ b.end_))) := by
  refine ⟨by decide, by decide, by decide, ?_⟩
  exact ⟨{ pool121 with
           pool := { pool121.pool with
                     blocks := [{ addr := 4096, last := 4225, end_ := 4217, failed := 0 }] } },
    by decide, by decide, by decide⟩

/-- C8, the code at a failing input: in a pool of 4096 bytes with a second block at
8192, block growth placed the first allocation of that block at
`8192 + sizeof(ngx_pool_data_t) = 8224`, and `ngx_reset_pool` sets its `last` to
`8192 + sizeof(ngx_pool_t) = 8272`, as it does for the head block. -/
theorem c8_reset_rewinds_past_header :
    create_world heap4 4096 4096 = some pool4096 ∧
    run_ops 1 pool4096 [PoolOp.palloc 3000] =
      some { pool4096 with
             pool := { pool4096.pool with
                       blocks := [{ addr := 4096, last := 7176, end_ := 8192, failed := 0 }] } } ∧
    ngx_palloc 1
      { pool4096 with
        pool := { pool4096.pool with
                  blocks := [{ addr := 4096, last := 7176, end_ := 8192, failed := 0 }] } }
      2000 = some (some 8224, pool_two_blocks) ∧
    ngx_align_ptr (8192 + sizeof_ngx_pool_data_t) NGX_ALIGNMENT = 8224 ∧
    (ngx_reset_pool pool_two_blocks).pool.blocks =
      [{ addr := 4096, last := 4176, end_ := 8192, failed := 0 },
       { addr := 8192, last := 8272, end_ := 12288, failed := 0 }] ∧
    ¬ ∀ b ∈ ((ngx_reset_pool pool_two_blocks).pool.blocks).tail,
        b.last = ngx_align_ptr (b.addr + sizeof_ngx_pool_data_t) NGX_ALIGNMENT := by
  decide

/-- What `ngx_reset_pool` does to the chain, in every pool: every block, head or
not, gets `last = block + sizeof(ngx_pool_t)` and `failed = 0`; the blocks, their
order and their ends are kept. -/
theorem ngx_reset_pool_blocks (w : World) :
    (∀ b ∈ (ngx_reset_pool w).pool.blocks,
      b.last = b.addr + sizeof_ngx_pool_t ∧ b.failed = 0) ∧
    (ngx_reset_pool w).pool.blocks.map ngx_pool_data_t.span =
      w.pool.blocks.map ngx_pool_data_t.span := by
  constructor
  · intro b hb
    simp only [ngx_reset_pool, List.mem_map] at hb
    obtain ⟨b0, _, hbeq⟩ := hb
    rw [← hbeq]
    exact ⟨rfl, rfl⟩
  · simp only [ngx_reset_pool, List.map_map]
    rfl

/-! ## The chain only grows at its tail -/

theorem SpanExt.refl (p : ngx_pool_t) : SpanExt p p :=
  ⟨rfl, [], by simp⟩

theorem SpanExt.trans {p p1 p2 : ngx_pool_t} (h1 : SpanExt p p1) (h2 : SpanExt p1 p2) :
    SpanExt p p2 := by
  obtain ⟨hm1, e1, he1⟩ := h1
  obtain ⟨hm2, e2, he2⟩ := h2
  exact ⟨hm2.trans hm1, e1 ++ e2, by rw [he2, he1, List.append_assoc]⟩

theorem SpanExt.length_le {p p1 : ngx_pool_t} (h : SpanExt p p1) :
    p.blocks.length ≤ p1.blocks.length := by
  obtain ⟨_, e, he⟩ := h
  have := congrArg List.length he
  simp only [List.length_map, List.length_append] at this
  omega

theorem SpanExt.head {p p1 : ngx_pool_t} (h : SpanExt p p1) (b : ngx_pool_data_t)
    (tl : List ngx_pool_data_t) (hb : p.blocks = b :: tl) :
    ∃ b1 tl1, p1.blocks = b1 :: tl1 ∧ b1.addr = b.addr ∧ b1.end_ = b.end_ := by
  obtain ⟨_, e, he⟩ := h
  rw [hb] at he
  cases hp1 : p1.blocks with
  | nil => rw [hp1] at he; simp at he
  | cons b1 tl1 =>
    rw [hp1] at he
    simp only [List.map_cons, List.cons_append, List.cons.injEq] at he
    have h1 := he.1
    simp only [ngx_pool_data_t.span, Prod.mk.injEq] at h1
    exact ⟨b1, tl1, rfl, h1.1, h1.2⟩

theorem scan_blocks_span (al : Nat → Nat) (size : Nat) :
    ∀ (l : List ngx_pool_data_t) (m : Nat) (l1 : List ngx_pool_data_t),
      scan_blocks al size l = some (m, l1) →
        l1.map ngx_pool_data_t.span = l.map ngx_pool_data_t.span := by
  intro l
  induction l with
  | nil => intro m l1 h; simp [scan_blocks] at h
  | cons p tl ih =>
    intro m l1 h
    unfold scan_blocks at h
    simp only at h
    split at h
    · simp only [Option.some.injEq, Prod.mk.injEq] at h
      rw [← h.2]
      rfl
    · split at h
      · simp at h
      · rename_i r rest1 hs
        simp only [Option.some.injEq, Prod.mk.injEq] at h
        rw [← h.2, List.map_cons, List.map_cons, ih r rest1 hs]

theorem walk_failed_span :
    ∀ (l : List ngx_pool_data_t) (idx cur : Nat),
      (walk_failed l idx cur).1.map ngx_pool_data_t.span = l.map ngx_pool_data_t.span := by
  intro l
  induction l with
  | nil => intro idx cur; rfl
  | cons p tl ih =>
    intro idx cur
    cases tl with
    | nil => rfl
    | cons q rest =>
      unfold walk_failed
      simp only [List.map_cons]
      rw [ih (idx + 1) _]
      rfl

theorem ngx_palloc_block_ext (w w1 : World) (size : Nat) (r : Option Nat)
    (h : ngx_palloc_block w size = (r, w1)) :
    SpanExt w.pool w1.pool ∧ w1.pool.large = w.pool.large ∧
      w1.pool.cleanup = w.pool.cleanup ∧ w1.ran = w.ran := by
  cases r with
  | none =>
    obtain ⟨hp, _, hr⟩ := ngx_palloc_block_fail w w1 size h
    rw [hp]
    exact ⟨SpanExt.refl _, rfl, rfl, hr⟩
  | some m =>
    obtain ⟨d, tl, m0, h1, _, _, _, hw1⟩ := ngx_palloc_block_ok w w1 size m h
    subst hw1
    refine ⟨⟨rfl, [(m0, m0 + size_t_sub d.end_ d.addr)], ?_⟩, rfl, rfl, rfl⟩
    simp only [List.map_append, walk_failed_span, List.map_cons, List.map_nil]
    rw [← List.map_append, List.take_append_drop]
    rfl

theorem palloc_small_ext (al : Nat → Nat) (w w1 : World) (size : Nat) (r : Option Nat)
    (h : palloc_small al w size = (r, w1)) :
    SpanExt w.pool w1.pool ∧ w1.pool.large = w.pool.large ∧
      w1.pool.cleanup = w.pool.cleanup ∧ w1.ran = w.ran := by
  unfold palloc_small at h
  split at h
  · rename_i m rest hs
    simp only [Prod.mk.injEq] at h
    rw [← h.2]
    refine ⟨⟨rfl, [], ?_⟩, rfl, rfl, rfl⟩
    simp only [List.map_append, scan_blocks_span al size _ m rest hs, List.append_nil]
    rw [← List.map_append, List.take_append_drop]
  · exact ngx_palloc_block_ext w w1 size r h

theorem palloc_ext (fuel : Nat) :
    (∀ w size r w1, ngx_palloc fuel w size = some (r, w1) →
      SpanExt w.pool w1.pool ∧ w1.pool.cleanup = w.pool.cleanup ∧ w1.ran = w.ran) ∧
    (∀ w size r w1, ngx_palloc_large fuel w size = some (r, w1) →
      SpanExt w.pool w1.pool ∧ w1.pool.cleanup = w.pool.cleanup ∧ w1.ran = w.ran) := by
  induction fuel with
  | zero => simp [ngx_palloc, ngx_palloc_large]
  | succ n ih =>
    constructor
    · intro w size r w1 h
      unfold ngx_palloc at h
      split at h
      · simp only [Option.some.injEq] at h
        obtain ⟨hs, _, hc, hr⟩ := palloc_small_ext _ w w1 size r h
        exact ⟨hs, hc, hr⟩
      · exact ih.2 w size r w1 h
    · intro w size r w1 h
      unfold ngx_palloc_large at h
      split at h
      · simp only [Option.some.injEq, Prod.mk.injEq] at h
        rw [← h.2]
        exact ⟨SpanExt.refl _, rfl, rfl⟩
      · split at h
        · simp only [Option.some.injEq, Prod.mk.injEq] at h
          rw [← h.2]
          exact ⟨⟨rfl, [], by simp⟩, rfl, rfl⟩
        · split at h
          · simp at h
          · rename_i w2 hp
            simp only [Option.some.injEq, Prod.mk.injEq] at h
            rw [← h.2]
            have h2 := ih.1 _ _ _ w2 hp
            exact h2
          · rename_i l w2 hp
            simp only [Option.some.injEq, Prod.mk.injEq] at h
            rw [← h.2]
            have h2 := ih.1 _ _ _ w2 hp
            obtain ⟨hs, hc, hr⟩ := h2
            exact ⟨⟨hs.1, hs.2⟩, hc, hr⟩

/-! ## C2: allocations that fit in the head block -/

theorem palloc_head_fit (fuel : Nat) (w : World) (b : ngx_pool_data_t)
    (rest : List ngx_pool_data_t) (s : Nat)
    (hb : w.pool.blocks = b :: rest) (hc : w.pool.current = 0) (hs : s ≤ w.pool.max)
    (hfit : s ≤ size_t_sub b.end_ (ngx_align_ptr b.last NGX_ALIGNMENT)) :
    ngx_palloc (fuel + 1) w s =
      some (some (ngx_align_ptr b.last NGX_ALIGNMENT),
        { w with pool := { w.pool with
                           blocks := { b with last := ngx_align_ptr b.last NGX_ALIGNMENT + s }
                             :: rest } }) := by
  unfold ngx_palloc
  simp only [hs, if_true]
  unfold palloc_small
  have hd : w.pool.blocks.drop w.pool.current = b :: rest := by rw [hc, hb]; rfl
  have ht : w.pool.blocks.take w.pool.current = [] := by rw [hc]; rfl
  rw [hd, ht]
  unfold scan_blocks
  simp only [hfit, if_true, List.nil_append]

theorem le_bump_end : ∀ (sizes : List Nat) (c : Nat), c ≤ bump_end c sizes := by
  intro sizes
  induction sizes with
  | nil => intro c; exact Nat.le_refl _
  | cons s rest ih =>
    intro c
    unfold bump_end
    have h1 := ih (ngx_align_ptr c NGX_ALIGNMENT + s)
    have h2 := le_ngx_align_ptr c
    omega

theorem palloc_seq_head_fit (fuel : Nat) :
    ∀ (sizes : List Nat) (w : World) (b : ngx_pool_data_t) (rest : List ngx_pool_data_t),
      w.pool.blocks = b :: rest → w.pool.current = 0 →
      (∀ s ∈ sizes, s ≤ w.pool.max) →
      bump_end b.last sizes ≤ b.end_ → b.end_ < b.last + 2 ^ 64 →
      ∃ (ps : List Nat) (w1 : World), ngx_palloc_seq (fuel + 1) w sizes = some (ps.map some, w1) ∧
        w1.heap = w.heap ∧ w1.pool.blocks.length = w.pool.blocks.length ∧
        ps.length = sizes.length ∧
        (∀ x ∈ ps.zip sizes, b.last ≤ x.1 ∧ x.1 + x.2 ≤ b.end_) ∧
        (ps.zip sizes).Pairwise (fun x y => x.1 + x.2 ≤ y.1) := by
  intro sizes
  induction sizes with
  | nil =>
    intro w b rest _ _ _ _ _
    exact ⟨[], w, rfl, rfl, rfl, rfl, by simp, by simp⟩
  | cons s tl ih =>
    intro w b rest hb hc hmax hfit hlt
    have hm := le_ngx_align_ptr b.last
    have hge := le_bump_end tl (ngx_align_ptr b.last NGX_ALIGNMENT + s)
    unfold bump_end at hfit
    have hsub : size_t_sub b.end_ (ngx_align_ptr b.last NGX_ALIGNMENT) =
        b.end_ - ngx_align_ptr b.last NGX_ALIGNMENT :=
      size_t_sub_of_le _ _ (by omega) (by omega)
    have hstep := palloc_head_fit fuel w b rest s hb hc (hmax s (List.mem_cons_self _ _))
      (by rw [hsub]; omega)
    obtain ⟨ps, w1, hseq, hheap, hlen, hpl, hspan, hpw⟩ :=
      ih { w with pool := { w.pool with
                            blocks := { b with last := ngx_align_ptr b.last NGX_ALIGNMENT + s }
                              :: rest } }
        { b with last := ngx_align_ptr b.last NGX_ALIGNMENT + s } rest rfl hc
        (fun x hx => hmax x (List.mem_cons_of_mem _ hx)) hfit (by simp only; omega)
    refine ⟨ngx_align_ptr b.last NGX_ALIGNMENT :: ps, w1, ?_, hheap, ?_, ?_, ?_, ?_⟩
    · unfold ngx_palloc_seq
      rw [hstep]
      simp only [hseq, List.map_cons]
    · rw [hlen, hb]; rfl
    · simp [hpl]
    · intro x hx
      simp only [List.zip_cons_cons, List.mem_cons] at hx
      rcases hx with hx | hx
      · subst hx
        simp only
        omega
      · have := hspan x hx
        simp only at this
        omega
    · simp only [List.zip_cons_cons, List.pairwise_cons]
      refine ⟨?_, hpw⟩
      intro y hy
      have := hspan y hy
      simp only at this
      omega

theorem create_world_eq (h : Heap) (ngx_pagesize size : Nat) (w : World)
    (hw : create_world h ngx_pagesize size = some w) :
    ∃ p h1, ngx_memalign h NGX_POOL_ALIGNMENT size = (some p, h1) ∧
      w = { pool := { blocks := [{ addr := p, last := p + sizeof_ngx_pool_t, end_ := p + size,
                                   failed := 0 }]
                      max := if size_t_sub size sizeof_ngx_pool_t <
                               NGX_MAX_ALLOC_FROM_POOL ngx_pagesize
                             then size_t_sub size sizeof_ngx_pool_t
                             else NGX_MAX_ALLOC_FROM_POOL ngx_pagesize
                      current := 0, chain := none, large := [], cleanup := [] }
            heap := h1, ran := [] } := by
  unfold create_world ngx_create_pool at hw
  rcases hm : ngx_memalign h NGX_POOL_ALIGNMENT size with ⟨r, h1⟩
  rw [hm] at hw
  cases r with
  | none => simp at hw
  | some p =>
    simp only [Option.some.injEq] at hw
    exact ⟨p, h1, rfl, hw.symm⟩

/-- C2: on a pool freshly created with `sizeof(ngx_pool_t) <= S` at address `p`, for
every sequence of `ngx_palloc` sizes, each at most `pool->max`, whose cumulative
size plus alignment padding does not exceed `S - sizeof(ngx_pool_t)` (the bump
cursor, started after the header, ends at or before `p + S`): every call returns
a pointer, the provider is not called (no new block is requested, the chain
keeps its single block), every returned range lies in
`[p + sizeof(ngx_pool_t), p + S)`, and each range ends before the later ones
begin. -/
theorem c2_head_block_allocations (h : Heap) (ngx_pagesize S p fuel : Nat) (w : World)
    (sizes : List Nat)
    (hS : sizeof_ngx_pool_t ≤ S) (hS64 : S < 2 ^ 64)
    (hw : create_world h ngx_pagesize S = some w)
    (hp : (ngx_memalign h NGX_POOL_ALIGNMENT S).1 = some p)
    (hmax : ∀ s ∈ sizes, s ≤ w.pool.max)
    (hfit : bump_end (p + sizeof_ngx_pool_t) sizes - (p + sizeof_ngx_pool_t) ≤
      S - sizeof_ngx_pool_t) :
    ∃ (ps : List Nat) (w1 : World), ngx_palloc_seq (fuel + 1) w sizes = some (ps.map some, w1) ∧
      w1.heap = w.heap ∧ w1.pool.blocks.length = 1 ∧
      ps.length = sizes.length ∧
      (∀ x ∈ ps.zip sizes, p + sizeof_ngx_pool_t ≤ x.1 ∧ x.1 + x.2 ≤ p + S) ∧
      (ps.zip sizes).Pairwise (fun x y => x.1 + x.2 ≤ y.1) := by
  obtain ⟨p1, h1, hm, hweq⟩ := create_world_eq h ngx_pagesize S w hw
  rw [hm] at hp
  simp only [Option.some.injEq] at hp
  subst hp
  have hge := le_bump_end sizes (p1 + sizeof_ngx_pool_t)
  simp only [sizeof_ngx_pool_t] at hS hfit hge
  have key := palloc_seq_head_fit fuel sizes w
    { addr := p1, last := p1 + sizeof_ngx_pool_t, end_ := p1 + S, failed := 0 } []
    (by rw [hweq]) (by rw [hweq]) hmax
    (by simp only [sizeof_ngx_pool_t]; omega) (by simp only [sizeof_ngx_pool_t]; omega)
  obtain ⟨ps, w1, hseq, hheap, hlen, hpl, hspan, hpw⟩ := key
  refine ⟨ps, w1, hseq, hheap, ?_, hpl, hspan, hpw⟩
  rw [hlen, hweq]
  rfl

/-- C2, at a concrete sequence: requests of 3, 8 and 100 bytes on the pool of 4096
bytes at 4096 (cursor ends at 4292). -/
theorem c2_head_block_allocations_witness :
    ∃ (ps : List Nat) (w1 : World), ngx_palloc_seq (0 + 1) pool4096 [3, 8, 100] = some (ps.map some, w1) ∧
      w1.heap = pool4096.heap ∧ w1.pool.blocks.length = 1 ∧
      ps.length = [3, 8, 100].length ∧
      (∀ x ∈ ps.zip [3, 8, 100], 4096 + sizeof_ngx_pool_t ≤ x.1 ∧ x.1 + x.2 ≤ 4096 + 4096) ∧
      (ps.zip [3, 8, 100]).Pairwise (fun x y => x.1 + x.2 ≤ y.1) :=
  c2_head_block_allocations heap4 4096 4096 4096 0 pool4096 [3, 8, 100]
    (by decide) (by decide) (by decide) (by decide) (by decide) (by decide)

/-! ## C9: after a reset the head block serves what a fresh pool serves -/

theorem ngx_palloc_large_ext (fuel : Nat) (w w1 : World) (size : Nat) (r : Option Nat)
    (h : ngx_palloc_large fuel w size = some (r, w1)) :
    SpanExt w.pool w1.pool ∧ w1.pool.cleanup = w.pool.cleanup ∧ w1.ran = w.ran :=
  (palloc_ext fuel).2 w size r w1 h

theorem ngx_palloc_ext (fuel : Nat) (w w1 : World) (size : Nat) (r : Option Nat)
    (h : ngx_palloc fuel w size = some (r, w1)) :
    SpanExt w.pool w1.pool ∧ w1.pool.cleanup = w.pool.cleanup ∧ w1.ran = w.ran :=
  (palloc_ext fuel).1 w size r w1 h

theorem ngx_pnalloc_ext (fuel : Nat) (w w1 : World) (size : Nat) (r : Option Nat)
    (h : ngx_pnalloc fuel w size = some (r, w1)) : SpanExt w.pool w1.pool := by
  unfold ngx_pnalloc at h
  split at h
  · simp only [Option.some.injEq] at h
    exact (palloc_small_ext _ w w1 size r h).1
  · exact (ngx_palloc_large_ext fuel w w1 size r h).1

theorem ngx_pmemalign_ext (fuel : Nat) (w w1 : World) (size alignment : Nat) (r : Option Nat)
    (h : ngx_pmemalign fuel w size alignment = some (r, w1)) : SpanExt w.pool w1.pool := by
  unfold ngx_pmemalign at h
  split at h
  · simp only [Option.some.injEq, Prod.mk.injEq] at h
    rw [← h.2]
    exact SpanExt.refl _
  · split at h
    · simp at h
    · rename_i w2 hp
      simp only [Option.some.injEq, Prod.mk.injEq] at h
      rw [← h.2]
      have h2 := (ngx_palloc_ext fuel _ w2 _ _ hp).1
      exact h2
    · rename_i l w2 hp
      simp only [Option.some.injEq, Prod.mk.injEq] at h
      rw [← h.2]
      have h2 := (ngx_palloc_ext fuel _ w2 _ _ hp).1
      exact ⟨h2.1, h2.2⟩

theorem ngx_pool_cleanup_add_ext (fuel : Nat) (w w1 : World) (size : Nat)
    (r : Option ngx_pool_cleanup_t)
    (h : ngx_pool_cleanup_add fuel w size = some (r, w1)) : SpanExt w.pool w1.pool := by
  unfold ngx_pool_cleanup_add at h
  split at h
  · simp at h
  · rename_i w2 hp
    simp only [Option.some.injEq, Prod.mk.injEq] at h
    rw [← h.2]
    exact (ngx_palloc_ext fuel _ w2 _ _ hp).1
  · rename_i c w2 hp
    have h2 := (ngx_palloc_ext fuel _ w2 _ _ hp).1
    split at h
    · split at h
      · simp at h
      · rename_i w3 hp3
        simp only [Option.some.injEq, Prod.mk.injEq] at h
        rw [← h.2]
        exact h2.trans (ngx_palloc_ext fuel _ w3 _ _ hp3).1
      · rename_i d w3 hp3
        simp only [Option.some.injEq, Prod.mk.injEq] at h
        rw [← h.2]
        have h3 := (ngx_palloc_ext fuel _ w3 _ _ hp3).1
        exact h2.trans ⟨h3.1, h3.2⟩
    · simp only [Option.some.injEq, Prod.mk.injEq] at h
      rw [← h.2]
      exact ⟨h2.1, h2.2⟩

theorem ngx_pfree_ext (w : World) (p : Option Nat) : SpanExt w.pool (ngx_pfree w p).2.pool := by
  unfold ngx_pfree
  split
  · exact ⟨rfl, [], by simp⟩
  · exact SpanExt.refl _

theorem ngx_reset_pool_ext (w : World) : SpanExt w.pool (ngx_reset_pool w).pool := by
  refine ⟨rfl, [], ?_⟩
  simp only [ngx_reset_pool, List.map_map, List.append_nil]
  rfl

theorem map_snd_eq_some {α β : Type} (o : Option (α × β)) (b : β)
    (h : o.map Prod.snd = some b) : ∃ a, o = some (a, b) := by
  cases o with
  | none => simp at h
  | some x =>
    obtain ⟨x1, x2⟩ := x
    simp only [Option.map_some', Option.some.injEq] at h
    exact ⟨x1, by rw [h]⟩

theorem PoolOp.run_ext (fuel : Nat) (w w1 : World) (op : PoolOp)
    (h : op.run fuel w = some w1) : SpanExt w.pool w1.pool := by
  cases op with
  | palloc size =>
    obtain ⟨r, hr⟩ := map_snd_eq_some _ w1 h
    exact (ngx_palloc_ext fuel w w1 size r hr).1
  | pnalloc size =>
    obtain ⟨r, hr⟩ := map_snd_eq_some _ w1 h
    exact ngx_pnalloc_ext fuel w w1 size r hr
  | pcalloc size =>
    obtain ⟨r, hr⟩ := map_snd_eq_some _ w1 h
    exact (ngx_palloc_ext fuel w w1 size r hr).1
  | pmemalign size alignment =>
    obtain ⟨r, hr⟩ := map_snd_eq_some _ w1 h
    exact ngx_pmemalign_ext fuel w w1 size alignment r hr
  | pfree p =>
    simp only [PoolOp.run, Option.some.injEq] at h
    rw [← h]
    exact ngx_pfree_ext w p
  | cleanup_add size =>
    obtain ⟨r, hr⟩ := map_snd_eq_some _ w1 h
    exact ngx_pool_cleanup_add_ext fuel w w1 size r hr
  | reset =>
    simp only [PoolOp.run, Option.some.injEq] at h
    rw [← h]
    exact ngx_reset_pool_ext w

theorem run_ops_ext (fuel : Nat) :
    ∀ (ops : List PoolOp) (w w1 : World), run_ops fuel w ops = some w1 →
      SpanExt w.pool w1.pool := by
  intro ops
  induction ops with
  | nil =>
    intro w w1 h
    simp only [run_ops, Option.some.injEq] at h
    rw [← h]
    exact SpanExt.refl _
  | cons op rest ih =>
    intro w w1 h
    unfold run_ops at h
    split at h
    · simp at h
    · rename_i w2 hop
      exact (PoolOp.run_ext fuel w w2 op hop).trans (ih w2 w1 h)

theorem ngx_palloc_seq_ext (fuel : Nat) :
    ∀ (sizes : List Nat) (w w1 : World) (ps : List (Option Nat)),
      ngx_palloc_seq fuel w sizes = some (ps, w1) → SpanExt w.pool w1.pool := by
  intro sizes
  induction sizes with
  | nil =>
    intro w w1 ps h
    simp only [ngx_palloc_seq, Option.some.injEq, Prod.mk.injEq] at h
    rw [← h.2]
    exact SpanExt.refl _
  | cons s rest ih =>
    intro w w1 ps h
    unfold ngx_palloc_seq at h
    split at h
    · simp at h
    · rename_i r w2 hp
      split at h
      · simp at h
      · rename_i rs w3 hs
        simp only [Option.some.injEq, Prod.mk.injEq] at h
        rw [← h.2]
        exact (ngx_palloc_ext fuel w w2 s r hp).1.trans (ih w2 w3 rs hs)

theorem palloc_single_served (fuel : Nat) (f f1 : World) (bf : ngx_pool_data_t) (s m : Nat)
    (hb : f.pool.blocks = [bf]) (hc : f.pool.current = 0) (hs : s ≤ f.pool.max)
    (hp : ngx_palloc fuel f s = some (some m, f1)) (hlen : f1.pool.blocks.length ≤ 1) :
    s ≤ size_t_sub bf.end_ (ngx_align_ptr bf.last NGX_ALIGNMENT) := by
  cases fuel with
  | zero => simp [ngx_palloc] at hp
  | succ n =>
    by_contra hfit
    unfold ngx_palloc at hp
    simp only [hs, if_true, Option.some.injEq] at hp
    unfold palloc_small at hp
    have hd : f.pool.blocks.drop f.pool.current = [bf] := by rw [hc, hb]; rfl
    rw [hd] at hp
    simp only [scan_blocks, hfit, if_false] at hp
    obtain ⟨d, tl, m0, h1, _, _, _, hf1⟩ := ngx_palloc_block_ok f f1 s m hp
    rw [hf1] at hlen
    simp only [hd, List.length_append, List.length_cons, List.length_nil] at hlen
    have hw : (walk_failed [bf] f.pool.current f.pool.current).1.length = 1 := rfl
    omega

theorem reset_simulation (fuel : Nat) :
    ∀ (sizes : List Nat) (f w : World) (bf bw : ngx_pool_data_t)
      (rest : List ngx_pool_data_t) (a a1 ol oe : Nat) (ps : List (Option Nat)) (f1 : World),
      f.pool.blocks = [bf] → f.pool.current = 0 →
      w.pool.blocks = bw :: rest → w.pool.current = 0 → w.pool.max = f.pool.max →
      8 ∣ a → 8 ∣ a1 →
      bf.last = a1 + ol → bw.last = a + ol → bf.end_ = a1 + oe → bw.end_ = a + oe →
      (∀ s ∈ sizes, s ≤ f.pool.max) →
      ngx_palloc_seq fuel f sizes = some (ps, f1) →
      (∀ r ∈ ps, r ≠ none) → f1.pool.blocks.length = 1 →
      ∃ (offs : List Nat) (w1 : World),
        ps = offs.map (fun o => some (a1 + o)) ∧
        ngx_palloc_seq fuel w sizes = some (offs.map (fun o => some (a + o)), w1) ∧
        w1.heap = w.heap ∧ w1.pool.blocks.length = w.pool.blocks.length := by
  intro sizes
  induction sizes with
  | nil =>
    intro f w bf bw rest a a1 ol oe ps f1 _ _ _ _ _ _ _ _ _ _ _ _ hseq _ _
    simp only [ngx_palloc_seq, Option.some.injEq, Prod.mk.injEq] at hseq
    exact ⟨[], w, by rw [← hseq.1]; rfl, rfl, rfl, rfl⟩
  | cons s tl ih =>
    intro f w bf bw rest a a1 ol oe ps f1 hbf hcf hbw hcw hmx ha ha1 hfl hwl hfe hwe hmax
      hseq hsome hone
    unfold ngx_palloc_seq at hseq
    split at hseq
    · simp at hseq
    · rename_i r f2 hp
      split at hseq
      · simp at hseq
      · rename_i rs f3 hs
        simp only [Option.some.injEq, Prod.mk.injEq] at hseq
        obtain ⟨hps, hf3⟩ := hseq
        subst hf3
        subst hps
        have hsmax : s ≤ f.pool.max := hmax s (List.mem_cons_self _ _)
        cases r with
        | none => exact absurd rfl (hsome none (List.mem_cons_self _ _))
        | some m =>
          have hlen2 : f2.pool.blocks.length ≤ 1 := by
            have := (ngx_palloc_seq_ext fuel tl f2 f3 rs hs).length_le
            omega
          have hfitf := palloc_single_served fuel f f2 bf s m hbf hcf hsmax hp hlen2
          cases fuel with
          | zero => simp [ngx_palloc] at hp
          | succ n =>
            have hstepf := palloc_head_fit n f bf [] s hbf hcf hsmax hfitf
            rw [hstepf] at hp
            simp only [Option.some.injEq, Prod.mk.injEq] at hp
            obtain ⟨hm, hf2⟩ := hp
            have half : ngx_align_ptr bf.last NGX_ALIGNMENT =
                a1 + ngx_align_ptr ol NGX_ALIGNMENT := by
              rw [hfl]; exact ngx_align_ptr_add a1 ol ha1
            have halw : ngx_align_ptr bw.last NGX_ALIGNMENT =
                a + ngx_align_ptr ol NGX_ALIGNMENT := by
              rw [hwl]; exact ngx_align_ptr_add a ol ha
            have hfitw : s ≤ size_t_sub bw.end_ (ngx_align_ptr bw.last NGX_ALIGNMENT) := by
              rw [halw, hwe, size_t_sub_shift]
              rw [half, hfe, size_t_sub_shift] at hfitf
              exact hfitf
            have hstepw := palloc_head_fit n w bw rest s hbw hcw (by rw [hmx]; exact hsmax)
              hfitw
            have hrec := ih f2
              { w with pool := { w.pool with
                                 blocks := { bw with
                                             last := ngx_align_ptr bw.last NGX_ALIGNMENT + s }
                                   :: rest } }
              { bf with last := ngx_align_ptr bf.last NGX_ALIGNMENT + s }
              { bw with last := ngx_align_ptr bw.last NGX_ALIGNMENT + s }
              rest a a1 (ngx_align_ptr ol NGX_ALIGNMENT + s) oe rs f3
              (by rw [← hf2]) (by rw [← hf2]; exact hcf) rfl hcw
              (by rw [← hf2]; exact hmx) ha ha1
              (by simp only [half]; omega) (by simp only [halw]; omega) hfe hwe
              (by rw [← hf2]; exact fun x hx => hmax x (List.mem_cons_of_mem _ hx))
              hs (fun x hx => hsome x (List.mem_cons_of_mem _ hx)) hone
            obtain ⟨offs, w1, hrs, hseqw, hheap, hlen⟩ := hrec
            refine ⟨ngx_align_ptr ol NGX_ALIGNMENT :: offs, w1, ?_, ?_, hheap, ?_⟩
            · simp only [List.map_cons, hrs, ← hm, half]
            · unfold ngx_palloc_seq
              rw [hstepw]
              dsimp only
              dsimp only at hseqw
              rw [hseqw]
              simp only [List.map_cons, halw]
            · rw [hlen, hbw]; rfl

/-- C9: let `w` be any state reached from `ngx_create_pool(S)` (pool at `a`) by a
sequence of public operations, and let a freshly created pool of the same size
(at `a1`) serve the `ngx_palloc` requests `sizes` entirely from its head block
(every size at most `max`, every call returns a pointer, and the chain still has
its single block).  Then after `ngx_reset_pool` the pool `w` serves the same
requests at the same offsets from the pool address, without calling the
provider, and the number of blocks is unchanged.  Both pools are at addresses
that `ngx_memalign(NGX_POOL_ALIGNMENT, .)` may return. -/
theorem c9_reset_then_reuse (h h1 : Heap) (ngx_pagesize S a a1 fuelOps fuel : Nat)
    (w0 w f0 f1 : World) (ops : List PoolOp) (sizes : List Nat) (ps : List (Option Nat))
    (hS : sizeof_ngx_pool_t ≤ S)
    (hw0 : create_world h ngx_pagesize S = some w0)
    (ha : (ngx_memalign h NGX_POOL_ALIGNMENT S).1 = some a)
    (haal : NGX_POOL_ALIGNMENT ∣ a)
    (hrun : run_ops fuelOps w0 ops = some w)
    (hf0 : create_world h1 ngx_pagesize S = some f0)
    (ha1 : (ngx_memalign h1 NGX_POOL_ALIGNMENT S).1 = some a1)
    (ha1al : NGX_POOL_ALIGNMENT ∣ a1)
    (hmax : ∀ s ∈ sizes, s ≤ f0.pool.max)
    (hseq : ngx_palloc_seq fuel f0 sizes = some (ps, f1))
    (hsome : ∀ r ∈ ps, r ≠ none)
    (hone : f1.pool.blocks.length = 1) :
    ∃ (offs : List Nat) (w1 : World),
      ps = offs.map (fun o => some (a1 + o)) ∧
      ngx_palloc_seq fuel (ngx_reset_pool w) sizes =
        some (offs.map (fun o => some (a + o)), w1) ∧
      w1.heap = (ngx_reset_pool w).heap ∧
      w1.pool.blocks.length = w.pool.blocks.length := by
  have _ := hS
  obtain ⟨p, hh, hm, hw0eq⟩ := create_world_eq h ngx_pagesize S w0 hw0
  rw [hm] at ha
  simp only [Option.some.injEq] at ha
  subst ha
  obtain ⟨p1, hh1, hm1, hf0eq⟩ := create_world_eq h1 ngx_pagesize S f0 hf0
  rw [hm1] at ha1
  simp only [Option.some.injEq] at ha1
  subst ha1
  have hext := run_ops_ext fuelOps ops w0 w hrun
  obtain ⟨b, tl, hb, hba, hbe⟩ := hext.head
    { addr := p, last := p + sizeof_ngx_pool_t, end_ := p + S, failed := 0 } []
    (by rw [hw0eq])
  have h8 : ∀ x, NGX_POOL_ALIGNMENT ∣ x → 8 ∣ x := by
    intro x hx
    exact Nat.dvd_trans (by decide) hx
  have key := reset_simulation fuel sizes f0 (ngx_reset_pool w)
    { addr := p1, last := p1 + sizeof_ngx_pool_t, end_ := p1 + S, failed := 0 }
    { b with last := b.addr + sizeof_ngx_pool_t, failed := 0 }
    (tl.map (fun q => { q with last := q.addr + sizeof_ngx_pool_t, failed := 0 }))
    p p1 sizeof_ngx_pool_t S ps f1
    (by rw [hf0eq]) (by rw [hf0eq])
    (by simp only [ngx_reset_pool, hb, List.map_cons]) rfl
    (by
      have := hext.1
      simp only [ngx_reset_pool]
      rw [this, hw0eq, hf0eq])
    (h8 p haal) (h8 p1 ha1al) rfl (by simp only [hba]) rfl (by simp only [hbe])
    hmax hseq hsome hone
  obtain ⟨offs, w1, hps, hseqw, hheap, hlen⟩ := key
  refine ⟨offs, w1, hps, hseqw, hheap, ?_⟩
  rw [hlen]
  simp [ngx_reset_pool]

/-- C9, at a concrete pool: the pool of 4096 bytes at 4096 has grown a second
block; after the reset it serves requests of 3000 and 100 bytes at the offsets
80 and 3080, as the fresh pool at 32768 does. -/
theorem c9_reset_then_reuse_witness :
    ∃ (offs : List Nat) (w1 : World),
      [some 32848, some 35848] = offs.map (fun o => some (32768 + o)) ∧
      ngx_palloc_seq 1 (ngx_reset_pool pool_two_blocks) [3000, 100] =
        some (offs.map (fun o => some (4096 + o)), w1) ∧
      w1.heap = (ngx_reset_pool pool_two_blocks).heap ∧
      w1.pool.blocks.length = pool_two_blocks.pool.blocks.length :=
  c9_reset_then_reuse heap4 heap_b 4096 4096 4096 32768 1 1 pool4096 pool_two_blocks
    pool4096_b
    { pool4096_b with
      pool := { pool4096_b.pool with
                blocks := [{ addr := 32768, last := 35948, end_ := 36864, failed := 0 }] } }
    [PoolOp.palloc 3000, PoolOp.palloc 2000] [3000, 100] [some 32848, some 35848]
    (by decide) (by decide) (by decide) (by decide) (by decide) (by decide) (by decide)
    (by decide) (by decide) (by decide) (by decide) (by decide)

/-! ## Pools whose size is a multiple of the alignment

For a pool size that is a multiple of `NGX_ALIGNMENT` the aligned cursor of a
block never passes the end of the block, and `last <= end` is an invariant. -/

theorem request_script (h h1 : Heap) (c : RawCall) (r : Option Nat)
    (hr : h.request c = (r, h1)) :
    (∀ a, some a ∈ h1.script → some a ∈ h.script) ∧ (∀ a, r = some a → some a ∈ h.script) := by
  unfold Heap.request at hr
  split at hr
  · simp only [Prod.mk.injEq] at hr
    obtain ⟨hr1, hr2⟩ := hr
    subst hr1
    subst hr2
    exact ⟨fun a ha => ha, fun a ha => by simp at ha⟩
  · rename_i rest hs
    simp only [Prod.mk.injEq] at hr
    obtain ⟨hr1, hr2⟩ := hr
    subst hr1
    subst hr2
    refine ⟨fun a ha => ?_, fun a ha => by simp at ha⟩
    rw [hs]
    exact List.mem_cons_of_mem _ ha
  · rename_i a0 rest hs
    simp only [Prod.mk.injEq] at hr
    obtain ⟨hr1, hr2⟩ := hr
    subst hr1
    subst hr2
    refine ⟨fun a ha => ?_, fun a ha => ?_⟩
    · rw [hs]
      exact List.mem_cons_of_mem _ ha
    · rw [hs, ← ha]
      exact List.mem_cons_self _ _

theorem ngx_free_script (h : Heap) (p : Option Nat) : (ngx_free h p).script = h.script := by
  cases p <;> rfl

theorem free_large_script :
    ∀ (l : List ngx_pool_large_t) (h : Heap), (free_large h l).script = h.script := by
  intro l
  induction l with
  | nil => intro h; rfl
  | cons x tl ih =>
    intro h
    unfold free_large
    split
    · rw [ih, ngx_free_script]
    · rw [ih]

theorem scan_blocks_ok (S : Nat) (hS8 : 8 ∣ S) (hS64 : S < 2 ^ 64) (al : Nat → Nat)
    (hal : ∀ x, al x = x ∨ al x = ngx_align_ptr x NGX_ALIGNMENT) (size : Nat) :
    ∀ (l : List ngx_pool_data_t) (m : Nat) (l1 : List ngx_pool_data_t),
      (∀ b ∈ l, BlockOk S b) → scan_blocks al size l = some (m, l1) →
      (∀ b ∈ l1, BlockOk S b) ∧ ∃ b ∈ l1, b.addr ≤ m ∧ m + size ≤ b.end_ := by
  intro l
  induction l with
  | nil => intro m l1 _ h; simp [scan_blocks] at h
  | cons p tl ih =>
    intro m l1 hok h
    unfold scan_blocks at h
    simp only at h
    have hp := hok p (List.mem_cons_self _ _)
    split at h
    · rename_i hfit
      simp only [Option.some.injEq, Prod.mk.injEq] at h
      obtain ⟨hm, hl1⟩ := h
      obtain ⟨h8, he, hal1, hle⟩ := hp
      have hbound : p.last ≤ al p.last ∧ al p.last ≤ p.end_ := by
        rcases hal p.last with hx | hx
        · rw [hx]; exact ⟨Nat.le_refl _, hle⟩
        · rw [hx, ngx_align_ptr_eq]
          omega
      have hsub : size_t_sub p.end_ (al p.last) = p.end_ - al p.last :=
        size_t_sub_of_le _ _ hbound.2 (by omega)
      rw [hsub] at hfit
      have hnew : BlockOk S { p with last := al p.last + size } :=
        ⟨h8, he, by simp only; omega, by simp only; omega⟩
      subst hl1
      refine ⟨?_, _, List.mem_cons_self _ _, ?_⟩
      · intro b hb
        rcases List.mem_cons.1 hb with hb | hb
        · rw [hb]; exact hnew
        · exact hok b (List.mem_cons_of_mem _ hb)
      · simp only
        omega
    · split at h
      · simp at h
      · rename_i r rest1 hs
        simp only [Option.some.injEq, Prod.mk.injEq] at h
        obtain ⟨hm, hl1⟩ := h
        obtain ⟨hok1, b, hb, hbm⟩ := ih r rest1
          (fun b hb => hok b (List.mem_cons_of_mem _ hb)) hs
        subst hl1
        subst hm
        refine ⟨?_, b, List.mem_cons_of_mem _ hb, hbm⟩
        intro c hc
        rcases List.mem_cons.1 hc with hc | hc
        · rw [hc]; exact hp
        · exact hok1 c hc

theorem walk_failed_ok (S : Nat) :
    ∀ (l : List ngx_pool_data_t) (idx cur : Nat),
      (∀ b ∈ l, BlockOk S b) → ∀ b ∈ (walk_failed l idx cur).1, BlockOk S b := by
  intro l
  induction l with
  | nil => intro idx cur _ b hb; simp [walk_failed] at hb
  | cons p tl ih =>
    intro idx cur hok b hb
    cases tl with
    | nil =>
      simp only [walk_failed] at hb
      exact hok b hb
    | cons q rest =>
      unfold walk_failed at hb
      simp only [List.mem_cons] at hb
      rcases hb with hb | hb
      · rw [hb]
        exact hok p (List.mem_cons_self _ _)
      · exact ih (idx + 1) _ (fun c hc => hok c (List.mem_cons_of_mem _ hc)) b hb

theorem PoolOk.of_same {S : Nat} {w w1 : World} (h : PoolOk S w)
    (hmax : w1.pool.max = w.pool.max) (hb : w1.pool.blocks = w.pool.blocks)
    (hs : ∀ a, some a ∈ w1.heap.script → some a ∈ w.heap.script) : PoolOk S w1 := by
  obtain ⟨h1, h2, h3, h4, h5, h6, h7⟩ := h
  exact ⟨h1, h2, h3, by rw [hmax]; exact h4, by rw [hb]; exact h5, by rw [hb]; exact h6,
    fun a ha => h7 a (hs a ha)⟩

theorem ngx_palloc_block_inv (S : Nat) (w w1 : World) (size : Nat) (r : Option Nat)
    (hw : PoolOk S w) (hsize : size ≤ w.pool.max)
    (h : ngx_palloc_block w size = (r, w1)) :
    PoolOk S w1 ∧ ∀ m, r = some m → ∃ b ∈ w1.pool.blocks, b.addr ≤ m ∧ m + size ≤ b.end_ := by
  cases r with
  | none =>
    refine ⟨?_, fun m hm => by simp at hm⟩
    unfold ngx_palloc_block at h
    split at h
    · simp only [Prod.mk.injEq, true_and] at h
      rw [← h]; exact hw
    · simp only at h
      split at h
      · rename_i h1 hm
        simp only [Prod.mk.injEq, true_and] at h
        rw [← h]
        exact hw.of_same rfl rfl (request_script _ _ _ _ hm).1
      · simp at h
  | some m =>
    obtain ⟨d, tl, m0, h1, hb, hm, hmeq, hw1⟩ := ngx_palloc_block_ok w w1 size m h
    obtain ⟨hS8, hS80, hS64, hmx, hne, hok, hscr⟩ := hw
    have hreq := request_script _ _ _ _ hm
    have hm0 : 8 ∣ m0 := hscr m0 (hreq.2 m0 rfl)
    have hd := hok d (by rw [hb]; exact List.mem_cons_self _ _)
    obtain ⟨_, hde, _, _⟩ := hd
    have hpsize : size_t_sub d.end_ d.addr = S := by
      rw [size_t_sub_of_le _ _ (by omega) (by omega)]
      omega
    simp only [sizeof_ngx_pool_t] at hS80 hmx
    have hmval : m = m0 + 32 := by
      rw [hmeq, ngx_align_ptr_eq]
      simp only [sizeof_ngx_pool_data_t]
      omega
    have hnew : BlockOk S ⟨m0, m + size, m0 + size_t_sub d.end_ d.addr, 0⟩ := by
      refine ⟨hm0, ?_, ?_, ?_⟩ <;> simp only [hpsize] <;> omega
    subst hw1
    refine ⟨⟨hS8, hS80, hS64, hmx, ?_, ?_, fun a ha => hscr a (hreq.1 a ha)⟩, ?_⟩
    · simp
    · intro b hbm
      simp only [List.mem_append, List.mem_singleton] at hbm
      rcases hbm with (hbm | hbm) | hbm
      · exact hok b (List.mem_of_mem_take hbm)
      · exact walk_failed_ok S _ _ _ (fun c hc => hok c (List.mem_of_mem_drop hc)) b hbm
      · rw [hbm]; exact hnew
    · intro m1 hm1
      simp only [Option.some.injEq] at hm1
      subst hm1
      refine ⟨⟨m0, m + size, m0 + size_t_sub d.end_ d.addr, 0⟩, by simp, ?_⟩
      simp only [hpsize]
      omega

theorem palloc_small_inv (S : Nat) (al : Nat → Nat)
    (hal : ∀ x, al x = x ∨ al x = ngx_align_ptr x NGX_ALIGNMENT)
    (w w1 : World) (size : Nat) (r : Option Nat)
    (hw : PoolOk S w) (hsize : size ≤ w.pool.max)
    (h : palloc_small al w size = (r, w1)) :
    PoolOk S w1 ∧ ∀ m, r = some m → ∃ b ∈ w1.pool.blocks, b.addr ≤ m ∧ m + size ≤ b.end_ := by
  unfold palloc_small at h
  split at h
  · rename_i m rest hs
    simp only [Prod.mk.injEq] at h
    obtain ⟨hr, hw1⟩ := h
    obtain ⟨hS8, hS80, hS64, hmx, hne, hok, hscr⟩ := hw
    obtain ⟨hok1, b, hb, hbm⟩ := scan_blocks_ok S hS8 hS64 al hal size _ m rest
      (fun c hc => hok c (List.mem_of_mem_drop hc)) hs
    subst hw1
    subst hr
    refine ⟨⟨hS8, hS80, hS64, hmx, ?_, ?_, hscr⟩, ?_⟩
    · intro hnil
      simp only [List.append_eq_nil] at hnil
      rw [hnil.2] at hb
      simp at hb
    · intro c hc
      simp only [List.mem_append] at hc
      rcases hc with hc | hc
      · exact hok c (List.mem_of_mem_take hc)
      · exact hok1 c hc
    · intro m1 hm1
      simp only [Option.some.injEq] at hm1
      subst hm1
      exact ⟨b, by simp [hb], hbm⟩
  · exact ngx_palloc_block_inv S w w1 size r hw hsize h

theorem palloc_inv (S fuel : Nat) :
    (∀ w size r w1, PoolOk S w → ngx_palloc fuel w size = some (r, w1) → PoolOk S w1) ∧
    (∀ w size r w1, PoolOk S w → ngx_palloc_large fuel w size = some (r, w1) →
      PoolOk S w1) := by
  induction fuel with
  | zero => simp [ngx_palloc, ngx_palloc_large]
  | succ n ih =>
    constructor
    · intro w size r w1 hw h
      unfold ngx_palloc at h
      split at h
      · rename_i hsize
        simp only [Option.some.injEq] at h
        exact (palloc_small_inv S _ (fun x => Or.inr rfl) w w1 size r hw hsize h).1
      · exact ih.2 w size r w1 hw h
    · intro w size r w1 hw h
      unfold ngx_palloc_large at h
      split at h
      · rename_i h1 ha
        simp only [Option.some.injEq, Prod.mk.injEq] at h
        rw [← h.2]
        exact hw.of_same rfl rfl (request_script _ _ _ _ ha).1
      · rename_i p h1 ha
        have hw0 : PoolOk S { w with heap := h1 } :=
          hw.of_same rfl rfl (request_script _ _ _ _ ha).1
        split at h
        · simp only [Option.some.injEq, Prod.mk.injEq] at h
          rw [← h.2]
          exact hw0.of_same rfl rfl (fun a ha => ha)
        · split at h
          · simp at h
          · rename_i w2 hp
            simp only [Option.some.injEq, Prod.mk.injEq] at h
            rw [← h.2]
            exact (ih.1 _ _ _ w2 hw0 hp).of_same rfl rfl
              (fun a ha => by rw [ngx_free_script] at ha; exact ha)
          · rename_i l w2 hp
            simp only [Option.some.injEq, Prod.mk.injEq] at h
            rw [← h.2]
            exact (ih.1 _ _ _ w2 hw0 hp).of_same rfl rfl (fun a ha => ha)

theorem PoolOp.run_inv (S fuel : Nat) (w w1 : World) (op : PoolOp) (hw : PoolOk S w)
    (h : op.run fuel w = some w1) : PoolOk S w1 := by
  cases op with
  | palloc size =>
    obtain ⟨r, hr⟩ := map_snd_eq_some _ w1 h
    exact (palloc_inv S fuel).1 w size r w1 hw hr
  | pnalloc size =>
    obtain ⟨r, hr⟩ := map_snd_eq_some _ w1 h
    unfold ngx_pnalloc at hr
    split at hr
    · rename_i hsize
      simp only [Option.some.injEq] at hr
      exact (palloc_small_inv S _ (fun x => Or.inl rfl) w w1 size r hw hsize hr).1
    · exact (palloc_inv S fuel).2 w size r w1 hw hr
  | pcalloc size =>
    obtain ⟨r, hr⟩ := map_snd_eq_some _ w1 h
    exact (palloc_inv S fuel).1 w size r w1 hw hr
  | pmemalign size alignment =>
    obtain ⟨r, hr⟩ := map_snd_eq_some _ w1 h
    unfold ngx_pmemalign at hr
    split at hr
    · rename_i h1 ha
      simp only [Option.some.injEq, Prod.mk.injEq] at hr
      rw [← hr.2]
      exact hw.of_same rfl rfl (request_script _ _ _ _ ha).1
    · rename_i p h1 ha
      have hw0 : PoolOk S { w with heap := h1 } :=
        hw.of_same rfl rfl (request_script _ _ _ _ ha).1
      split at hr
      · simp at hr
      · rename_i w2 hp
        simp only [Option.some.injEq, Prod.mk.injEq] at hr
        rw [← hr.2]
        exact ((palloc_inv S fuel).1 _ _ _ w2 hw0 hp).of_same rfl rfl
          (fun a ha => by rw [ngx_free_script] at ha; exact ha)
      · rename_i l w2 hp
        simp only [Option.some.injEq, Prod.mk.injEq] at hr
        rw [← hr.2]
        exact ((palloc_inv S fuel).1 _ _ _ w2 hw0 hp).of_same rfl rfl (fun a ha => ha)
  | pfree p =>
    simp only [PoolOp.run, Option.some.injEq] at h
    rw [← h]
    unfold ngx_pfree
    split
    · exact hw.of_same rfl rfl (fun a ha => by rw [ngx_free_script] at ha; exact ha)
    · exact hw
  | cleanup_add size =>
    obtain ⟨r, hr⟩ := map_snd_eq_some _ w1 h
    unfold ngx_pool_cleanup_add at hr
    split at hr
    · simp at hr
    · rename_i w2 hp
      simp only [Option.some.injEq, Prod.mk.injEq] at hr
      rw [← hr.2]
      exact (palloc_inv S fuel).1 _ _ _ w2 hw hp
    · rename_i c w2 hp
      have hw2 := (palloc_inv S fuel).1 _ _ _ w2 hw hp
      split at hr
      · split at hr
        · simp at hr
        · rename_i w3 hp3
          simp only [Option.some.injEq, Prod.mk.injEq] at hr
          rw [← hr.2]
          exact (palloc_inv S fuel).1 _ _ _ w3 hw2 hp3
        · rename_i d w3 hp3
          simp only [Option.some.injEq, Prod.mk.injEq] at hr
          rw [← hr.2]
          exact ((palloc_inv S fuel).1 _ _ _ w3 hw2 hp3).of_same rfl rfl (fun a ha => ha)
      · simp only [Option.some.injEq, Prod.mk.injEq] at hr
        rw [← hr.2]
        exact hw2.of_same rfl rfl (fun a ha => ha)
  | reset =>
    simp only [PoolOp.run, Option.some.injEq] at h
    rw [← h]
    obtain ⟨hS8, hS80, hS64, hmx, hne, hok, hscr⟩ := hw
    refine ⟨hS8, hS80, hS64, hmx, ?_, ?_, ?_⟩
    · simp only [ngx_reset_pool]
      intro hnil
      exact hne (List.map_eq_nil_iff.1 hnil)
    · intro b hb
      simp only [ngx_reset_pool, List.mem_map] at hb
      obtain ⟨b0, hb0, hbeq⟩ := hb
      obtain ⟨h8, he, _, _⟩ := hok b0 hb0
      rw [← hbeq]
      simp only [sizeof_ngx_pool_t] at hS80 ⊢
      exact ⟨h8, he, by simp only; omega, by simp only; omega⟩
    · intro a ha
      simp only [ngx_reset_pool, free_large_script] at ha
      exact hscr a ha

theorem run_ops_inv (S fuel : Nat) :
    ∀ (ops : List PoolOp) (w w1 : World), PoolOk S w → run_ops fuel w ops = some w1 →
      PoolOk S w1 := by
  intro ops
  induction ops with
  | nil =>
    intro w w1 hw h
    simp only [run_ops, Option.some.injEq] at h
    rw [← h]; exact hw
  | cons op rest ih =>
    intro w w1 hw h
    unfold run_ops at h
    split at h
    · simp at h
    · rename_i w2 hop
      exact ih w2 w1 (PoolOp.run_inv S fuel w w2 op hw hop) h

theorem create_world_inv (h : Heap) (ngx_pagesize S : Nat) (w : World)
    (hS8 : 8 ∣ S) (hS80 : sizeof_ngx_pool_t ≤ S) (hS64 : S < 2 ^ 64)
    (hscr : ∀ a, some a ∈ h.script → 8 ∣ a)
    (hw : create_world h ngx_pagesize S = some w) : PoolOk S w := by
  obtain ⟨p, h1, hm, hweq⟩ := create_world_eq h ngx_pagesize S w hw
  have hreq := request_script _ _ _ _ hm
  have hp8 : 8 ∣ p := hscr p (hreq.2 p rfl)
  subst hweq
  refine ⟨hS8, hS80, hS64, ?_, by simp, ?_, fun a ha => hscr a (hreq.1 a ha)⟩
  · simp only [sizeof_ngx_pool_t] at hS80 ⊢
    have : size_t_sub S 80 = S - 80 := size_t_sub_of_le _ _ hS80 (by omega)
    rw [this]
    split <;> omega
  · intro b hb
    simp only [List.mem_singleton] at hb
    rw [hb]
    simp only [sizeof_ngx_pool_t] at hS80 ⊢
    exact ⟨hp8, rfl, by simp only; omega, by simp only; omega⟩

/-- Where `last <= end` does hold: in every state reached from `ngx_create_pool(S)` by
the public operations, when `S` is a multiple of `NGX_ALIGNMENT` (with
`sizeof(ngx_pool_t) <= S`) and the provider returns aligned memory, every block
of the chain has `last <= end`. -/
theorem last_le_end_of_aligned_size (h : Heap) (ngx_pagesize S fuel : Nat) (w0 w : World)
    (ops : List PoolOp)
    (hS8 : NGX_ALIGNMENT ∣ S) (hS80 : sizeof_ngx_pool_t ≤ S) (hS64 : S < 2 ^ 64)
    (hscr : ∀ a, some a ∈ h.script → NGX_ALIGNMENT ∣ a)
    (hw0 : create_world h ngx_pagesize S = some w0)
    (hrun : run_ops fuel w0 ops = some w) :
    ∀ b ∈ w.pool.blocks, b.last ≤ b.end_ := by
  have hinv := run_ops_inv S fuel ops w0 w
    (create_world_inv h ngx_pagesize S w0 hS8 hS80 hS64 hscr hw0) hrun
  intro b hb
  exact (hinv.2.2.2.2.2.1 b hb).2.2.2

/-! ## Routing by size

What holds of the routing of `ngx_palloc` and `ngx_pnalloc` in every pool, and the
containment of small allocations in pools whose size is a multiple of the
alignment. -/

theorem ngx_palloc_large_result (fuel : Nat) (w w1 : World) (size : Nat) (r : Option Nat)
    (h : ngx_palloc_large fuel w size = some (r, w1)) :
    r = none ∨ r = (ngx_alloc w.heap size).1 := by
  cases fuel with
  | zero => simp [ngx_palloc_large] at h
  | succ n =>
    unfold ngx_palloc_large at h
    split at h
    · simp only [Option.some.injEq, Prod.mk.injEq] at h
      exact Or.inl h.1.symm
    · rename_i p h1 ha
      rw [ha]
      split at h
      · simp only [Option.some.injEq, Prod.mk.injEq] at h
        exact Or.inr h.1.symm
      · split at h
        · simp at h
        · simp only [Option.some.injEq, Prod.mk.injEq] at h
          exact Or.inl h.1.symm
        · simp only [Option.some.injEq, Prod.mk.injEq] at h
          exact Or.inr h.1.symm

theorem palloc_small_heap (al : Nat → Nat) (w w1 : World) (size : Nat) (r : Option Nat)
    (h : palloc_small al w size = (r, w1)) :
    w1.heap = w.heap ∨
      ∃ psize, w1.heap = (ngx_memalign w.heap NGX_POOL_ALIGNMENT psize).2 := by
  unfold palloc_small at h
  split at h
  · simp only [Prod.mk.injEq] at h
    rw [← h.2]
    exact Or.inl rfl
  · unfold ngx_palloc_block at h
    split at h
    · simp only [Prod.mk.injEq] at h
      rw [← h.2]
      exact Or.inl rfl
    · rename_i d tl hb
      simp only at h
      split at h
      · rename_i h1 hm
        simp only [Prod.mk.injEq] at h
        rw [← h.2]
        exact Or.inr ⟨size_t_sub d.end_ d.addr, by rw [hm]⟩
      · rename_i m0 h1 hm
        simp only [Prod.mk.injEq] at h
        rw [← h.2]
        exact Or.inr ⟨size_t_sub d.end_ d.addr, by rw [hm]⟩

/-- Routing of `ngx_palloc` and `ngx_pnalloc`, in every pool.  A request above
`pool->max` returns `NULL` or exactly the pointer that `ngx_alloc(size)` gives.  A
request of at most `pool->max` returns with any positive fuel and calls the
provider at most once, through `ngx_memalign` and never through `ngx_alloc`; when
the pool is well formed (size a multiple of the alignment) a non-null result
lies inside a block of the chain. -/
theorem palloc_routing (S fuel : Nat) (w : World) (size : Nat) :
    (w.pool.max < size → ∀ r w1,
      (ngx_palloc fuel w size = some (r, w1) ∨ ngx_pnalloc fuel w size = some (r, w1)) →
        r = none ∨ r = (ngx_alloc w.heap size).1) ∧
    (size ≤ w.pool.max →
      ∃ r w1 r2 w2, ngx_palloc (fuel + 1) w size = some (r, w1) ∧
        ngx_pnalloc (fuel + 1) w size = some (r2, w2) ∧
        (w1.heap = w.heap ∨
          ∃ psize, w1.heap = (ngx_memalign w.heap NGX_POOL_ALIGNMENT psize).2) ∧
        (w2.heap = w.heap ∨
          ∃ psize, w2.heap = (ngx_memalign w.heap NGX_POOL_ALIGNMENT psize).2) ∧
        (PoolOk S w →
          (∀ m, r = some m → ∃ b ∈ w1.pool.blocks, b.addr ≤ m ∧ m + size ≤ b.end_) ∧
          (∀ m, r2 = some m → ∃ b ∈ w2.pool.blocks, b.addr ≤ m ∧ m + size ≤ b.end_))) := by
  constructor
  · intro hlt r w1 h
    have hn : ¬ size ≤ w.pool.max := by omega
    rcases h with h | h
    · cases fuel with
      | zero => simp [ngx_palloc] at h
      | succ n =>
        unfold ngx_palloc at h
        simp only [hn, if_false] at h
        exact ngx_palloc_large_result n w w1 size r h
    · unfold ngx_pnalloc at h
      simp only [hn, if_false] at h
      exact ngx_palloc_large_result fuel w w1 size r h
  · intro hle
    refine ⟨(palloc_small (fun x => ngx_align_ptr x NGX_ALIGNMENT) w size).1,
      (palloc_small (fun x => ngx_align_ptr x NGX_ALIGNMENT) w size).2,
      (palloc_small (fun x => x) w size).1, (palloc_small (fun x => x) w size).2,
      by simp [ngx_palloc, hle], by simp [ngx_pnalloc, hle],
      palloc_small_heap _ w _ size _ rfl, palloc_small_heap _ w _ size _ rfl, ?_⟩
    intro hok
    exact ⟨(palloc_small_inv S _ (fun x => Or.inr rfl) w _ size _ hok hle rfl).2,
      (palloc_small_inv S _ (fun x => Or.inl rfl) w _ size _ hok hle rfl).2⟩

/-! ## Termination

Every raw allocation consumes an answer of the provider, so the recursion of
`ngx_palloc` through `ngx_palloc_large` ends: fuel of twice the number of answers
left, plus two, is enough. -/

theorem request_script_length (h h1 : Heap) (c : RawCall) (a : Nat)
    (hr : h.request c = (some a, h1)) : h1.script.length + 1 = h.script.length := by
  unfold Heap.request at hr
  split at hr
  · simp at hr
  · simp at hr
  · rename_i a0 rest hs
    simp only [Prod.mk.injEq] at hr
    rw [← hr.2, hs]
    rfl

theorem palloc_returns :
    ∀ (k fuel : Nat) (w : World) (size : Nat), w.heap.script.length ≤ k →
      (2 * k + 2 ≤ fuel → ∃ r, ngx_palloc fuel w size = some r) ∧
      (2 * k + 1 ≤ fuel → ∃ r, ngx_palloc_large fuel w size = some r) := by
  intro k
  induction k with
  | zero =>
    intro fuel w size hk
    have hlarge : ∀ f, 1 ≤ f → ∃ r, ngx_palloc_large f w size = some r := by
      intro f hf
      obtain ⟨n, rfl⟩ : ∃ n, f = n + 1 := ⟨f - 1, by omega⟩
      unfold ngx_palloc_large
      have hs : w.heap.script = [] := List.length_eq_zero.1 (by omega)
      have : ngx_alloc w.heap size =
          (none, { w.heap with trace := w.heap.trace ++ [RawCall.alloc size] }) := by
        simp [ngx_alloc, Heap.request, hs]
      rw [this]
      exact ⟨_, rfl⟩
    constructor
    · intro hf
      obtain ⟨n, rfl⟩ : ∃ n, fuel = n + 1 := ⟨fuel - 1, by omega⟩
      unfold ngx_palloc
      split
      · exact ⟨_, rfl⟩
      · exact hlarge n (by omega)
    · intro hf
      exact hlarge fuel (by omega)
  | succ k ih =>
    intro fuel w size hk
    have hlarge : ∀ f, 2 * (k + 1) + 1 ≤ f → ∃ r, ngx_palloc_large f w size = some r := by
      intro f hf
      obtain ⟨n, rfl⟩ : ∃ n, f = n + 1 := ⟨f - 1, by omega⟩
      unfold ngx_palloc_large
      split
      · exact ⟨_, rfl⟩
      · rename_i p h1 ha
        have hlen := request_script_length _ _ _ _ ha
        split
        · exact ⟨_, rfl⟩
        · obtain ⟨r, hr⟩ := (ih n { w with heap := h1 } sizeof_ngx_pool_large_t
            (by simp only; omega)).1 (by omega)
          rw [hr]
          obtain ⟨r1, w2⟩ := r
          cases r1 with
          | none => exact ⟨_, rfl⟩
          | some l => exact ⟨_, rfl⟩
    constructor
    · intro hf
      obtain ⟨n, rfl⟩ : ∃ n, fuel = n + 1 := ⟨fuel - 1, by omega⟩
      unfold ngx_palloc
      split
      · exact ⟨_, rfl⟩
      · exact hlarge n (by omega)
    · intro hf
      exact hlarge fuel hf

/-! ## The provider's script only shrinks -/

theorem request_script_le (h h1 : Heap) (c : RawCall) (r : Option Nat)
    (hr : h.request c = (r, h1)) : h1.script.length ≤ h.script.length := by
  unfold Heap.request at hr
  split at hr <;> simp only [Prod.mk.injEq] at hr <;> rw [← hr.2] <;> simp_all

theorem palloc_small_script_le (al : Nat → Nat) (w w1 : World) (size : Nat) (r : Option Nat)
    (h : palloc_small al w size = (r, w1)) :
    w1.heap.script.length ≤ w.heap.script.length := by
  rcases palloc_small_heap al w w1 size r h with hh | ⟨psize, hh⟩
  · rw [hh]
  · rw [hh]
    exact request_script_le _ _ _ _ rfl

theorem palloc_script_le (fuel : Nat) :
    (∀ w size r w1, ngx_palloc fuel w size = some (r, w1) →
      w1.heap.script.length ≤ w.heap.script.length) ∧
    (∀ w size r w1, ngx_palloc_large fuel w size = some (r, w1) →
      w1.heap.script.length ≤ w.heap.script.length) := by
  induction fuel with
  | zero => simp [ngx_palloc, ngx_palloc_large]
  | succ n ih =>
    constructor
    · intro w size r w1 h
      unfold ngx_palloc at h
      split at h
      · simp only [Option.some.injEq] at h
        exact palloc_small_script_le _ w w1 size r h
      · exact ih.2 w size r w1 h
    · intro w size r w1 h
      unfold ngx_palloc_large at h
      split at h
      · rename_i h1 ha
        simp only [Option.some.injEq, Prod.mk.injEq] at h
        rw [← h.2]
        exact request_script_le _ _ _ _ ha
      · rename_i p h1 ha
        have hle := request_script_le _ _ _ _ ha
        split at h
        · simp only [Option.some.injEq, Prod.mk.injEq] at h
          rw [← h.2]
          exact hle
        · split at h
          · simp at h
          · rename_i w2 hp
            simp only [Option.some.injEq, Prod.mk.injEq] at h
            rw [← h.2]
            have h2 := ih.1 _ _ _ w2 hp
            simp only [ngx_free_script]
            exact Nat.le_trans h2 hle
          · rename_i l w2 hp
            simp only [Option.some.injEq, Prod.mk.injEq] at h
            rw [← h.2]
            have h2 := ih.1 _ _ _ w2 hp
            exact Nat.le_trans h2 hle

/-! ## C12: running the cleanup of one file -/

theorem run_cleanup_file_scan_some (fd_of : Option Nat → Int) (fd : Int) :
    ∀ (l l1 : List ngx_pool_cleanup_t) (d : Option Nat),
      run_cleanup_file_scan fd_of fd l = some (d, l1) →
      ∃ pre c post, l = pre ++ c :: post ∧
        (∀ x ∈ pre, ¬ (x.handler = some Handler.ngx_pool_cleanup_file ∧ fd_of x.data = fd)) ∧
        c.handler = some Handler.ngx_pool_cleanup_file ∧ fd_of c.data = fd ∧
        d = c.data ∧ l1 = pre ++ { c with handler := none } :: post := by
  intro l
  induction l with
  | nil => intro l1 d h; simp [run_cleanup_file_scan] at h
  | cons a tl ih =>
    intro l1 d h
    have hrec : ∀ (hna : ¬ (a.handler = some Handler.ngx_pool_cleanup_file ∧ fd_of a.data = fd))
        (hs : (match run_cleanup_file_scan fd_of fd tl with
          | none => none
          | some (d, rest1) => some (d, a :: rest1)) = some (d, l1)),
        ∃ pre c post, a :: tl = pre ++ c :: post ∧
          (∀ x ∈ pre, ¬ (x.handler = some Handler.ngx_pool_cleanup_file ∧ fd_of x.data = fd)) ∧
          c.handler = some Handler.ngx_pool_cleanup_file ∧ fd_of c.data = fd ∧
          d = c.data ∧ l1 = pre ++ { c with handler := none } :: post := by
      intro hna hs
      split at hs
      · simp at hs
      · rename_i d1 rest1 hs1
        simp only [Option.some.injEq, Prod.mk.injEq] at hs
        obtain ⟨pre, c, post, hl, hpre, hc1, hc2, hd, hl1⟩ := ih rest1 d1 hs1
        refine ⟨a :: pre, c, post, by rw [hl]; rfl, ?_, hc1, hc2, by rw [← hs.1, hd],
          by rw [← hs.2, hl1]; rfl⟩
        intro x hx
        rcases List.mem_cons.1 hx with hx | hx
        · rw [hx]; exact hna
        · exact hpre x hx
    unfold run_cleanup_file_scan at h
    split at h
    · rename_i hh
      split at h
      · rename_i hf
        simp only [Option.some.injEq, Prod.mk.injEq] at h
        exact ⟨[], a, tl, rfl, by simp, hh, hf, h.1.symm, h.2.symm⟩
      · rename_i hf
        exact hrec (fun hc => hf hc.2) h
    · rename_i hh
      exact hrec (fun hc => hh hc.1) h

theorem run_cleanup_file_scan_none (fd_of : Option Nat → Int) (fd : Int) :
    ∀ (l : List ngx_pool_cleanup_t),
      (∀ x ∈ l, ¬ (x.handler = some Handler.ngx_pool_cleanup_file ∧ fd_of x.data = fd)) →
      run_cleanup_file_scan fd_of fd l = none := by
  intro l
  induction l with
  | nil => intro _; rfl
  | cons a tl ih =>
    intro h
    have ha := h a (List.mem_cons_self _ _)
    have htl := ih (fun x hx => h x (List.mem_cons_of_mem _ hx))
    unfold run_cleanup_file_scan
    rw [htl]
    split
    · rename_i hh
      split
      · rename_i hf
        exact absurd ⟨hh, hf⟩ ha
      · rfl
    · rfl

theorem run_cleanup_file_scan_found (fd_of : Option Nat → Int) (fd : Int) :
    ∀ (pre : List ngx_pool_cleanup_t) (c : ngx_pool_cleanup_t) (post : List ngx_pool_cleanup_t),
      (∀ x ∈ pre, ¬ (x.handler = some Handler.ngx_pool_cleanup_file ∧ fd_of x.data = fd)) →
      c.handler = some Handler.ngx_pool_cleanup_file → fd_of c.data = fd →
      run_cleanup_file_scan fd_of fd (pre ++ c :: post) =
        some (c.data, pre ++ { c with handler := none } :: post) := by
  intro pre
  induction pre with
  | nil =>
    intro c post _ hc hf
    simp [run_cleanup_file_scan, hc, hf]
  | cons a tl ih =>
    intro c post hpre hc hf
    have ha := hpre a (List.mem_cons_self _ _)
    have htl := ih c post (fun x hx => hpre x (List.mem_cons_of_mem _ hx)) hc hf
    simp only [List.cons_append]
    unfold run_cleanup_file_scan
    rw [htl]
    split
    · rename_i hh
      split
      · rename_i hf1
        exact absurd ⟨hh, hf1⟩ ha
      · rfl
    · rfl

theorem run_cleanups_eq :
    ∀ (l : List ngx_pool_cleanup_t) (ran : List (Handler × Option Nat)),
      run_cleanups ran l = ran ++ l.filterMap (fun c => c.handler.map (fun f => (f, c.data))) := by
  intro l
  induction l with
  | nil => intro ran; simp [run_cleanups]
  | cons c tl ih =>
    intro ran
    unfold run_cleanups
    cases hc : c.handler with
    | none => simp [ih, hc]
    | some f => simp [ih, hc]

theorem run_cleanup_file_scan_append_some (fd_of : Option Nat → Int) (fd : Int)
    (tail : List ngx_pool_cleanup_t) :
    ∀ (l l1 : List ngx_pool_cleanup_t) (d : Option Nat),
      run_cleanup_file_scan fd_of fd l = some (d, l1) →
      run_cleanup_file_scan fd_of fd (l ++ tail) = some (d, l1 ++ tail) := by
  intro l l1 d h
  obtain ⟨pre, c, post, hl, hpre, hc, hf, hd, hl1⟩ :=
    run_cleanup_file_scan_some fd_of fd l l1 d h
  rw [hl, hl1, hd, List.append_assoc, List.append_assoc, List.cons_append, List.cons_append]
  exact run_cleanup_file_scan_found fd_of fd pre c (post ++ tail) hpre hc hf

theorem run_cleanup_file_scan_cons_of_not (fd_of : Option Nat → Int) (fd : Int)
    (a : ngx_pool_cleanup_t) (tl : List ngx_pool_cleanup_t)
    (hna : ¬ (a.handler = some Handler.ngx_pool_cleanup_file ∧ fd_of a.data = fd)) :
    run_cleanup_file_scan fd_of fd (a :: tl) =
      match run_cleanup_file_scan fd_of fd tl with
      | none => none
      | some (d, rest1) => some (d, a :: rest1) := by
  rw [run_cleanup_file_scan]
  split
  · rename_i hh
    split
    · rename_i hf
      exact absurd ⟨hh, hf⟩ hna
    · rfl
  · rfl

theorem run_cleanup_file_scan_none_iff (fd_of : Option Nat → Int) (fd : Int) :
    ∀ (l : List ngx_pool_cleanup_t), run_cleanup_file_scan fd_of fd l = none →
      ∀ x ∈ l, ¬ (x.handler = some Handler.ngx_pool_cleanup_file ∧ fd_of x.data = fd) := by
  intro l
  induction l with
  | nil => intro _ x hx; simp at hx
  | cons a tl ih =>
    intro h x hx
    by_cases hm : a.handler = some Handler.ngx_pool_cleanup_file ∧ fd_of a.data = fd
    · rw [run_cleanup_file_scan] at h
      simp [hm.1, hm.2] at h
    · rw [run_cleanup_file_scan_cons_of_not fd_of fd a tl hm] at h
      rcases List.mem_cons.1 hx with hx | hx
      · rw [hx]; exact hm
      · cases hs : run_cleanup_file_scan fd_of fd tl with
        | none => exact ih hs x hx
        | some r => rw [hs] at h; simp at h

theorem run_cleanup_file_scan_append_none (fd_of : Option Nat → Int) (fd : Int)
    (c : ngx_pool_cleanup_t) (l : List ngx_pool_cleanup_t)
    (h : run_cleanup_file_scan fd_of fd l = none) :
    run_cleanup_file_scan fd_of fd (l ++ [c]) =
      if c.handler = some Handler.ngx_pool_cleanup_file ∧ fd_of c.data = fd then
        some (c.data, l ++ [{ c with handler := none }])
      else none := by
  have hl := run_cleanup_file_scan_none_iff fd_of fd l h
  by_cases hm : c.handler = some Handler.ngx_pool_cleanup_file ∧ fd_of c.data = fd
  · simp only [hm, and_self, if_true]
    exact run_cleanup_file_scan_found fd_of fd l c [] hl hm.1 hm.2
  · simp only [hm, if_false]
    apply run_cleanup_file_scan_none
    intro x hx
    rcases List.mem_append.1 hx with hx | hx
    · exact hl x hx
    · simp only [List.mem_singleton] at hx
      rw [hx]; exact hm

/-- The loop of the code, run on the list newest first, does what the
specification says on the records oldest first. -/
theorem run_cleanup_file_scan_reverse (fd_of : Option Nat → Int) (fd : Int) :
    ∀ (book : List ngx_pool_cleanup_t),
      run_cleanup_file_scan fd_of fd book.reverse =
        match disable_newest fd_of fd book with
        | none => none
        | some (d, book1) => some (d, book1.reverse) := by
  intro book
  induction book with
  | nil => rfl
  | cons c newer ih =>
    simp only [List.reverse_cons]
    unfold disable_newest
    cases hn : disable_newest fd_of fd newer with
    | some r =>
      obtain ⟨d, newer1⟩ := r
      rw [hn] at ih
      simp only at ih ⊢
      rw [run_cleanup_file_scan_append_some fd_of fd [c] _ _ _ ih]
      simp
    | none =>
      rw [hn] at ih
      simp only at ih ⊢
      rw [run_cleanup_file_scan_append_none fd_of fd c _ ih]
      by_cases hm : c.handler = some Handler.ngx_pool_cleanup_file ∧ fd_of c.data = fd
      · simp [hm]
      · simp [hm]

theorem ngx_pool_cleanup_add_frame (fuel : Nat) (w w1 : World) (size : Nat)
    (r : Option ngx_pool_cleanup_t)
    (h : ngx_pool_cleanup_add fuel w size = some (r, w1)) :
    (r = none → w1.pool.cleanup = w.pool.cleanup) ∧
    (∀ c, r = some c → w1.pool.cleanup = c :: w.pool.cleanup ∧ c.handler = none) ∧
    w1.heap.script.length ≤ w.heap.script.length ∧ w1.ran = w.ran := by
  unfold ngx_pool_cleanup_add at h
  split at h
  · simp at h
  · rename_i wa hp
    simp only [Option.some.injEq, Prod.mk.injEq] at h
    obtain ⟨hr, hw⟩ := h
    subst hr
    subst hw
    have he := ngx_palloc_ext fuel w wa _ _ hp
    exact ⟨fun _ => he.2.1, fun c hc => by simp at hc, (palloc_script_le fuel).1 _ _ _ _ hp,
      he.2.2⟩
  · rename_i c0 wa hp
    have he := ngx_palloc_ext fuel w wa _ _ hp
    have hs := (palloc_script_le fuel).1 _ _ _ _ hp
    split at h
    · split at h
      · simp at h
      · rename_i wb hp2
        simp only [Option.some.injEq, Prod.mk.injEq] at h
        obtain ⟨hr, hw⟩ := h
        subst hr
        subst hw
        have he2 := ngx_palloc_ext fuel wa wb _ _ hp2
        have hs2 := (palloc_script_le fuel).1 _ _ _ _ hp2
        exact ⟨fun _ => by rw [he2.2.1, he.2.1], fun c hc => by simp at hc,
          Nat.le_trans hs2 hs, by rw [he2.2.2, he.2.2]⟩
      · rename_i d wb hp2
        simp only [Option.some.injEq, Prod.mk.injEq] at h
        obtain ⟨hr, hw⟩ := h
        subst hr
        subst hw
        have he2 := ngx_palloc_ext fuel wa wb _ _ hp2
        have hs2 := (palloc_script_le fuel).1 _ _ _ _ hp2
        refine ⟨fun hc => by simp at hc, ?_, Nat.le_trans hs2 hs, by simp only [he2.2.2, he.2.2]⟩
        intro c hc
        simp only [Option.some.injEq] at hc
        subst hc
        exact ⟨by simp only [he2.2.1, he.2.1], rfl⟩
    · simp only [Option.some.injEq, Prod.mk.injEq] at h
      obtain ⟨hr, hw⟩ := h
      subst hr
      subst hw
      refine ⟨fun hc => by simp at hc, ?_, hs, he.2.2⟩
      intro c hc
      simp only [Option.some.injEq] at hc
      subst hc
      exact ⟨by simp only [he.2.1], rfl⟩

theorem ngx_pool_cleanup_add_returns (k fuel : Nat) (w : World) (size : Nat)
    (hk : w.heap.script.length ≤ k) (hfuel : 2 * k + 2 ≤ fuel) :
    ∃ r, ngx_pool_cleanup_add fuel w size = some r := by
  obtain ⟨r, hr⟩ := (palloc_returns k fuel w sizeof_ngx_pool_cleanup_t hk).1 hfuel
  unfold ngx_pool_cleanup_add
  rw [hr]
  obtain ⟨r1, wa⟩ := r
  cases r1 with
  | none => exact ⟨_, rfl⟩
  | some c0 =>
    simp only
    split
    · have hle := (palloc_script_le fuel).1 w _ _ wa hr
      obtain ⟨r2, hr2⟩ := (palloc_returns k fuel wa size (Nat.le_trans hle hk)).1 hfuel
      rw [hr2]
      obtain ⟨r3, wb⟩ := r2
      cases r3 with
      | none => exact ⟨_, rfl⟩
      | some d => exact ⟨_, rfl⟩
    · exact ⟨_, rfl⟩

theorem run_cleanup_ops_book (fuel : Nat) (fd_of : Option Nat → Int) :
    ∀ (ops : List CleanupOp) (w : World) (book : List ngx_pool_cleanup_t) (k : Nat),
      w.heap.script.length ≤ k → 2 * k + 2 ≤ fuel → w.pool.cleanup = book.reverse →
      ∃ w1 book1, run_cleanup_ops fuel fd_of w book ops = some (w1, book1) ∧
        w1.pool.cleanup = book1.reverse := by
  intro ops
  induction ops with
  | nil =>
    intro w book k _ _ hinv
    exact ⟨w, book, rfl, hinv⟩
  | cons op rest ih =>
    intro w book k hk hfuel hinv
    cases op with
    | add size handler =>
      obtain ⟨r, hr⟩ := ngx_pool_cleanup_add_returns k fuel w size hk hfuel
      obtain ⟨r1, w1⟩ := r
      obtain ⟨hnone, hsome, hscr, _⟩ := ngx_pool_cleanup_add_frame fuel w w1 size r1 hr
      unfold run_cleanup_ops
      rw [hr]
      cases r1 with
      | none =>
        exact ih w1 book k (Nat.le_trans hscr hk) hfuel (by rw [hnone rfl, hinv])
      | some c =>
        obtain ⟨hc, _⟩ := hsome c rfl
        apply ih (set_head_handler handler w1) _ k
        · simp only [set_head_handler, hc]
          exact Nat.le_trans hscr hk
        · exact hfuel
        · simp only [set_head_handler, hc, hinv, List.reverse_append, List.reverse_cons,
            List.reverse_nil, List.nil_append, List.singleton_append]
    | run_file fd =>
      have hscan := run_cleanup_file_scan_reverse fd_of fd book
      unfold run_cleanup_ops
      cases hd : disable_newest fd_of fd book with
      | none =>
        rw [hd] at hscan
        simp only at hscan ⊢
        apply ih _ book k
        · simp only [ngx_pool_run_cleanup_file, hinv, hscan]
          exact hk
        · exact hfuel
        · simp only [ngx_pool_run_cleanup_file, hinv, hscan]
      | some r =>
        obtain ⟨d, book1⟩ := r
        rw [hd] at hscan
        simp only at hscan ⊢
        apply ih _ book1 k
        · simp only [ngx_pool_run_cleanup_file, hinv, hscan]
          exact hk
        · exact hfuel
        · simp only [ngx_pool_run_cleanup_file, hinv, hscan]

/-- C13: on a pool whose cleanup list is empty, as `ngx_create_pool` leaves it, run
any sequence of `ngx_pool_cleanup_add` calls (the caller storing a handler in each
record returned) and `ngx_pool_run_cleanup_file` calls, and keep the book of the
records in the order added, a record that `ngx_pool_run_cleanup_file` has run
being marked as disabled.  The run returns, the cleanup list of the pool is the
book newest first, and `ngx_destroy_pool` then invokes, after what ran before,
exactly the handler of every record of the book that still has one, once, with
the data of that record, in the reverse of the order of addition; a disabled
record is not invoked. -/
theorem c13_destroy_runs_enabled_cleanups (fuel : Nat) (fd_of : Option Nat → Int)
    (w0 : World) (ops : List CleanupOp)
    (hempty : w0.pool.cleanup = [])
    (hfuel : 2 * w0.heap.script.length + 2 ≤ fuel) :
    ∃ w book, run_cleanup_ops fuel fd_of w0 [] ops = some (w, book) ∧
      w.pool.cleanup = book.reverse ∧
      (ngx_destroy_pool w).ran = w.ran ++ destroy_calls book ∧
      destroy_calls book =
        book.reverse.filterMap (fun c => c.handler.map (fun f => (f, c.data))) := by
  obtain ⟨w, book, hrun, hinv⟩ :=
    run_cleanup_ops_book fuel fd_of ops w0 [] w0.heap.script.length (Nat.le_refl _)
      hfuel (by rw [hempty]; rfl)
  refine ⟨w, book, hrun, hinv, ?_, rfl⟩
  simp only [ngx_destroy_pool, run_cleanups_eq, hinv, destroy_calls]

/-- C13, at a concrete sequence on the pool of 4096 bytes: two file records, a
record of the caller, a record without handler, then the cleanup of descriptor 5
run early. -/
theorem c13_destroy_runs_enabled_cleanups_witness :
    pool4096.pool.cleanup = [] ∧
    ∃ w book,
      run_cleanup_ops 10 fd_five pool4096 []
        [CleanupOp.add 16 (some Handler.ngx_pool_cleanup_file),
         CleanupOp.add 16 (some Handler.ngx_pool_cleanup_file),
         CleanupOp.add 0 (some (Handler.user 7)), CleanupOp.add 0 none,
         CleanupOp.run_file 5] = some (w, book) ∧
      w.pool.cleanup = book.reverse ∧
      (ngx_destroy_pool w).ran = w.ran ++ destroy_calls book ∧
      destroy_calls book =
        book.reverse.filterMap (fun c => c.handler.map (fun f => (f, c.data))) :=
  ⟨rfl,
   c13_destroy_runs_enabled_cleanups 10 fd_five pool4096
     [CleanupOp.add 16 (some Handler.ngx_pool_cleanup_file),
      CleanupOp.add 16 (some Handler.ngx_pool_cleanup_file),
      CleanupOp.add 0 (some (Handler.user 7)), CleanupOp.add 0 none,
      CleanupOp.run_file 5] rfl (by decide)⟩

/-- The sequence of the example above, evaluated: the newer file record is run
early, and destruction runs the record of the caller and then the older file
record. -/
theorem destroy_after_early_cleanup_example :
    (run_cleanup_ops 10 fd_five pool4096 []
        [CleanupOp.add 16 (some Handler.ngx_pool_cleanup_file),
         CleanupOp.add 16 (some Handler.ngx_pool_cleanup_file),
         CleanupOp.add 0 (some (Handler.user 7)), CleanupOp.add 0 none,
         CleanupOp.run_file 5]).map (fun r => (ngx_destroy_pool r.1).ran) =
      some [(Handler.ngx_pool_cleanup_file, some 4240), (Handler.user 7, none),
            (Handler.ngx_pool_cleanup_file, some 4200)] := by
  decide

/-! ## The pool owns the live raw allocations -/

theorem erase_middle_perm (a : Nat) (A B : List Nat) :
    ((A ++ a :: B).erase a).Perm (A ++ B) := by
  have h1 : (A ++ a :: B).Perm (a :: (A ++ B)) := List.perm_middle
  have h2 := h1.erase a
  rw [List.erase_cons_head] at h2
  exact h2

theorem perm_insert_mid (a : Nat) (A B C : List Nat) :
    (a :: (A ++ (B ++ C))).Perm (A ++ (B ++ a :: C)) := by
  have h1 : A ++ (B ++ a :: C) = (A ++ B) ++ a :: C := by simp
  have h2 : a :: (A ++ (B ++ C)) = a :: ((A ++ B) ++ C) := by simp
  rw [h1, h2]
  exact List.perm_middle.symm

theorem request_fresh (h h1 : Heap) (c : RawCall) (r : Option Nat)
    (hf : h.Fresh) (hr : h.request c = (r, h1)) :
    h1.Fresh ∧ (r = none → h1.live = h.live) ∧ (∀ a, r = some a → h1.live = a :: h.live) := by
  unfold Heap.request at hr
  split at hr
  · simp only [Prod.mk.injEq] at hr
    obtain ⟨hr1, hr2⟩ := hr
    subst hr1
    subst hr2
    exact ⟨hf, fun _ => rfl, fun a ha => by simp at ha⟩
  · rename_i rest hs
    simp only [Prod.mk.injEq] at hr
    obtain ⟨hr1, hr2⟩ := hr
    subst hr1
    subst hr2
    refine ⟨?_, fun _ => rfl, fun a ha => by simp at ha⟩
    unfold Heap.Fresh at hf ⊢
    rw [hs] at hf
    simpa using hf
  · rename_i a0 rest hs
    simp only [Prod.mk.injEq] at hr
    obtain ⟨hr1, hr2⟩ := hr
    subst hr1
    subst hr2
    refine ⟨?_, fun hn => by simp at hn, fun a ha => by simp at ha; rw [ha]⟩
    unfold Heap.Fresh at hf ⊢
    rw [hs] at hf
    simp only [List.filterMap_cons, id_eq] at hf
    simp only [List.cons_append]
    exact (List.perm_middle.nodup_iff).1 hf

theorem ngx_free_fresh (h : Heap) (p : Option Nat) (hf : h.Fresh) : (ngx_free h p).Fresh := by
  cases p with
  | none => exact hf
  | some a =>
    unfold Heap.Fresh at hf ⊢
    simp only [ngx_free]
    exact hf.sublist ((List.erase_sublist a h.live).append_right _)

theorem Owns.free_extra {extra : List Nat} {w : World} {p : Nat}
    (h : Owns (p :: extra) w) :
    Owns extra { w with heap := ngx_free w.heap (some p) } := by
  obtain ⟨hf, hp⟩ := h
  refine ⟨ngx_free_fresh _ _ hf, ?_⟩
  have h2 := hp.erase p
  simp only [List.cons_append, List.erase_cons_head] at h2
  exact h2

theorem Owns.take_extra {extra : List Nat} {w : World} {p : Nat}
    (h : Owns (p :: extra) w) (large1 : List ngx_pool_large_t)
    (hl : (large1.filterMap (fun l => l.alloc)).Perm
      (p :: w.pool.large.filterMap (fun l => l.alloc))) :
    Owns extra { w with pool := { w.pool with large := large1 } } := by
  obtain ⟨hf, hp⟩ := h
  refine ⟨hf, hp.trans ?_⟩
  simp only [tracked, List.cons_append]
  have h1 : (extra ++ (w.pool.blocks.map (fun b => b.addr) ++
      large1.filterMap (fun l => l.alloc))).Perm
      (extra ++ (w.pool.blocks.map (fun b => b.addr) ++
        p :: w.pool.large.filterMap (fun l => l.alloc))) :=
    (hl.append_left _).append_left _
  refine List.Perm.trans ?_ h1.symm
  rw [← List.append_assoc, ← List.append_assoc]
  exact List.perm_middle.symm

theorem scan_large_perm (p : Nat) :
    ∀ (l l1 : List ngx_pool_large_t) (n : Nat), scan_large p l n = some l1 →
      (l1.filterMap (fun l => l.alloc)).Perm (p :: l.filterMap (fun l => l.alloc)) := by
  intro l
  induction l with
  | nil => intro l1 n h; simp [scan_large] at h
  | cons x tl ih =>
    intro l1 n h
    unfold scan_large at h
    split at h
    · rename_i hx
      simp only [Option.some.injEq] at h
      rw [← h]
      simp [List.filterMap_cons, hx]
    · rename_i hx
      split at h
      · simp at h
      · split at h
        · simp at h
        · rename_i rest1 hs
          simp only [Option.some.injEq] at h
          rw [← h]
          have h2 := ih rest1 (n + 1) hs
          cases hxa : x.alloc with
          | none => exact absurd hxa hx
          | some a =>
            simp only [List.filterMap_cons, hxa]
            exact (h2.cons a).trans (List.Perm.swap p a _)

theorem blocks_addr_of_span (l l1 : List ngx_pool_data_t)
    (h : l1.map ngx_pool_data_t.span = l.map ngx_pool_data_t.span) :
    l1.map (fun b => b.addr) = l.map (fun b => b.addr) := by
  have := congrArg (List.map Prod.fst) h
  simpa [List.map_map, ngx_pool_data_t.span, Function.comp_def] using this

theorem palloc_small_owns (al : Nat → Nat) (extra : List Nat) (w w1 : World) (size : Nat)
    (r : Option Nat) (hw : Owns extra w) (h : palloc_small al w size = (r, w1)) :
    Owns extra w1 := by
  unfold palloc_small at h
  split at h
  · rename_i m rest hs
    simp only [Prod.mk.injEq] at h
    rw [← h.2]
    obtain ⟨hf, hp⟩ := hw
    refine ⟨hf, ?_⟩
    have hb : (w.pool.blocks.take w.pool.current ++ rest).map (fun b => b.addr) =
        w.pool.blocks.map (fun b => b.addr) := by
      apply blocks_addr_of_span
      simp only [List.map_append, scan_blocks_span al size _ m rest hs]
      rw [← List.map_append, List.take_append_drop]
    simp only [tracked, hb]
    exact hp
  · cases r with
    | none =>
      unfold ngx_palloc_block at h
      split at h
      · simp only [Prod.mk.injEq, true_and] at h
        rw [← h]; exact hw
      · simp only at h
        split at h
        · rename_i h1 hm
          simp only [Prod.mk.injEq, true_and] at h
          rw [← h]
          obtain ⟨hf, hp⟩ := hw
          obtain ⟨hf1, hl1, _⟩ := request_fresh _ _ _ _ hf hm
          exact ⟨hf1, by simp only [hl1 rfl]; exact hp⟩
        · simp at h
    | some m =>
      obtain ⟨d, tl, m0, h1, _, hm, _, hw1⟩ := ngx_palloc_block_ok w w1 size m h
      obtain ⟨hf, hp⟩ := hw
      obtain ⟨hf1, _, hl1⟩ := request_fresh _ _ _ _ hf hm
      subst hw1
      refine ⟨hf1, ?_⟩
      have hb : (w.pool.blocks.take w.pool.current ++
          (walk_failed (w.pool.blocks.drop w.pool.current) w.pool.current
            w.pool.current).1).map (fun b => b.addr) =
          w.pool.blocks.map (fun b => b.addr) := by
        apply blocks_addr_of_span
        simp only [List.map_append, walk_failed_span]
        rw [← List.map_append, List.take_append_drop]
      simp only [tracked, hl1 m0 rfl, List.map_append, List.map_cons, List.map_nil]
      rw [← List.map_append, hb]
      have hp1 : w.heap.live.Perm (extra ++ (w.pool.blocks.map (fun b => b.addr) ++
          w.pool.large.filterMap (fun l => l.alloc))) := hp
      have h3 := (hp1.cons m0).trans (perm_insert_mid m0 extra _ _)
      simpa [List.append_assoc] using h3

theorem Owns.alloc {extra : List Nat} {w : World} {h1 : Heap} {c : RawCall} {p : Nat}
    (hw : Owns extra w) (hr : w.heap.request c = (some p, h1)) :
    Owns (p :: extra) { w with heap := h1 } := by
  obtain ⟨hf, hp⟩ := hw
  obtain ⟨hf1, _, hl1⟩ := request_fresh _ _ _ _ hf hr
  refine ⟨hf1, ?_⟩
  simp only [hl1 p rfl, List.cons_append]
  exact hp.cons p

theorem Owns.alloc_fail {extra : List Nat} {w : World} {h1 : Heap} {c : RawCall}
    (hw : Owns extra w) (hr : w.heap.request c = (none, h1)) :
    Owns extra { w with heap := h1 } := by
  obtain ⟨hf, hp⟩ := hw
  obtain ⟨hf1, hl1, _⟩ := request_fresh _ _ _ _ hf hr
  exact ⟨hf1, by simp only [hl1 rfl]; exact hp⟩

theorem palloc_owns (fuel : Nat) :
    (∀ extra w size r w1, Owns extra w → ngx_palloc fuel w size = some (r, w1) →
      Owns extra w1) ∧
    (∀ extra w size r w1, Owns extra w → ngx_palloc_large fuel w size = some (r, w1) →
      Owns extra w1) := by
  induction fuel with
  | zero => simp [ngx_palloc, ngx_palloc_large]
  | succ n ih =>
    constructor
    · intro extra w size r w1 hw h
      unfold ngx_palloc at h
      split at h
      · simp only [Option.some.injEq] at h
        exact palloc_small_owns _ extra w w1 size r hw h
      · exact ih.2 extra w size r w1 hw h
    · intro extra w size r w1 hw h
      unfold ngx_palloc_large at h
      split at h
      · rename_i h1 ha
        simp only [Option.some.injEq, Prod.mk.injEq] at h
        rw [← h.2]
        exact hw.alloc_fail ha
      · rename_i p h1 ha
        have hA := hw.alloc ha
        split at h
        · rename_i large1 hs
          simp only [Option.some.injEq, Prod.mk.injEq] at h
          rw [← h.2]
          exact hA.take_extra large1 (scan_large_perm p _ _ _ hs)
        · split at h
          · simp at h
          · rename_i w2 hp
            simp only [Option.some.injEq, Prod.mk.injEq] at h
            rw [← h.2]
            exact (ih.1 _ _ _ _ w2 hA hp).free_extra
          · rename_i l w2 hp
            simp only [Option.some.injEq, Prod.mk.injEq] at h
            rw [← h.2]
            exact (ih.1 _ _ _ _ w2 hA hp).take_extra _ (by simp)

theorem free_large_owns :
    ∀ (l : List ngx_pool_large_t) (h : Heap) (X : List Nat), h.Fresh →
      h.live.Perm (X ++ l.filterMap (fun x => x.alloc)) →
      (free_large h l).Fresh ∧ (free_large h l).live.Perm X ∧
      (free_large h l).trace =
        h.trace ++ (l.filterMap (fun x => x.alloc)).map (fun a => RawCall.free (some a)) := by
  intro l
  induction l with
  | nil =>
    intro h X hf hp
    exact ⟨hf, by simpa using hp, by simp [free_large]⟩
  | cons x tl ih =>
    intro h X hf hp
    unfold free_large
    cases hx : x.alloc with
    | none =>
      simp only [List.filterMap_cons, hx] at hp ⊢
      exact ih h X hf hp
    | some a =>
      simp only [List.filterMap_cons, hx] at hp ⊢
      have h2 := (hp.erase a).trans (erase_middle_perm a X _)
      obtain ⟨hf1, hp1, ht1⟩ := ih (ngx_free h (some a)) X (ngx_free_fresh _ _ hf) h2
      refine ⟨hf1, hp1, ?_⟩
      rw [ht1]
      simp [ngx_free]

theorem free_blocks_owns :
    ∀ (l : List ngx_pool_data_t) (h : Heap) (X : List Nat), h.Fresh →
      h.live.Perm (X ++ l.map (fun b => b.addr)) →
      (free_blocks h l).Fresh ∧ (free_blocks h l).live.Perm X ∧
      (free_blocks h l).trace =
        h.trace ++ (l.map (fun b => b.addr)).map (fun a => RawCall.free (some a)) := by
  intro l
  induction l with
  | nil =>
    intro h X hf hp
    exact ⟨hf, by simpa using hp, by simp [free_blocks]⟩
  | cons x tl ih =>
    intro h X hf hp
    unfold free_blocks
    simp only [List.map_cons] at hp ⊢
    have h2 := (hp.erase x.addr).trans (erase_middle_perm x.addr X _)
    obtain ⟨hf1, hp1, ht1⟩ := ih (ngx_free h (some x.addr)) X (ngx_free_fresh _ _ hf) h2
    refine ⟨hf1, hp1, ?_⟩
    rw [ht1]
    simp [ngx_free]

theorem ngx_reset_pool_owns (extra : List Nat) (w : World) (hw : Owns extra w) :
    Owns extra (ngx_reset_pool w) := by
  obtain ⟨hf, hp⟩ := hw
  have hp1 : w.heap.live.Perm ((extra ++ w.pool.blocks.map (fun b => b.addr)) ++
      w.pool.large.filterMap (fun x => x.alloc)) := by
    simpa [tracked, List.append_assoc] using hp
  obtain ⟨hf1, hp2, _⟩ := free_large_owns w.pool.large w.heap _ hf hp1
  refine ⟨hf1, ?_⟩
  simp only [ngx_reset_pool, tracked, List.map_map, List.filterMap_nil, List.append_nil]
  exact hp2

theorem ngx_pfree_owns (extra : List Nat) (w : World) (p : Option Nat) (hw : Owns extra w) :
    Owns extra (ngx_pfree w p).2 := by
  unfold ngx_pfree
  split
  · rename_i large1 hs
    obtain ⟨pre, x, post, hl, _, hx, hl1⟩ := pfree_scan_some p _ _ hs
    obtain ⟨hf, hp⟩ := hw
    refine ⟨ngx_free_fresh _ _ hf, ?_⟩
    cases p with
    | none =>
      simp only [ngx_free, tracked, hl1]
      simp only [tracked, hl] at hp
      simpa [List.filterMap_append, hx] using hp
    | some a =>
      simp only [ngx_free, tracked, hl1]
      simp only [tracked, hl] at hp
      have hp1 : w.heap.live.Perm ((extra ++ (w.pool.blocks.map (fun b => b.addr) ++
          pre.filterMap (fun x => x.alloc))) ++ a :: post.filterMap (fun x => x.alloc)) := by
        simpa [List.filterMap_append, hx, List.append_assoc] using hp
      have h2 := (hp1.erase a).trans (erase_middle_perm a _ _)
      simpa [List.filterMap_append, List.append_assoc] using h2
  · exact hw

theorem Owns.same_heap_blocks {extra : List Nat} {w w1 : World} (h : Owns extra w)
    (hh : w1.heap = w.heap) (hb : w1.pool.blocks = w.pool.blocks)
    (hl : w1.pool.large = w.pool.large) : Owns extra w1 := by
  obtain ⟨hf, hp⟩ := h
  refine ⟨by rw [hh]; exact hf, ?_⟩
  simp only [tracked, hh, hb, hl]
  exact hp

theorem PoolOp.run_owns (fuel : Nat) (extra : List Nat) (w w1 : World) (op : PoolOp)
    (hw : Owns extra w) (h : op.run fuel w = some w1) : Owns extra w1 := by
  cases op with
  | palloc size =>
    obtain ⟨r, hr⟩ := map_snd_eq_some _ w1 h
    exact (palloc_owns fuel).1 extra w size r w1 hw hr
  | pnalloc size =>
    obtain ⟨r, hr⟩ := map_snd_eq_some _ w1 h
    unfold ngx_pnalloc at hr
    split at hr
    · simp only [Option.some.injEq] at hr
      exact palloc_small_owns _ extra w w1 size r hw hr
    · exact (palloc_owns fuel).2 extra w size r w1 hw hr
  | pcalloc size =>
    obtain ⟨r, hr⟩ := map_snd_eq_some _ w1 h
    exact (palloc_owns fuel).1 extra w size r w1 hw hr
  | pmemalign size alignment =>
    obtain ⟨r, hr⟩ := map_snd_eq_some _ w1 h
    unfold ngx_pmemalign at hr
    split at hr
    · rename_i h1 ha
      simp only [Option.some.injEq, Prod.mk.injEq] at hr
      rw [← hr.2]
      exact hw.alloc_fail ha
    · rename_i p h1 ha
      have hA := hw.alloc ha
      split at hr
      · simp at hr
      · rename_i w2 hp
        simp only [Option.some.injEq, Prod.mk.injEq] at hr
        rw [← hr.2]
        exact ((palloc_owns fuel).1 _ _ _ _ w2 hA hp).free_extra
      · rename_i l w2 hp
        simp only [Option.some.injEq, Prod.mk.injEq] at hr
        rw [← hr.2]
        exact ((palloc_owns fuel).1 _ _ _ _ w2 hA hp).take_extra _ (by simp)
  | pfree p =>
    simp only [PoolOp.run, Option.some.injEq] at h
    rw [← h]
    exact ngx_pfree_owns extra w p hw
  | cleanup_add size =>
    obtain ⟨r, hr⟩ := map_snd_eq_some _ w1 h
    unfold ngx_pool_cleanup_add at hr
    split at hr
    · simp at hr
    · rename_i w2 hp
      simp only [Option.some.injEq, Prod.mk.injEq] at hr
      rw [← hr.2]
      exact (palloc_owns fuel).1 _ _ _ _ w2 hw hp
    · rename_i c w2 hp
      have hw2 := (palloc_owns fuel).1 _ _ _ _ w2 hw hp
      split at hr
      · split at hr
        · simp at hr
        · rename_i w3 hp3
          simp only [Option.some.injEq, Prod.mk.injEq] at hr
          rw [← hr.2]
          exact (palloc_owns fuel).1 _ _ _ _ w3 hw2 hp3
        · rename_i d w3 hp3
          simp only [Option.some.injEq, Prod.mk.injEq] at hr
          rw [← hr.2]
          exact ((palloc_owns fuel).1 _ _ _ _ w3 hw2 hp3).same_heap_blocks rfl rfl rfl
      · simp only [Option.some.injEq, Prod.mk.injEq] at hr
        rw [← hr.2]
        exact hw2.same_heap_blocks rfl rfl rfl
  | reset =>
    simp only [PoolOp.run, Option.some.injEq] at h
    rw [← h]
    exact ngx_reset_pool_owns extra w hw

theorem run_ops_owns (fuel : Nat) (extra : List Nat) :
    ∀ (ops : List PoolOp) (w w1 : World), Owns extra w → run_ops fuel w ops = some w1 →
      Owns extra w1 := by
  intro ops
  induction ops with
  | nil =>
    intro w w1 hw h
    simp only [run_ops, Option.some.injEq] at h
    rw [← h]; exact hw
  | cons op rest ih =>
    intro w w1 hw h
    unfold run_ops at h
    split at h
    · simp at h
    · rename_i w2 hop
      exact ih w2 w1 (PoolOp.run_owns fuel extra w w2 op hw hop) h

theorem create_world_owns (h : Heap) (ngx_pagesize S : Nat) (w : World) (hf : h.Fresh)
    (hw : create_world h ngx_pagesize S = some w) : Owns h.live w := by
  obtain ⟨p, h1, hm, hweq⟩ := create_world_eq h ngx_pagesize S w hw
  obtain ⟨hf1, _, hl1⟩ := request_fresh _ _ _ _ hf hm
  subst hweq
  refine ⟨hf1, ?_⟩
  simp only [tracked, hl1 p rfl, List.map_cons, List.map_nil, List.filterMap_nil,
    List.append_nil]
  exact (List.perm_append_singleton p h.live).symm

/-- Where the claim on the live raw allocations does hold: with a provider that
returns fresh pointers, in every state reached from `ngx_create_pool` by the
public operations the live raw allocations are, each once, the blocks of the
chain and the pointers of the non-empty large records, beside those that were
live before the pool was created.  The two loops of `ngx_destroy_pool` that
release memory, run from such a state, release exactly these, each once (the
large pointers in list order, then the blocks in chain order), and what stays
live is what was live before the pool.  Whether `ngx_destroy_pool` reaches these
loops is the matter of its first loop, over the cleanup list.  The bound
`NGX_MIN_POOL_SIZE` on the size is not needed. -/
theorem pool_owns_live_allocations (h : Heap) (ngx_pagesize S fuel : Nat)
    (w0 w : World) (ops : List PoolOp)
    (hfresh : h.Fresh)
    (hw0 : create_world h ngx_pagesize S = some w0)
    (hrun : run_ops fuel w0 ops = some w) :
    w.heap.live.Perm (h.live ++ tracked w.pool) ∧
    (tracked w.pool).Nodup ∧
    (∀ a ∈ tracked w.pool, a ∉ h.live) ∧
    (free_blocks (free_large w.heap w.pool.large) w.pool.blocks).live.Perm h.live ∧
    (free_blocks (free_large w.heap w.pool.large) w.pool.blocks).trace =
      w.heap.trace ++
        (w.pool.large.filterMap (fun l => l.alloc) ++
          w.pool.blocks.map (fun b => b.addr)).map (fun a => RawCall.free (some a)) ∧
    (w.pool.large.filterMap (fun l => l.alloc) ++
      w.pool.blocks.map (fun b => b.addr)).Perm (tracked w.pool) := by
  obtain ⟨hf, hp⟩ := run_ops_owns fuel h.live ops w0 w
    (create_world_owns h ngx_pagesize S w0 hfresh hw0) hrun
  have hnd : (h.live ++ tracked w.pool).Nodup := by
    have h1 : w.heap.live.Nodup := (List.nodup_append.1 hf).1
    exact (hp.nodup_iff).1 h1
  have hp1 : w.heap.live.Perm ((h.live ++ w.pool.blocks.map (fun b => b.addr)) ++
      w.pool.large.filterMap (fun x => x.alloc)) := by
    simpa [tracked, List.append_assoc] using hp
  obtain ⟨hf1, hp2, ht1⟩ := free_large_owns w.pool.large w.heap _ hf hp1
  obtain ⟨_, hp3, ht2⟩ := free_blocks_owns w.pool.blocks _ h.live hf1 hp2
  refine ⟨hp, (List.nodup_append.1 hnd).2.1, ?_, hp3, ?_, List.perm_append_comm⟩
  · intro a ha hal
    exact (List.nodup_append.1 hnd).2.2 hal ha
  · simp only [ht2, ht1, List.map_append, List.append_assoc]

/-- The live raw allocations at a concrete state: the pool of 4096 bytes with two
blocks and one large allocation. -/
theorem pool_owns_live_allocations_example :
    pool_scenario.heap.live.Perm (heap4.live ++ tracked pool_scenario.pool) ∧
    (tracked pool_scenario.pool).Nodup ∧
    (∀ a ∈ tracked pool_scenario.pool, a ∉ heap4.live) ∧
    (free_blocks (free_large pool_scenario.heap pool_scenario.pool.large)
      pool_scenario.pool.blocks).live.Perm heap4.live ∧
    (free_blocks (free_large pool_scenario.heap pool_scenario.pool.large)
      pool_scenario.pool.blocks).trace =
      pool_scenario.heap.trace ++
        (pool_scenario.pool.large.filterMap (fun l => l.alloc) ++
          pool_scenario.pool.blocks.map (fun b => b.addr)).map
            (fun a => RawCall.free (some a)) ∧
    (pool_scenario.pool.large.filterMap (fun l => l.alloc) ++
      pool_scenario.pool.blocks.map (fun b => b.addr)).Perm (tracked pool_scenario.pool) :=
  pool_owns_live_allocations heap4 4096 4096 3 pool4096 pool_scenario
    [PoolOp.palloc 3000, PoolOp.palloc 2000, PoolOp.palloc 5000]
    (by unfold Heap.Fresh; decide) (by decide) (by decide)

/-! ## C15: the scenario of the specification -/

/-- C15: with pages of 4096 bytes and a provider that does not fail, on
`ngx_create_pool(4096)`: `ngx_palloc(3000)` is served from the head block without a
call to the provider; `ngx_palloc(2000)` does not fit the head block, makes the
provider give a second block and is served from it; `ngx_palloc(5000)` exceeds
`max = 4016`, is served by `ngx_alloc` and recorded in the large list;
`ngx_pfree` of that pointer returns `NGX_OK` and empties the record; and
`ngx_destroy_pool` then releases the two blocks and nothing else, and runs no
cleanup handler. -/
theorem c15_scenario :
    create_world heap4 4096 4096 = some pool4096 ∧
    ngx_palloc 3 pool4096 3000 =
      some (some 4176,
        { pool4096 with
          pool := { pool4096.pool with
                    blocks := [{ addr := 4096, last := 7176, end_ := 8192, failed := 0 }] } }) ∧
    scan_blocks (fun x => ngx_align_ptr x NGX_ALIGNMENT) 2000
      [{ addr := 4096, last := 7176, end_ := 8192, failed := 0 }] = none ∧
    ngx_palloc 3
      { pool4096 with
        pool := { pool4096.pool with
                  blocks := [{ addr := 4096, last := 7176, end_ := 8192, failed := 0 }] } }
      2000 = some (some 8224, pool_two_blocks) ∧
    pool_two_blocks.heap.trace = pool4096.heap.trace ++ [RawCall.memalign 16 4096] ∧
    pool_two_blocks.pool.max < 5000 ∧
    ngx_palloc 3 pool_two_blocks 5000 = some (some 100000, pool_scenario) ∧
    pool_scenario.heap.trace = pool_two_blocks.heap.trace ++ [RawCall.alloc 5000] ∧
    pool_scenario.pool.large = [{ addr := 7176, alloc := some 100000 }] ∧
    (ngx_pfree pool_scenario (some 100000)).1 = ngx_int_t.NGX_OK ∧
    (ngx_pfree pool_scenario (some 100000)).2.pool.large = [{ addr := 7176, alloc := none }] ∧
    (ngx_pfree pool_scenario (some 100000)).2.heap.live = [8192, 4096] ∧
    (ngx_destroy_pool (ngx_pfree pool_scenario (some 100000)).2).heap.trace =
      (ngx_pfree pool_scenario (some 100000)).2.heap.trace ++
        [RawCall.free (some 4096), RawCall.free (some 8192)] ∧
    (ngx_destroy_pool (ngx_pfree pool_scenario (some 100000)).2).heap.live = [] ∧
    (ngx_destroy_pool (ngx_pfree pool_scenario (some 100000)).2).ran = [] := by
  decide

/-! ## C16: reuse of empty records of the large list -/

theorem scan_large_found (p : Nat) :
    ∀ (pre : List ngx_pool_large_t) (x : ngx_pool_large_t) (post : List ngx_pool_large_t)
      (n : Nat), pre.length + n < 5 → (∀ y ∈ pre, y.alloc ≠ none) → x.alloc = none →
      scan_large p (pre ++ x :: post) n = some (pre ++ { x with alloc := some p } :: post) := by
  intro pre
  induction pre with
  | nil =>
    intro x post n _ _ hx
    simp [scan_large, hx]
  | cons a tl ih =>
    intro x post n hn hpre hx
    have ha := hpre a (List.mem_cons_self _ _)
    simp only [List.length_cons] at hn
    simp only [List.cons_append]
    unfold scan_large
    simp only [ha, if_false]
    have h3 : ¬ 3 < n := by omega
    simp only [h3, if_false]
    rw [ih x post (n + 1) (by omega) (fun y hy => hpre y (List.mem_cons_of_mem _ hy)) hx]

theorem scan_large_none (p : Nat) :
    ∀ (l : List ngx_pool_large_t) (n : Nat), n ≤ 4 →
      (∀ y ∈ l.take (5 - n), y.alloc ≠ none) → scan_large p l n = none := by
  intro l
  induction l with
  | nil => intro n _ _; rfl
  | cons a tl ih =>
    intro n hn h
    have h5 : 5 - n = (4 - n) + 1 := by omega
    rw [h5, List.take_succ_cons] at h
    have ha := h a (List.mem_cons_self _ _)
    unfold scan_large
    simp only [ha, if_false]
    by_cases h3 : 3 < n
    · simp only [h3, if_true]
    · simp only [h3, if_false]
      have h4 : 5 - (n + 1) = 4 - n := by omega
      rw [ih (n + 1) (by omega)
        (by rw [h4]; exact fun y hy => h y (List.mem_cons_of_mem _ hy))]

/-- While the first five records of the large list are live, a pool whose `max` is
below the size of a record never gets a record: the allocation re-enters
`ngx_palloc_large` until the provider fails. -/
theorem record_alloc_never_succeeds (fuel : Nat) :
    ∀ (w : World) (r : Option Nat) (w2 : World),
      w.pool.max < sizeof_ngx_pool_large_t →
      (∀ y ∈ w.pool.large.take 5, y.alloc ≠ none) →
      ngx_palloc fuel w sizeof_ngx_pool_large_t = some (r, w2) → r = none := by
  induction fuel using Nat.strong_induction_on with
  | _ fuel ih =>
    intro w r w2 hmax hfull h
    cases fuel with
    | zero => simp [ngx_palloc] at h
    | succ n =>
      unfold ngx_palloc at h
      have hn : ¬ sizeof_ngx_pool_large_t ≤ w.pool.max := by omega
      simp only [hn, if_false] at h
      cases n with
      | zero => simp [ngx_palloc_large] at h
      | succ m =>
        unfold ngx_palloc_large at h
        split at h
        · simp only [Option.some.injEq, Prod.mk.injEq] at h
          exact h.1.symm
        · rename_i p h1 ha
          rw [scan_large_none p w.pool.large 0 (by omega) hfull] at h
          simp only at h
          split at h
          · simp at h
          · simp only [Option.some.injEq, Prod.mk.injEq] at h
            exact h.1.symm
          · rename_i l w3 hp
            have := ih m (by omega) { w with heap := h1 } (some l) w3 hmax hfull hp
            simp at this

theorem record_alloc_large_same (fuel : Nat) (w w2 : World) (l : Nat)
    (hfull : ∀ y ∈ w.pool.large.take 5, y.alloc ≠ none)
    (h : ngx_palloc fuel w sizeof_ngx_pool_large_t = some (some l, w2)) :
    w2.pool.large = w.pool.large := by
  by_cases hmax : sizeof_ngx_pool_large_t ≤ w.pool.max
  · cases fuel with
    | zero => simp [ngx_palloc] at h
    | succ n =>
      unfold ngx_palloc at h
      simp only [hmax, if_true, Option.some.injEq] at h
      exact (palloc_small_ext _ w w2 _ _ h).2.1
  · have := record_alloc_never_succeeds fuel w (some l) w2 (by omega) hfull h
    simp at this

theorem run_ops_append (fuel : Nat) :
    ∀ (a b : List PoolOp) (w w1 : World), run_ops fuel w a = some w1 →
      run_ops fuel w (a ++ b) = run_ops fuel w1 b := by
  intro a
  induction a with
  | nil =>
    intro b w w1 h
    simp only [run_ops, Option.some.injEq] at h
    rw [h]; rfl
  | cons op rest ih =>
    intro b w w1 h
    simp only [List.cons_append, run_ops] at h ⊢
    split at h
    · simp at h
    · rename_i w2 hop
      exact ih b w2 w1 h

/-- The pool `pool_five_large` is reached from `ngx_create_pool(4096)` by five calls
`ngx_palloc(5000)` and `ngx_pfree` of the first pointer returned. -/
theorem pool_five_large_reached :
    create_world heap9 4096 4096 = some pool9 ∧
    run_ops 3 pool9
      ([PoolOp.palloc 5000, PoolOp.palloc 5000, PoolOp.palloc 5000] ++
       [PoolOp.palloc 5000, PoolOp.palloc 5000, PoolOp.pfree (some 20000)]) =
      some pool_five_large := by
  have h1 : run_ops 3 pool9 [PoolOp.palloc 5000, PoolOp.palloc 5000, PoolOp.palloc 5000] =
      some pool_three_large := by decide
  have h2 : run_ops 3 pool_three_large
      [PoolOp.palloc 5000, PoolOp.palloc 5000, PoolOp.pfree (some 20000)] =
      some pool_five_large := by decide
  refine ⟨by decide, ?_⟩
  rw [run_ops_append 3 _ _ pool9 pool_three_large h1, h2]

/-- C16, the code at a failing input: in the pool reached from
`ngx_create_pool(4096)` by five calls `ngx_palloc(5000)` and `ngx_pfree` of the first
pointer, the first four records of the large list are live and the fifth is
empty; `ngx_palloc(5000)` stores the new pointer in the fifth record, and no
record is linked at the head: the list keeps its five records.  The comment of
the loop speaks of the first three records; the test `n++ > 3` comes after the
test of the record and compares the counter before the increment. -/
theorem c16_fifth_record_reused :
    run_ops 3 pool9
      [PoolOp.palloc 5000, PoolOp.palloc 5000, PoolOp.palloc 5000, PoolOp.palloc 5000,
       PoolOp.palloc 5000, PoolOp.pfree (some 20000)] = some pool_five_large ∧
    (∀ y ∈ pool_five_large.pool.large.take 4, y.alloc ≠ none) ∧
    (∃ w, ngx_palloc_large 2 pool_five_large 5000 = some (some 70000, w) ∧
      w.pool.large =
        [{ addr := 4240, alloc := some 60000 }, { addr := 4224, alloc := some 50000 },
         { addr := 4208, alloc := some 40000 }, { addr := 4192, alloc := some 30000 },
         { addr := 4176, alloc := some 70000 }] ∧
      w.pool.large.length = pool_five_large.pool.large.length ∧
      ¬ ∃ l, w.pool.large = { addr := l, alloc := some 70000 } :: pool_five_large.pool.large) := by
  refine ⟨pool_five_large_reached.2, by decide, ?_⟩
  refine ⟨{ pool_five_large with
            heap := { script := [some 80000, some 90000]
                      live := [70000, 60000, 50000, 40000, 30000, 4096]
                      trace := pool_five_large.heap.trace ++ [RawCall.alloc 5000] }
            pool := { pool_five_large.pool with
                      large :=
                        [{ addr := 4240, alloc := some 60000 },
                         { addr := 4224, alloc := some 50000 },
                         { addr := 4208, alloc := some 40000 },
                         { addr := 4192, alloc := some 30000 },
                         { addr := 4176, alloc := some 70000 }] } },
    by decide, by decide, by decide, ?_⟩
  rintro ⟨l, hl⟩
  have := congrArg List.length hl
  simp [pool_five_large] at this

/-- What the loop of `ngx_palloc_large` does, in every pool: once `ngx_alloc(size)` has
given `p`, it looks for an empty record among the first five records of the large
list, not the first three of its comment.  If one of them is
empty, `p` is stored in the first such record, nothing else changes and the list
keeps its length.  If the first five records are all live, whatever the later
records are, the result is `NULL` with the large list unchanged (the record
allocation failed) or it is `p`, with a new record holding `p`, allocated by
`ngx_palloc(pool, sizeof(ngx_pool_large_t))`, linked at the head of the list.
With fuel for the number of answers the provider has left, the call returns. -/
theorem ngx_palloc_large_five_records (fuel : Nat) (w : World) (size p : Nat) (h1 : Heap)
    (ha : ngx_alloc w.heap size = (some p, h1)) :
    (∀ pre x post, w.pool.large = pre ++ x :: post → pre.length < 5 →
      (∀ y ∈ pre, y.alloc ≠ none) → x.alloc = none →
      ngx_palloc_large (fuel + 1) w size =
        some (some p,
          { w with
            heap := h1
            pool := { w.pool with large := pre ++ { x with alloc := some p } :: post } }) ∧
      (pre ++ { x with alloc := some p } :: post).length = w.pool.large.length) ∧
    ((∀ y ∈ w.pool.large.take 5, y.alloc ≠ none) →
      ∀ r w1, ngx_palloc_large (fuel + 1) w size = some (r, w1) →
        (r = none ∧ w1.pool.large = w.pool.large) ∨
        (r = some p ∧
          ∃ l w2, ngx_palloc fuel { w with heap := h1 } sizeof_ngx_pool_large_t =
              some (some l, w2) ∧
            w1.pool.large = { addr := l, alloc := some p } :: w.pool.large)) ∧
    (2 * w.heap.script.length ≤ fuel → ∃ r, ngx_palloc_large (fuel + 1) w size = some r) := by
  refine ⟨?_, ?_, fun hf =>
    (palloc_returns w.heap.script.length (fuel + 1) w size (Nat.le_refl _)).2 (by omega)⟩
  · intro pre x post hl hlen hpre hx
    refine ⟨?_, by rw [hl]; simp⟩
    unfold ngx_palloc_large
    rw [ha]
    simp only
    rw [hl, scan_large_found p pre x post 0 (by omega) hpre hx]
  · intro hfull r w1 h
    unfold ngx_palloc_large at h
    rw [ha] at h
    simp only at h
    rw [scan_large_none p w.pool.large 0 (by omega) hfull] at h
    simp only at h
    split at h
    · simp at h
    · rename_i w2 hp
      simp only [Option.some.injEq, Prod.mk.injEq] at h
      left
      refine ⟨h.1.symm, ?_⟩
      rw [← h.2]
      have := ((palloc_fail_frame fuel).1 _ _ w2 hp).1
      simp only [this]
    · rename_i l w2 hp
      simp only [Option.some.injEq, Prod.mk.injEq] at h
      right
      refine ⟨h.1.symm, l, w2, hp, ?_⟩
      rw [← h.2]
      have := record_alloc_large_same fuel { w with heap := h1 } w2 l hfull hp
      simp only [this]

/-- The loop of `ngx_palloc_large` at concrete pools: with the first four records live
and the fifth empty the pointer goes into the fifth record; with five live records a new
record is linked at the head. -/
theorem ngx_palloc_large_five_records_example :
    (ngx_palloc_large (1 + 1) pool_five_large 5000 =
        some (some 70000,
          { pool_five_large with
            heap := pool_five_live.heap
            pool := { pool_five_large.pool with
                      large := pool_five_large.pool.large.take 4 ++
                        { ({ addr := 4176, alloc := none } : ngx_pool_large_t) with
                          alloc := some 70000 } :: [] } }) ∧
      (pool_five_large.pool.large.take 4 ++
        { ({ addr := 4176, alloc := none } : ngx_pool_large_t) with alloc := some 70000 } ::
          []).length = pool_five_large.pool.large.length) ∧
    ((some 80000 = none ∧ pool_six_large.pool.large = pool_five_live.pool.large) ∨
      (some 80000 = some 80000 ∧
        ∃ l w2, ngx_palloc 1 { pool_five_live with heap := heap_six }
            sizeof_ngx_pool_large_t = some (some l, w2) ∧
          pool_six_large.pool.large =
            { addr := l, alloc := some 80000 } :: pool_five_live.pool.large)) :=
  ⟨(ngx_palloc_large_five_records 1 pool_five_large 5000 70000 pool_five_live.heap (by decide)).1
      (pool_five_large.pool.large.take 4) { addr := 4176, alloc := none } []
      (by decide) (by decide) (by decide) (by decide),
   (ngx_palloc_large_five_records 1 pool_five_live 5000 80000 heap_six (by decide)).2.1
      (by decide) (some 80000) pool_six_large (by decide)⟩

/-! ## C17: the record allocation and the recursion of `ngx_palloc` -/

theorem record_alloc_small (fuel : Nat) (w : World)
    (hmax : sizeof_ngx_pool_large_t ≤ w.pool.max) :
    ngx_palloc (fuel + 1) w sizeof_ngx_pool_large_t =
      some (palloc_small (fun x => ngx_align_ptr x NGX_ALIGNMENT) w sizeof_ngx_pool_large_t) := by
  unfold ngx_palloc
  simp only [hmax, if_true]

theorem ngx_palloc_large_returns_two (w : World) (size : Nat)
    (hmax : sizeof_ngx_pool_large_t ≤ w.pool.max) :
    ∃ r, ngx_palloc_large 2 w size = some r := by
  unfold ngx_palloc_large
  split
  · exact ⟨_, rfl⟩
  · rename_i p h1 ha
    split
    · exact ⟨_, rfl⟩
    · rw [record_alloc_small 0 { w with heap := h1 } hmax]
      rcases palloc_small (fun x => ngx_align_ptr x NGX_ALIGNMENT) { w with heap := h1 }
        sizeof_ngx_pool_large_t with ⟨r1, w2⟩
      cases r1 with
      | none => exact ⟨_, rfl⟩
      | some l => exact ⟨_, rfl⟩

/-- C17, as the claim states it, fails: `ngx_create_pool(80)` gives a pool with
`max = 0`, below the size of a large record.  There the record allocation of
`ngx_palloc_large` (and of `ngx_pmemalign`) goes to `ngx_palloc_large` again: a
recursion depth that suffices in every pool of at least `NGX_MIN_POOL_SIZE` bytes
is exceeded, and with more depth `ngx_palloc(pool, 1)` calls `ngx_alloc(16)` once
per level until the provider fails, then frees everything and returns `NULL`. -/
theorem c17_record_allocation_reenters :
    create_world heap4 4096 80 = some pool80 ∧
    pool80.pool.max < sizeof_ngx_pool_large_t ∧
    ngx_palloc 3 pool80 1 = none ∧
    ngx_palloc_large 2 pool80 1 = none ∧
    ngx_pmemalign 1 pool80 64 32 = none ∧
    (ngx_palloc 8 pool80 1).map (fun r => (r.1, r.2.heap.trace)) =
      some (none,
        [RawCall.memalign 16 80, RawCall.alloc 1, RawCall.alloc 16, RawCall.alloc 16,
         RawCall.alloc 16, RawCall.free (some 12288), RawCall.free (some 100000),
         RawCall.free (some 8192)]) := by
  decide

/-- C17, amended: in every state reached from `ngx_create_pool(S)` with
`sizeof(ngx_pool_t) + sizeof(ngx_pool_large_t) <= S` (in particular with
`NGX_MIN_POOL_SIZE <= S`), on a host with `NGX_MAX_ALLOC_FROM_POOL` at least the
size of a large record, `max` is at least the size of a large record.  Hence the
record allocation `ngx_palloc(pool, sizeof(ngx_pool_large_t))` is the small
allocation path, whatever the provider, and `ngx_palloc`, `ngx_palloc_large` and
`ngx_pmemalign` return for every size within the recursion depths 3, 2 and 1,
which leave no room for a second entry into `ngx_palloc_large`. -/
theorem c17_record_allocation_is_small (h : Heap) (ngx_pagesize S fuel : Nat)
    (w0 w : World) (ops : List PoolOp)
    (hS : sizeof_ngx_pool_t + sizeof_ngx_pool_large_t ≤ S) (hS64 : S < 2 ^ 64)
    (hpage : sizeof_ngx_pool_large_t ≤ NGX_MAX_ALLOC_FROM_POOL ngx_pagesize)
    (hw0 : create_world h ngx_pagesize S = some w0)
    (hrun : run_ops fuel w0 ops = some w) :
    sizeof_ngx_pool_large_t ≤ w.pool.max ∧
    (∀ fuel1 h1, ngx_palloc (fuel1 + 1) { w with heap := h1 } sizeof_ngx_pool_large_t =
      some (palloc_small (fun x => ngx_align_ptr x NGX_ALIGNMENT) { w with heap := h1 }
        sizeof_ngx_pool_large_t)) ∧
    (∀ size, ∃ r, ngx_palloc 3 w size = some r) ∧
    (∀ size, ∃ r, ngx_palloc_large 2 w size = some r) ∧
    (∀ size alignment, ∃ r, ngx_pmemalign 1 w size alignment = some r) := by
  obtain ⟨p, h1, _, hw0eq⟩ := create_world_eq h ngx_pagesize S w0 hw0
  have hmax0 : sizeof_ngx_pool_large_t ≤ w0.pool.max := by
    rw [hw0eq]
    simp only [sizeof_ngx_pool_t, sizeof_ngx_pool_large_t] at hS hpage ⊢
    have : size_t_sub S 80 = S - 80 := size_t_sub_of_le _ _ (by omega) (by omega)
    rw [this]
    split <;> omega
  have hmax : sizeof_ngx_pool_large_t ≤ w.pool.max := by
    rw [(run_ops_ext fuel ops w0 w hrun).1]
    exact hmax0
  refine ⟨hmax, fun fuel1 h2 => record_alloc_small fuel1 _ hmax, ?_,
    fun size => ngx_palloc_large_returns_two w size hmax, ?_⟩
  · intro size
    unfold ngx_palloc
    split
    · exact ⟨_, rfl⟩
    · exact ngx_palloc_large_returns_two w size hmax
  · intro size alignment
    unfold ngx_pmemalign
    split
    · exact ⟨_, rfl⟩
    · rename_i p1 h2 ha
      rw [record_alloc_small 0 { w with heap := h2 } hmax]
      rcases palloc_small (fun x => ngx_align_ptr x NGX_ALIGNMENT) { w with heap := h2 }
        sizeof_ngx_pool_large_t with ⟨r1, w2⟩
      cases r1 with
      | none => exact ⟨_, rfl⟩
      | some l => exact ⟨_, rfl⟩

/-- C17 amended, at a concrete pool: the pool of `NGX_MIN_POOL_SIZE = 112` bytes,
after a first allocation. -/
theorem c17_record_allocation_is_small_witness :
    NGX_MIN_POOL_SIZE = 112 ∧
    sizeof_ngx_pool_large_t ≤ pool112_full.pool.max ∧
    (∀ size, ∃ r, ngx_palloc 3 pool112_full size = some r) :=
  ⟨by decide,
   (c17_record_allocation_is_small
      { script := [some 4096, some 100000], live := [], trace := [] } 4096 112 1
      { pool112_full with
        pool := { pool112_full.pool with
                  blocks := [{ addr := 4096, last := 4176, end_ := 4208, failed := 0 }] } }
      pool112_full [PoolOp.palloc 32]
      (by decide) (by decide) (by decide) (by decide) (by decide)).1,
   (c17_record_allocation_is_small
      { script := [some 4096, some 100000], live := [], trace := [] } 4096 112 1
      { pool112_full with
        pool := { pool112_full.pool with
                  blocks := [{ addr := 4096, last := 4176, end_ := 4208, failed := 0 }] } }
      pool112_full [PoolOp.palloc 32]
      (by decide) (by decide) (by decide) (by decide) (by decide)).2.2.1⟩

/-! ## C18: the failure counters of the blocks reachable from `current` -/

theorem scan_blocks_failed (al : Nat → Nat) (size : Nat) :
    ∀ (l : List ngx_pool_data_t) (m : Nat) (l1 : List ngx_pool_data_t),
      scan_blocks al size l = some (m, l1) →
        l1.map (fun b => b.failed) = l.map (fun b => b.failed) := by
  intro l
  induction l with
  | nil => intro m l1 h; simp [scan_blocks] at h
  | cons p tl ih =>
    intro m l1 h
    unfold scan_blocks at h
    simp only at h
    split at h
    · simp only [Option.some.injEq, Prod.mk.injEq] at h
      rw [← h.2]
      rfl
    · split at h
      · simp at h
      · rename_i r rest1 hs
        simp only [Option.some.injEq, Prod.mk.injEq] at h
        rw [← h.2, List.map_cons, List.map_cons, ih r rest1 hs]

theorem walk_failed_length :
    ∀ (l : List ngx_pool_data_t) (idx cur : Nat), (walk_failed l idx cur).1.length = l.length := by
  intro l idx cur
  have h := congrArg List.length (walk_failed_span l idx cur)
  simpa using h

theorem walk_failed_bound :
    ∀ (l : List ngx_pool_data_t) (idx cur : Nat), (∀ b ∈ l, b.failed ≤ 5) →
      ∃ k, ((walk_failed l idx cur).2 = cur ∧ k = 0 ∨ (walk_failed l idx cur).2 = idx + k) ∧
        (k = 0 ∨ k < l.length) ∧ ∀ b ∈ (walk_failed l idx cur).1.drop k, b.failed ≤ 5 := by
  intro l
  induction l with
  | nil =>
    intro idx cur _
    exact ⟨0, Or.inl ⟨rfl, rfl⟩, Or.inl rfl, by simp [walk_failed]⟩
  | cons p tl ih =>
    intro idx cur hl
    cases tl with
    | nil =>
      refine ⟨0, Or.inl ⟨rfl, rfl⟩, Or.inl rfl, ?_⟩
      simpa [walk_failed] using hl
    | cons q rest =>
      have htl : ∀ b ∈ q :: rest, b.failed ≤ 5 := fun b hb => hl b (List.mem_cons_of_mem _ hb)
      obtain ⟨k1, hcur, hk1, hb1⟩ := ih (idx + 1) (if 4 < p.failed then idx + 1 else cur) htl
      unfold walk_failed
      simp only
      rcases hcur with ⟨hc, hk0⟩ | hc
      · subst hk0
        by_cases hp : 4 < p.failed
        · refine ⟨1, Or.inr ?_, Or.inr (by simp), ?_⟩
          · rw [hc, if_pos hp]
          · simpa using hb1
        · refine ⟨0, Or.inl ⟨?_, rfl⟩, Or.inl rfl, ?_⟩
          · rw [hc, if_neg hp]
          · intro b hb
            simp only [List.drop_zero, List.mem_cons] at hb hb1
            rcases hb with hb | hb
            · rw [hb]; simp only; omega
            · exact hb1 b hb
      · refine ⟨k1 + 1, Or.inr ?_, Or.inr ?_, ?_⟩
        · rw [hc]; omega
        · simp only [List.length_cons] at hk1 ⊢
          omega
        · simpa using hb1

theorem ngx_palloc_block_failed (w w1 : World) (size : Nat) (r : Option Nat)
    (hw : FailedAtMost 5 w.pool) (h : ngx_palloc_block w size = (r, w1)) :
    FailedAtMost 5 w1.pool := by
  cases r with
  | none =>
    rw [(ngx_palloc_block_fail w w1 size h).1]
    exact hw
  | some m =>
    obtain ⟨d, tl, m0, h1, _, _, _, hw1⟩ := ngx_palloc_block_ok w w1 size m h
    subst hw1
    obtain ⟨hcur, hb⟩ := hw
    obtain ⟨k, hk, hklen, hbk⟩ := walk_failed_bound (w.pool.blocks.drop w.pool.current)
      w.pool.current w.pool.current hb
    have hlen := walk_failed_length (w.pool.blocks.drop w.pool.current)
      w.pool.current w.pool.current
    have htake : (w.pool.blocks.take w.pool.current).length = w.pool.current := by
      rw [List.length_take]; omega
    have hdl : (w.pool.blocks.drop w.pool.current).length =
        w.pool.blocks.length - w.pool.current := List.length_drop _ _
    have hkle : k ≤ (walk_failed (w.pool.blocks.drop w.pool.current)
        w.pool.current w.pool.current).1.length := by
      rw [hlen]; omega
    have hr2 : (walk_failed (w.pool.blocks.drop w.pool.current)
        w.pool.current w.pool.current).2 = w.pool.current + k := by
      rcases hk with ⟨h2, h0⟩ | h2
      · rw [h2, h0]; rfl
      · exact h2
    constructor
    · simp only [List.length_append, List.length_cons, List.length_nil, hlen, htake, hdl, hr2]
      omega
    · intro b hbm
      simp only [hr2, List.append_assoc] at hbm
      have hdrop : List.drop (w.pool.current + k)
          (w.pool.blocks.take w.pool.current ++
            ((walk_failed (w.pool.blocks.drop w.pool.current)
              w.pool.current w.pool.current).1 ++
              [(⟨m0, m + size, m0 + size_t_sub d.end_ d.addr, 0⟩ : ngx_pool_data_t)])) =
          List.drop k (walk_failed (w.pool.blocks.drop w.pool.current)
              w.pool.current w.pool.current).1 ++
            [(⟨m0, m + size, m0 + size_t_sub d.end_ d.addr, 0⟩ : ngx_pool_data_t)] := by
        nth_rewrite 1 [← htake]
        rw [List.drop_append, List.drop_append_of_le_length hkle]
      rw [hdrop] at hbm
      simp only [List.mem_append, List.mem_singleton] at hbm
      rcases hbm with hbm | hbm
      · exact hbk b hbm
      · rw [hbm]; simp

theorem palloc_small_failed (al : Nat → Nat) (w w1 : World) (size : Nat) (r : Option Nat)
    (hw : FailedAtMost 5 w.pool) (h : palloc_small al w size = (r, w1)) :
    FailedAtMost 5 w1.pool := by
  unfold palloc_small at h
  split at h
  · rename_i m rest hs
    simp only [Prod.mk.injEq] at h
    rw [← h.2]
    obtain ⟨hcur, hb⟩ := hw
    have hf := scan_blocks_failed al size _ m rest hs
    have hlen : rest.length = w.pool.blocks.length - w.pool.current := by
      have := congrArg List.length hf
      simpa using this
    have htake : (w.pool.blocks.take w.pool.current).length = w.pool.current := by
      rw [List.length_take]; omega
    constructor
    · simp only [List.length_append, htake, hlen]
      omega
    · intro b hbm
      have hdrop : List.drop w.pool.current (w.pool.blocks.take w.pool.current ++ rest) =
          rest := by
        nth_rewrite 1 [← htake]
        exact List.drop_left _ _
      simp only [hdrop] at hbm
      have hmem : b.failed ∈ rest.map (fun b => b.failed) := List.mem_map_of_mem _ hbm
      rw [hf] at hmem
      obtain ⟨b0, hb0, hbeq⟩ := List.mem_map.1 hmem
      rw [← hbeq]
      exact hb b0 hb0
  · exact ngx_palloc_block_failed w w1 size r hw h

theorem palloc_failed (fuel : Nat) :
    (∀ w size r w1, FailedAtMost 5 w.pool → ngx_palloc fuel w size = some (r, w1) →
      FailedAtMost 5 w1.pool) ∧
    (∀ w size r w1, FailedAtMost 5 w.pool → ngx_palloc_large fuel w size = some (r, w1) →
      FailedAtMost 5 w1.pool) := by
  induction fuel with
  | zero => simp [ngx_palloc, ngx_palloc_large]
  | succ n ih =>
    constructor
    · intro w size r w1 hw h
      unfold ngx_palloc at h
      split at h
      · simp only [Option.some.injEq] at h
        exact palloc_small_failed _ w w1 size r hw h
      · exact ih.2 w size r w1 hw h
    · intro w size r w1 hw h
      unfold ngx_palloc_large at h
      split at h
      · simp only [Option.some.injEq, Prod.mk.injEq] at h
        rw [← h.2]
        exact hw
      · rename_i p h1 ha
        have hw0 : FailedAtMost 5 ({ w with heap := h1 } : World).pool := hw
        split at h
        · simp only [Option.some.injEq, Prod.mk.injEq] at h
          rw [← h.2]
          exact hw
        · split at h
          · simp at h
          · rename_i w2 hp
            simp only [Option.some.injEq, Prod.mk.injEq] at h
            rw [← h.2]
            have h2 := ih.1 _ _ _ w2 hw0 hp
            exact h2
          · rename_i l w2 hp
            simp only [Option.some.injEq, Prod.mk.injEq] at h
            rw [← h.2]
            have h2 := ih.1 _ _ _ w2 hw0 hp
            exact h2

theorem PoolOp.run_failed (fuel : Nat) (w w1 : World) (op : PoolOp)
    (hw : FailedAtMost 5 w.pool) (h : op.run fuel w = some w1) : FailedAtMost 5 w1.pool := by
  cases op with
  | palloc size =>
    obtain ⟨r, hr⟩ := map_snd_eq_some _ w1 h
    exact (palloc_failed fuel).1 w size r w1 hw hr
  | pnalloc size =>
    obtain ⟨r, hr⟩ := map_snd_eq_some _ w1 h
    unfold ngx_pnalloc at hr
    split at hr
    · simp only [Option.some.injEq] at hr
      exact palloc_small_failed _ w w1 size r hw hr
    · exact (palloc_failed fuel).2 w size r w1 hw hr
  | pcalloc size =>
    obtain ⟨r, hr⟩ := map_snd_eq_some _ w1 h
    exact (palloc_failed fuel).1 w size r w1 hw hr
  | pmemalign size alignment =>
    obtain ⟨r, hr⟩ := map_snd_eq_some _ w1 h
    unfold ngx_pmemalign at hr
    split at hr
    · simp only [Option.some.injEq, Prod.mk.injEq] at hr
      rw [← hr.2]
      exact hw
    · rename_i p h1 ha
      have hw0 : FailedAtMost 5 ({ w with heap := h1 } : World).pool := hw
      split at hr
      · simp at hr
      · rename_i w2 hp
        simp only [Option.some.injEq, Prod.mk.injEq] at hr
        rw [← hr.2]
        have h2 := (palloc_failed fuel).1 _ _ _ w2 hw0 hp
        exact h2
      · rename_i l w2 hp
        simp only [Option.some.injEq, Prod.mk.injEq] at hr
        rw [← hr.2]
        have h2 := (palloc_failed fuel).1 _ _ _ w2 hw0 hp
        exact h2
  | pfree p =>
    simp only [PoolOp.run, Option.some.injEq] at h
    rw [← h]
    unfold ngx_pfree
    split
    · exact hw
    · exact hw
  | cleanup_add size =>
    obtain ⟨r, hr⟩ := map_snd_eq_some _ w1 h
    unfold ngx_pool_cleanup_add at hr
    split at hr
    · simp at hr
    · rename_i w2 hp
      simp only [Option.some.injEq, Prod.mk.injEq] at hr
      rw [← hr.2]
      exact (palloc_failed fuel).1 _ _ _ w2 hw hp
    · rename_i c w2 hp
      have hw2 := (palloc_failed fuel).1 _ _ _ w2 hw hp
      split at hr
      · split at hr
        · simp at hr
        · rename_i w3 hp3
          simp only [Option.some.injEq, Prod.mk.injEq] at hr
          rw [← hr.2]
          exact (palloc_failed fuel).1 _ _ _ w3 hw2 hp3
        · rename_i d w3 hp3
          simp only [Option.some.injEq, Prod.mk.injEq] at hr
          rw [← hr.2]
          have h3 := (palloc_failed fuel).1 _ _ _ w3 hw2 hp3
          exact h3
      · simp only [Option.some.injEq, Prod.mk.injEq] at hr
        rw [← hr.2]
        exact hw2
  | reset =>
    simp only [PoolOp.run, Option.some.injEq] at h
    rw [← h]
    obtain ⟨hcur, _⟩ := hw
    constructor
    · simp only [ngx_reset_pool, List.length_map]
      omega
    · intro b hb
      simp only [ngx_reset_pool, List.drop_zero, List.mem_map] at hb
      obtain ⟨b0, _, hbeq⟩ := hb
      rw [← hbeq]
      simp

theorem run_ops_failed (fuel : Nat) :
    ∀ (ops : List PoolOp) (w w1 : World), FailedAtMost 5 w.pool →
      run_ops fuel w ops = some w1 → FailedAtMost 5 w1.pool := by
  intro ops
  induction ops with
  | nil =>
    intro w w1 hw h
    simp only [run_ops, Option.some.injEq] at h
    rw [← h]; exact hw
  | cons op rest ih =>
    intro w w1 hw h
    unfold run_ops at h
    split at h
    · simp at h
    · rename_i w2 hop
      exact ih w2 w1 (PoolOp.run_failed fuel w w2 op hw hop) h

/-- The pool `pool_seven` is reached from `pool9` by seven calls `ngx_palloc(3000)`. -/
theorem pool_seven_reached :
    run_ops 1 pool9
      [PoolOp.palloc 3000, PoolOp.palloc 3000, PoolOp.palloc 3000, PoolOp.palloc 3000,
       PoolOp.palloc 3000, PoolOp.palloc 3000, PoolOp.palloc 3000] = some pool_seven := by
  have h3 : run_ops 1 pool9 [PoolOp.palloc 3000, PoolOp.palloc 3000, PoolOp.palloc 3000] =
      some pool_seven_3 := by decide
  have h6 : run_ops 1 pool_seven_3
      [PoolOp.palloc 3000, PoolOp.palloc 3000, PoolOp.palloc 3000] = some pool_seven_6 := by
    decide
  have h7 : run_ops 1 pool_seven_6 [PoolOp.palloc 3000] = some pool_seven := by decide
  have ha := run_ops_append 1 [PoolOp.palloc 3000, PoolOp.palloc 3000, PoolOp.palloc 3000]
    [PoolOp.palloc 3000, PoolOp.palloc 3000, PoolOp.palloc 3000, PoolOp.palloc 3000]
    pool9 pool_seven_3 h3
  have hb := run_ops_append 1 [PoolOp.palloc 3000, PoolOp.palloc 3000, PoolOp.palloc 3000]
    [PoolOp.palloc 3000] pool_seven_3 pool_seven_6 h6
  simp only [List.cons_append, List.nil_append] at ha hb
  rw [ha, hb, h7]

/-- C18, the code at a failing input: seven calls `ngx_palloc(3000)` on a pool of
4096 bytes add six blocks; the head block then has `failed = 5` and is still
`pool->current`.  The test `p->d.failed++ > 4` compares the counter before the
increment, so `current` moves past a block only at the growth that finds its
counter already above 4: the next growth raises the head counter to 6 and moves
`current` to the second block, whose counter is then 5.  The comments of
`ngx_palloc_block` and of the field `current` speak of a count above 3. -/
theorem c18_failed_five_at_current :
    create_world heap9 4096 4096 = some pool9 ∧
    run_ops 1 pool9
      [PoolOp.palloc 3000, PoolOp.palloc 3000, PoolOp.palloc 3000, PoolOp.palloc 3000,
       PoolOp.palloc 3000, PoolOp.palloc 3000, PoolOp.palloc 3000] = some pool_seven ∧
    pool_seven.pool.current = 0 ∧
    pool_seven.pool.blocks.map (fun b => b.failed) = [5, 4, 3, 2, 1, 0, 0] ∧
    ¬ FailedAtMost 4 pool_seven.pool ∧
    (ngx_palloc 1 pool_seven 3000).map
        (fun r => (r.2.pool.current, r.2.pool.blocks.map (fun b => b.failed))) =
      some (1, [6, 5, 4, 3, 2, 1, 0, 0]) := by
  refine ⟨by decide, pool_seven_reached, rfl, by decide, ?_, by decide⟩
  intro hf
  have h5 := hf.2 ⟨4096, 7176, 8192, 5⟩ (by decide)
  simp at h5

/-- The bound that the code does keep: in every pool state reached from
`ngx_create_pool` through the public operations, `pool->current` is a block of the
chain and every block from it on has a failure counter of at most 5, because a
block growth moves `current` past the blocks whose counter was above 4 before
the growth. -/
theorem failed_at_most_five_reachable (h : Heap) (ngx_pagesize S fuel : Nat) (w0 w : World)
    (ops : List PoolOp)
    (hw0 : create_world h ngx_pagesize S = some w0)
    (hrun : run_ops fuel w0 ops = some w) :
    w.pool.current < w.pool.blocks.length ∧
      ∀ b ∈ w.pool.blocks.drop w.pool.current, b.failed ≤ 5 := by
  obtain ⟨p, h1, _, hw0eq⟩ := create_world_eq h ngx_pagesize S w0 hw0
  have h0 : FailedAtMost 5 w0.pool := by
    rw [hw0eq]
    constructor
    · simp
    · intro b hb
      simp only [List.drop_zero, List.mem_singleton] at hb
      rw [hb]
      simp
  exact run_ops_failed fuel ops w0 w h0 hrun

/-- The bound on the failure counters at a concrete run: the seven blocks after seven calls
`ngx_palloc(3000)` on a pool of 4096 bytes, the first of them with `failed = 5`. -/
theorem failed_at_most_five_example :
    create_world heap9 4096 4096 = some pool9 ∧
    pool_seven.pool.current < pool_seven.pool.blocks.length ∧
      ∀ b ∈ pool_seven.pool.blocks.drop pool_seven.pool.current, b.failed ≤ 5 :=
  ⟨by decide,
   failed_at_most_five_reachable heap9 4096 4096 1 pool9 pool_seven _ (by decide)
     pool_seven_reached⟩

/-! ## C19: block growth -/

theorem walk_failed_keep :
    ∀ (l : List ngx_pool_data_t) (idx cur : Nat),
      (walk_failed l idx cur).1.map (fun b => (b.addr, b.last, b.end_)) =
        l.map (fun b => (b.addr, b.last, b.end_)) := by
  intro l
  induction l with
  | nil => intro idx cur; rfl
  | cons p tl ih =>
    intro idx cur
    cases tl with
    | nil => rfl
    | cons q rest =>
      unfold walk_failed
      simp only [List.map_cons]
      rw [ih (idx + 1) _]
      rfl

theorem create_world_max_le (h : Heap) (ngx_pagesize S : Nat) (w : World)
    (hS : sizeof_ngx_pool_t ≤ S) (hS64 : S < 2 ^ 64)
    (hw : create_world h ngx_pagesize S = some w) : w.pool.max ≤ S - sizeof_ngx_pool_t := by
  obtain ⟨p, h1, _, hweq⟩ := create_world_eq h ngx_pagesize S w hw
  rw [hweq]
  simp only [sizeof_ngx_pool_t] at hS ⊢
  have : size_t_sub S 80 = S - 80 := size_t_sub_of_le _ _ hS (by omega)
  rw [this]
  split <;> omega

/-- C19: in every state reached from `ngx_create_pool(S)` with
`sizeof(ngx_pool_t) <= S` through the public operations, and for every
`size <= pool->max`, a block growth `ngx_palloc_block(pool, size)` that succeeds
leaves a chain that is the old chain, every block with its place, cursor and end
and in the same order, followed by exactly one new block.  The new block is the
memory that `ngx_memalign(NGX_POOL_ALIGNMENT, S)` returned; its span is `S`, the
span of the head block; the pointer returned is `m`, the address after the
`ngx_pool_data_t` header aligned to `NGX_ALIGNMENT`; and
`new.last = m + size <= new.end`, with a failure counter of 0. -/
theorem c19_ngx_palloc_block (h : Heap) (ngx_pagesize S fuel : Nat) (w0 w w1 : World)
    (ops : List PoolOp) (size m : Nat)
    (hS : sizeof_ngx_pool_t ≤ S) (hS64 : S < 2 ^ 64)
    (hw0 : create_world h ngx_pagesize S = some w0)
    (hrun : run_ops fuel w0 ops = some w)
    (hsize : size ≤ w.pool.max)
    (hgrow : ngx_palloc_block w size = (some m, w1)) :
    ∃ old new, w1.pool.blocks = old ++ [new] ∧
      old.map (fun b => (b.addr, b.last, b.end_)) =
        w.pool.blocks.map (fun b => (b.addr, b.last, b.end_)) ∧
      w.pool.blocks.head?.map (fun d => d.end_ - d.addr) = some S ∧
      new.end_ - new.addr = S ∧
      ngx_memalign w.heap NGX_POOL_ALIGNMENT S = (some new.addr, w1.heap) ∧
      m = ngx_align_ptr (new.addr + sizeof_ngx_pool_data_t) NGX_ALIGNMENT ∧
      new.addr + sizeof_ngx_pool_data_t ≤ m ∧
      new.last = m + size ∧ new.last ≤ new.end_ ∧ new.failed = 0 := by
  have hmax0 := create_world_max_le h ngx_pagesize S w0 hS hS64 hw0
  obtain ⟨p, h1, _, hw0eq⟩ := create_world_eq h ngx_pagesize S w0 hw0
  have hext := run_ops_ext fuel ops w0 w hrun
  have hmax : w.pool.max ≤ S - sizeof_ngx_pool_t := by rw [hext.1]; exact hmax0
  obtain ⟨b1, tl1, hb1, hb1a, hb1e⟩ := hext.head ⟨p, p + sizeof_ngx_pool_t, p + S, 0⟩ []
    (by rw [hw0eq])
  simp only at hb1a hb1e
  obtain ⟨d, tl, m0, h2, hb, hm, hmeq, hw1⟩ := ngx_palloc_block_ok w w1 size m hgrow
  have hd : d = b1 := by
    rw [hb1] at hb
    simp only [List.cons.injEq] at hb
    exact hb.1.symm
  have hpsize : size_t_sub d.end_ d.addr = S := by
    rw [hd, hb1a, hb1e, size_t_sub_of_le _ _ (by omega) (by omega)]
    omega
  rw [hpsize] at hm hw1
  have hle : m0 + sizeof_ngx_pool_data_t ≤ m := by
    rw [hmeq]
    exact le_ngx_align_ptr _
  have hub : m ≤ m0 + 39 := by
    rw [hmeq, ngx_align_ptr_eq]
    simp only [sizeof_ngx_pool_data_t]
    omega
  subst hw1
  refine ⟨w.pool.blocks.take w.pool.current ++
      (walk_failed (w.pool.blocks.drop w.pool.current) w.pool.current w.pool.current).1,
    ⟨m0, m + size, m0 + S, 0⟩, rfl, ?_, ?_, ?_, hm, hmeq, hle, rfl, ?_, rfl⟩
  · rw [List.map_append, walk_failed_keep, ← List.map_append, List.take_append_drop]
  · rw [hb1]
    simp only [List.head?_cons, Option.map_some', Option.some.injEq, hb1a, hb1e]
    omega
  · simp only
    omega
  · simp only [sizeof_ngx_pool_t] at hS hmax ⊢
    omega

/-- C19 at a concrete pool: the pool of 4096 bytes whose head block served 3000
bytes grows by one block for a request of 2000 bytes. -/
theorem c19_ngx_palloc_block_witness :
    ngx_palloc_block
        { pool4096 with
          pool := { pool4096.pool with
                    blocks := [{ addr := 4096, last := 7176, end_ := 8192, failed := 0 }] } }
        2000 = (some 8224, pool_two_blocks) ∧
    ∃ old new, pool_two_blocks.pool.blocks = old ++ [new] ∧
      old.map (fun b => (b.addr, b.last, b.end_)) = [(4096, 7176, 8192)] ∧
      new.end_ - new.addr = 4096 ∧
      new.addr + sizeof_ngx_pool_data_t ≤ 8224 ∧
      new.last = 8224 + 2000 ∧ new.last ≤ new.end_ ∧ new.failed = 0 := by
  refine ⟨by decide, ?_⟩
  obtain ⟨old, new, h1, h2, _, h3, _, _, h4, h5, h6, h7⟩ :=
    c19_ngx_palloc_block heap4 4096 4096 1 pool4096
      { pool4096 with
        pool := { pool4096.pool with
                  blocks := [{ addr := 4096, last := 7176, end_ := 8192, failed := 0 }] } }
      pool_two_blocks [PoolOp.palloc 3000] 2000 8224
      (by decide) (by decide) (by decide) (by decide) (by decide) (by decide)
  exact ⟨old, new, h1, h2, h3, h4, h5, h6, h7⟩

/-! ## C20: first fit from `current` -/

theorem scan_blocks_none_of_no_room (al : Nat → Nat) (size : Nat) :
    ∀ (l : List ngx_pool_data_t),
      (∀ c ∈ l, ¬ size ≤ size_t_sub c.end_ (al c.last)) → scan_blocks al size l = none := by
  intro l
  induction l with
  | nil => intro _; rfl
  | cons p tl ih =>
    intro hl
    unfold scan_blocks
    simp only
    rw [if_neg (hl p (List.mem_cons_self _ _)),
      ih (fun c hc => hl c (List.mem_cons_of_mem _ hc))]

theorem scan_blocks_first_fit (al : Nat → Nat) (size : Nat) (b : ngx_pool_data_t)
    (post : List ngx_pool_data_t) (hb : size ≤ size_t_sub b.end_ (al b.last)) :
    ∀ (pre : List ngx_pool_data_t),
      (∀ c ∈ pre, ¬ size ≤ size_t_sub c.end_ (al c.last)) →
        scan_blocks al size (pre ++ b :: post) =
          some (al b.last, pre ++ { b with last := al b.last + size } :: post) := by
  intro pre
  induction pre with
  | nil =>
    intro _
    simp only [List.nil_append]
    unfold scan_blocks
    simp only
    rw [if_pos hb]
  | cons p tl ih =>
    intro hl
    simp only [List.cons_append]
    unfold scan_blocks
    simp only
    rw [if_neg (hl p (List.mem_cons_self _ _)),
      ih (fun c hc => hl c (List.mem_cons_of_mem _ hc))]

/-- The code of `ngx_palloc` for `size <= pool->max`, in every pool: its test for
room is `size <= (size_t) (end - alignedLast)`, a difference taken modulo
`2 ^ 64`.  With that test it is first-fit from `current`: the first block that
passes serves the request and only its `last` changes; when no block from
`current` to the tail passes, the result is that of `ngx_palloc_block`. -/
theorem palloc_first_fit_size_t (fuel : Nat) (w : World) (size : Nat)
    (hsize : size ≤ w.pool.max) :
    (∀ pre b post, w.pool.blocks.drop w.pool.current = pre ++ b :: post →
      (∀ c ∈ pre, ¬ size ≤ size_t_sub c.end_ (ngx_align_ptr c.last NGX_ALIGNMENT)) →
      size ≤ size_t_sub b.end_ (ngx_align_ptr b.last NGX_ALIGNMENT) →
      ngx_palloc (fuel + 1) w size =
        some (some (ngx_align_ptr b.last NGX_ALIGNMENT),
          { w with
            pool := { w.pool with
                      blocks := w.pool.blocks.take w.pool.current ++
                        (pre ++ { b with last := ngx_align_ptr b.last NGX_ALIGNMENT + size } ::
                          post) } })) ∧
    ((∀ c ∈ w.pool.blocks.drop w.pool.current,
        ¬ size ≤ size_t_sub c.end_ (ngx_align_ptr c.last NGX_ALIGNMENT)) →
      ngx_palloc (fuel + 1) w size = some (ngx_palloc_block w size)) := by
  constructor
  · intro pre b post hdrop hpre hb
    unfold ngx_palloc
    rw [if_pos hsize]
    unfold palloc_small
    rw [hdrop, scan_blocks_first_fit _ size b post hb pre hpre]
  · intro hnone
    unfold ngx_palloc
    rw [if_pos hsize]
    unfold palloc_small
    rw [scan_blocks_none_of_no_room _ size _ hnone]

theorem room_iff_of_block_ok (S size : Nat) (b : ngx_pool_data_t) (hS8 : 8 ∣ S)
    (hS64 : S < 2 ^ 64) (hb : BlockOk S b) :
    size ≤ size_t_sub b.end_ (ngx_align_ptr b.last NGX_ALIGNMENT) ↔
      ngx_align_ptr b.last NGX_ALIGNMENT + size ≤ b.end_ := by
  obtain ⟨⟨k, hk⟩, he, hal, hle⟩ := hb
  obtain ⟨j, hj⟩ := hS8
  have hm : ngx_align_ptr b.last NGX_ALIGNMENT ≤ b.end_ := by
    rw [ngx_align_ptr_eq]; omega
  have hlast := le_ngx_align_ptr b.last
  rw [size_t_sub_of_le _ _ hm (by omega)]
  omega

/-- Where the claim of first fit does hold: in every state reached from
`ngx_create_pool(S)` by the public operations, when `S` is a multiple of
`NGX_ALIGNMENT` (with `sizeof(ngx_pool_t) <= S`) and the provider returns aligned
memory, `ngx_palloc` with `size <= pool->max` serves the request from the first
block from `current` on with `alignedLast + size <= end`, changing only the
`last` of that block, and goes to `ngx_palloc_block` exactly when no block from
`current` to the tail has that much room. -/
theorem first_fit_of_aligned_size (h : Heap) (ngx_pagesize S fuel f : Nat) (w0 w : World)
    (ops : List PoolOp) (size : Nat)
    (hS8 : NGX_ALIGNMENT ∣ S) (hS80 : sizeof_ngx_pool_t ≤ S) (hS64 : S < 2 ^ 64)
    (hscr : ∀ a, some a ∈ h.script → NGX_ALIGNMENT ∣ a)
    (hw0 : create_world h ngx_pagesize S = some w0)
    (hrun : run_ops fuel w0 ops = some w)
    (hsize : size ≤ w.pool.max) :
    (∀ pre b post, w.pool.blocks.drop w.pool.current = pre ++ b :: post →
      (∀ c ∈ pre, ¬ ngx_align_ptr c.last NGX_ALIGNMENT + size ≤ c.end_) →
      ngx_align_ptr b.last NGX_ALIGNMENT + size ≤ b.end_ →
      ngx_palloc (f + 1) w size =
        some (some (ngx_align_ptr b.last NGX_ALIGNMENT),
          { w with
            pool := { w.pool with
                      blocks := w.pool.blocks.take w.pool.current ++
                        (pre ++ { b with last := ngx_align_ptr b.last NGX_ALIGNMENT + size } ::
                          post) } })) ∧
    ((∀ c ∈ w.pool.blocks.drop w.pool.current,
        ¬ ngx_align_ptr c.last NGX_ALIGNMENT + size ≤ c.end_) →
      ngx_palloc (f + 1) w size = some (ngx_palloc_block w size)) := by
  have hok := run_ops_inv S fuel ops w0 w
    (create_world_inv h ngx_pagesize S w0 hS8 hS80 hS64 hscr hw0) hrun
  obtain ⟨_, _, _, _, _, hblocks, _⟩ := hok
  have hroom : ∀ c ∈ w.pool.blocks.drop w.pool.current,
      (size ≤ size_t_sub c.end_ (ngx_align_ptr c.last NGX_ALIGNMENT) ↔
        ngx_align_ptr c.last NGX_ALIGNMENT + size ≤ c.end_) :=
    fun c hc => room_iff_of_block_ok S size c hS8 hS64 (hblocks c (List.mem_of_mem_drop hc))
  obtain ⟨hfit, hgrow⟩ := palloc_first_fit_size_t f w size hsize
  constructor
  · intro pre b post hdrop hpre hb
    refine hfit pre b post hdrop ?_ ?_
    · intro c hc
      rw [hroom c (by rw [hdrop]; simp [hc])]
      exact hpre c hc
    · rw [hroom b (by rw [hdrop]; simp)]
      exact hb
  · intro hnone
    refine hgrow ?_
    intro c hc
    rw [hroom c hc]
    exact hnone c hc

/-- C20, the code at a failing input: on `ngx_create_pool(121)` after
`ngx_palloc(pool, 41)` the only block has `last = end = 4217`, so its aligned
`last`, 4224, is beyond `end` and no block from `current` to the tail has room
for one byte.  The claim sends `ngx_palloc(pool, 1)`, with `1 <= pool->max`, to
block growth, which would return 8224 in a second block.  The code returns 4224
from the full block and sets its `last` to 4225, without a call to the
provider: `(size_t) (p->d.end - m)` wraps to `2 ^ 64 - 7`. -/
theorem c20_served_from_block_without_room :
    create_world heap4 4096 121 = some pool121 ∧
    ngx_palloc 1 pool121 41 = some (some 4176, pool121_full) ∧
    1 ≤ pool121_full.pool.max ∧
    (∀ b ∈ pool121_full.pool.blocks.drop pool121_full.pool.current,
      ¬ ngx_align_ptr b.last NGX_ALIGNMENT + 1 ≤ b.end_) ∧
    (ngx_palloc_block pool121_full 1).1 = some 8224 ∧
    (ngx_palloc_block pool121_full 1).2.pool.blocks.length = 2 ∧
    ngx_palloc 1 pool121_full 1 ≠ some (ngx_palloc_block pool121_full 1) ∧
    size_t_sub 4217 (ngx_align_ptr 4217 NGX_ALIGNMENT) = 2 ^ 64 - 7 ∧
    ngx_palloc 1 pool121_full 1 =
      some (some 4224,
        { pool121_full with
          pool := { pool121_full.pool with
                    blocks := [{ addr := 4096, last := 4225, end_ := 4217, failed := 0 }] } }) := by
  decide

/-! ## The cleanup list in memory -/

theorem read_word_cons_eq (words : List (Nat × Word)) (a : Nat) (v : Word) :
    read_word ((a, v) :: words) a = some v := by
  simp [read_word]

theorem read_word_cons_ne (words : List (Nat × Word)) (a b : Nat) (v : Word) (h : b ≠ a) :
    read_word ((b, v) :: words) a = read_word words a := by
  simp [read_word, List.find?_cons, h]

theorem chain_is_write (words : List (Nat × Word)) (a : Nat) (v : Word) :
    ∀ (l : List ngx_pool_cleanup_t) (p : Option Nat), chain_is words p l →
      (∀ x ∈ l, a ≠ x.addr ∧ a ≠ x.addr + 8 ∧ a ≠ x.addr + 16) →
      chain_is ((a, v) :: words) p l := by
  intro l
  induction l with
  | nil => intro p h _; exact h
  | cons r rest ih =>
    intro p h hd
    obtain ⟨hp, hh, hdat, n, hn, hrest⟩ := h
    obtain ⟨h0, h8, h16⟩ := hd r (List.mem_cons_self _ _)
    refine ⟨hp, ?_, ?_, n, ?_, ih n hrest (fun x hx => hd x (List.mem_cons_of_mem _ hx))⟩
    · rw [read_word_cons_ne _ _ _ _ h0]; exact hh
    · rw [read_word_cons_ne _ _ _ _ h8]; exact hdat
    · rw [read_word_cons_ne _ _ _ _ h16]; exact hn

theorem run_cleanups_mem_chain (words : List (Nat × Word)) :
    ∀ (l : List ngx_pool_cleanup_t) (p : Option Nat) (fuel : Nat)
      (ran : List (Handler × Option Nat)), chain_is words p l → l.length ≤ fuel →
      run_cleanups_mem words fuel p ran = Run.done (run_cleanups ran l) := by
  intro l
  induction l with
  | nil =>
    intro p fuel ran h _
    simp only [chain_is] at h
    subst h
    cases fuel <;> rfl
  | cons r rest ih =>
    intro p fuel ran h hlen
    obtain ⟨hp, hh, hdat, n, hn, hrest⟩ := h
    subst hp
    cases fuel with
    | zero => simp at hlen
    | succ k =>
      have hk : rest.length ≤ k := by simpa using hlen
      unfold run_cleanups_mem run_cleanups
      rw [hh, hdat, hn]
      cases hf : r.handler with
      | none =>
        cases n <;> simp only [Word.of_handler, Word.of_ptr, Word.as_handler, Word.as_ptr,
          Option.some_bind] <;> exact ih _ k ran hrest hk
      | some f =>
        cases n <;> cases r.data <;>
          simp only [Word.of_handler, Word.of_ptr, Word.as_handler, Word.as_ptr,
            Option.some_bind] <;> exact ih _ k _ hrest hk

theorem run_cleanups_mem_self_null (words : List (Nat × Word)) (c : Nat)
    (hh : read_word words c = some Word.null)
    (hn : read_word words (c + 16) = some (Word.addr c)) :
    ∀ (fuel : Nat) (ran : List (Handler × Option Nat)),
      run_cleanups_mem words fuel (some c) ran = Run.running ran := by
  intro fuel
  induction fuel with
  | zero => intro ran; rfl
  | succ k ih =>
    intro ran
    unfold run_cleanups_mem
    rw [hh, hn]
    simp only [Word.as_handler, Word.as_ptr, Option.some_bind]
    exact ih ran

theorem run_cleanups_mem_self_handler (words : List (Nat × Word)) (c : Nat) (f : Handler)
    (d : Option Nat)
    (hh : read_word words c = some (Word.handler f))
    (hd : read_word words (c + 8) = some (Word.of_ptr d))
    (hn : read_word words (c + 16) = some (Word.addr c)) :
    ∀ (fuel : Nat) (ran : List (Handler × Option Nat)),
      run_cleanups_mem words fuel (some c) ran =
        Run.running (ran ++ List.replicate fuel (f, d)) := by
  intro fuel
  induction fuel with
  | zero => intro ran; simp [run_cleanups_mem]
  | succ k ih =>
    intro ran
    unfold run_cleanups_mem
    rw [hh, hd, hn]
    cases d <;> simp only [Word.of_ptr, Word.as_handler, Word.as_ptr, Option.some_bind] <;>
      rw [ih] <;> simp [List.replicate_succ]

theorem chain_is_write_record (words : List (Nat × Word)) (c : Nat) (v0 v8 v16 : Word)
    (l : List ngx_pool_cleanup_t) (p : Option Nat) (h : chain_is words p l)
    (hfresh : ∀ x ∈ l, x.addr + sizeof_ngx_pool_cleanup_t ≤ c ∨
      c + sizeof_ngx_pool_cleanup_t ≤ x.addr) :
    chain_is ((c + 16, v16) :: (c, v0) :: (c + 8, v8) :: words) p l := by
  simp only [sizeof_ngx_pool_cleanup_t] at hfresh
  apply chain_is_write _ _ _ l p _ (fun x hx => by have := hfresh x hx; omega)
  apply chain_is_write _ _ _ l p _ (fun x hx => by have := hfresh x hx; omega)
  exact chain_is_write _ _ _ l p h (fun x hx => by have := hfresh x hx; omega)

/-- Where the claim on `ngx_pool_cleanup_add` does hold, on the list in memory: when
the record that `ngx_palloc(p, sizeof(ngx_pool_cleanup_t))` returns lies on no
record that is linked, a record returned is the new head of the list with the
previous list after it unchanged, its handler `NULL`, and its data `NULL` if
`size = 0` and the result of `ngx_palloc(p, size)` otherwise; a `NULL` result leaves
the list as it was; and with fuel for the answers the provider has left the call
returns. -/
theorem ngx_pool_cleanup_add_mem_fresh (fuel : Nat) (s : MemWorld) (size : Nat)
    (l : List ngx_pool_cleanup_t) (hl : chain_is s.words s.cleanup l)
    (hfresh : ∀ c wa, ngx_palloc fuel s.world sizeof_ngx_pool_cleanup_t = some (some c, wa) →
      ∀ x ∈ l, x.addr + sizeof_ngx_pool_cleanup_t ≤ c ∨
        c + sizeof_ngx_pool_cleanup_t ≤ x.addr) :
    (∀ c s1, ngx_pool_cleanup_add_mem fuel s size = some (some c, s1) →
      ∃ d, chain_is s1.words s1.cleanup ({ addr := c, handler := none, data := d } :: l) ∧
        (size = 0 → d = none) ∧
        (size ≠ 0 → ∃ wa wb dd,
          ngx_palloc fuel s.world sizeof_ngx_pool_cleanup_t = some (some c, wa) ∧
          ngx_palloc fuel wa size = some (some dd, wb) ∧ d = some dd)) ∧
    (∀ s1, ngx_pool_cleanup_add_mem fuel s size = some (none, s1) →
      chain_is s1.words s1.cleanup l) ∧
    (2 * s.world.heap.script.length + 2 ≤ fuel →
      ∃ r, ngx_pool_cleanup_add_mem fuel s size = some r) := by
  refine ⟨?_, ?_, ?_⟩
  · intro c s1 h
    unfold ngx_pool_cleanup_add_mem at h
    split at h
    · simp at h
    · simp at h
    · rename_i c0 wa hp
      have hf := hfresh c0 wa hp
      split at h
      · rename_i hsize
        split at h
        · simp at h
        · simp at h
        · rename_i dd wb hp2
          simp only [Option.some.injEq, Prod.mk.injEq] at h
          obtain ⟨hc, hs1⟩ := h
          subst hc
          subst hs1
          refine ⟨some dd, ⟨rfl, ?_, ?_, s.cleanup, ?_, ?_⟩, fun h0 => absurd h0 hsize,
            fun _ => ⟨wa, wb, dd, hp, hp2, rfl⟩⟩
          · simp only
            rw [read_word_cons_ne _ _ _ _ (by omega), read_word_cons_eq]
            rfl
          · simp only
            rw [read_word_cons_ne _ _ _ _ (by omega), read_word_cons_ne _ _ _ _ (by omega),
              read_word_cons_eq]
            rfl
          · simp only
            rw [read_word_cons_eq]
          · exact chain_is_write_record _ _ _ _ _ l _ hl hf
      · rename_i hsize
        simp only [Option.some.injEq, Prod.mk.injEq] at h
        obtain ⟨hc, hs1⟩ := h
        subst hc
        subst hs1
        refine ⟨none, ⟨rfl, ?_, ?_, s.cleanup, ?_, ?_⟩, fun _ => rfl,
          fun hne => absurd (Decidable.not_not.1 hsize) hne⟩
        · simp only
          rw [read_word_cons_ne _ _ _ _ (by omega), read_word_cons_eq]
          rfl
        · simp only
          rw [read_word_cons_ne _ _ _ _ (by omega), read_word_cons_ne _ _ _ _ (by omega),
            read_word_cons_eq]
          rfl
        · simp only
          rw [read_word_cons_eq]
        · exact chain_is_write_record _ _ _ _ _ l _ hl hf
  · intro s1 h
    unfold ngx_pool_cleanup_add_mem at h
    split at h
    · simp at h
    · simp only [Option.some.injEq, Prod.mk.injEq, true_and] at h
      subst h
      exact hl
    · rename_i c0 wa hp
      have hf := hfresh c0 wa hp
      simp only [sizeof_ngx_pool_cleanup_t] at hf
      split at h
      · split at h
        · simp at h
        · simp only [Option.some.injEq, Prod.mk.injEq, true_and] at h
          subst h
          exact chain_is_write _ _ _ l _ hl (fun x hx => by have := hf x hx; omega)
        · simp at h
      · simp at h
  · intro hfuel
    obtain ⟨r, hr⟩ := (palloc_returns s.world.heap.script.length fuel s.world
      sizeof_ngx_pool_cleanup_t (Nat.le_refl _)).1 hfuel
    unfold ngx_pool_cleanup_add_mem
    rw [hr]
    obtain ⟨r1, wa⟩ := r
    cases r1 with
    | none => exact ⟨_, rfl⟩
    | some c0 =>
      simp only
      split
      · have hle := (palloc_script_le fuel).1 s.world _ _ wa hr
        obtain ⟨r2, hr2⟩ := (palloc_returns s.world.heap.script.length fuel wa size hle).1 hfuel
        rw [hr2]
        obtain ⟨r3, wb⟩ := r2
        cases r3 with
        | none => exact ⟨_, rfl⟩
        | some d => exact ⟨_, rfl⟩
      · exact ⟨_, rfl⟩

/-- The claim on `ngx_pool_cleanup_add` at a record that is fresh: the second record
of a pool of 4096 bytes, with 16 bytes of data, is linked before the first. -/
theorem ngx_pool_cleanup_add_mem_fresh_example :
    chain_is mem_added.words mem_added.cleanup [{ addr := 4176, handler := none, data := none }] ∧
    ∃ s1 d, ngx_pool_cleanup_add_mem 1 mem_added 16 = some (some 4200, s1) ∧
      chain_is s1.words s1.cleanup
        [{ addr := 4200, handler := none, data := d },
         { addr := 4176, handler := none, data := none }] := by
  have hl : chain_is mem_added.words mem_added.cleanup
      [{ addr := 4176, handler := none, data := none }] :=
    ⟨rfl, by decide, by decide, none, by decide, rfl⟩
  refine ⟨hl, ?_⟩
  have hadd : ngx_pool_cleanup_add_mem 1 mem_added 16 =
      some (some 4200,
        { world := { pool4096 with
                     pool := { pool4096.pool with
                               blocks := [{ addr := 4096, last := 4240, end_ := 8192,
                                            failed := 0 }] } }
          cleanup := some 4200
          words := (4216, Word.addr 4176) :: (4200, Word.null) :: (4208, Word.addr 4224) ::
            mem_added.words }) := by decide
  obtain ⟨d, hd, _, _⟩ := (ngx_pool_cleanup_add_mem_fresh 1 mem_added 16 _ hl
    (by
      intro c wa hc x hx
      have hc0 : ngx_palloc 1 mem_added.world sizeof_ngx_pool_cleanup_t =
          some (some 4200,
            { pool4096 with
              pool := { pool4096.pool with
                        blocks := [{ addr := 4096, last := 4224, end_ := 8192,
                                     failed := 0 }] } }) := by decide
      rw [hc0] at hc
      simp only [Option.some.injEq, Prod.mk.injEq] at hc
      simp only [List.mem_singleton] at hx
      rw [hx, ← hc.1]
      decide)).1 _ _ hadd
  exact ⟨_, d, hadd, hd⟩

/-- C11, the code at a failing input: on `ngx_create_pool(4096)`,
`ngx_pool_cleanup_add(pool, 0)` returns the record at 4176 and the caller stores a
handler in it; `ngx_reset_pool` rewinds the head block to 4176 and leaves
`pool->cleanup` at that record; the next `ngx_pool_cleanup_add(pool, 0)` gets the
same 24 bytes from `ngx_palloc` and returns the record at 4176 again.  Its
`c->next = p->cleanup` stores 4176 in the record at 4176: the record returned is
not followed by the previous list, it is followed by itself, the handler of the
record that was linked is overwritten with `NULL`, and a loop over the list does
not end. -/
theorem c11_record_linked_to_itself :
    create_world heap4 4096 4096 = some pool4096 ∧
    ngx_pool_cleanup_add_mem 1 mem4096 0 = some (some 4176, mem_added) ∧
    chain_is (store_handler 4176 (Handler.user 1) mem_added).words
      (store_handler 4176 (Handler.user 1) mem_added).cleanup
      [{ addr := 4176, handler := some (Handler.user 1), data := none }] ∧
    (ngx_reset_pool_mem (store_handler 4176 (Handler.user 1) mem_added)).cleanup = some 4176 ∧
    (ngx_reset_pool_mem (store_handler 4176 (Handler.user 1) mem_added)).world.pool.blocks =
      [{ addr := 4096, last := 4176, end_ := 8192, failed := 0 }] ∧
    ngx_pool_cleanup_add_mem 1
      (ngx_reset_pool_mem (store_handler 4176 (Handler.user 1) mem_added)) 0 =
      some (some 4176, mem_cyclic) ∧
    mem_cyclic.cleanup = some 4176 ∧
    read_word mem_cyclic.words (4176 + 16) = some (Word.addr 4176) ∧
    read_word mem_cyclic.words 4176 = some Word.null ∧
    (∀ l, ¬ chain_is mem_cyclic.words mem_cyclic.cleanup l) ∧
    ∀ fuel, run_cleanups_mem mem_cyclic.words fuel mem_cyclic.cleanup [] = Run.running [] := by
  refine ⟨by decide, by decide, ⟨rfl, by decide, by decide, none, by decide, rfl⟩, rfl,
    by decide, by decide, rfl, by decide, by decide, ?_, ?_⟩
  · intro l hl
    have h1 := run_cleanups_mem_chain mem_cyclic.words l mem_cyclic.cleanup l.length []
      hl (Nat.le_refl _)
    have h2 := run_cleanups_mem_self_null mem_cyclic.words 4176 (by decide) (by decide)
      l.length []
    have h3 : mem_cyclic.cleanup = some 4176 := rfl
    rw [h3, h2] at h1
    simp at h1
  · intro fuel
    exact run_cleanups_mem_self_null mem_cyclic.words 4176 (by decide) (by decide) fuel []

theorem ngx_destroy_pool_mem_running (fuel : Nat) (s : MemWorld)
    (ran : List (Handler × Option Nat))
    (h : run_cleanups_mem s.words fuel s.cleanup s.world.ran = Run.running ran) :
    ngx_destroy_pool_mem fuel s = Run.running ran := by
  unfold ngx_destroy_pool_mem
  rw [h]

/-- C14, the code at a failing input: with a provider that returns fresh pointers,
on `ngx_create_pool(4096)` the calls
`ngx_pool_cleanup_add(pool, 0)`, `ngx_reset_pool(pool)`, `ngx_pool_cleanup_add(pool, 0)`
leave one live raw allocation, the block at 4096, which is the only block of the
chain, and a cleanup list whose record at 4176 has itself as `next`.  The first
loop of `ngx_destroy_pool` then does not end, whatever the number of turns: the
loops that release memory are not reached and the block is not released.  With a
handler stored in the record the loop calls that handler once per turn. -/
theorem c14_destroy_never_releases :
    heap4.Fresh ∧ NGX_MIN_POOL_SIZE ≤ 4096 ∧
    create_world heap4 4096 4096 = some pool4096 ∧
    ngx_pool_cleanup_add_mem 1 mem4096 0 = some (some 4176, mem_added) ∧
    ∃ s, ngx_pool_cleanup_add_mem 1 (ngx_reset_pool_mem mem_added) 0 = some (some 4176, s) ∧
      (run_ops 1 pool4096 [PoolOp.cleanup_add 0, PoolOp.reset, PoolOp.cleanup_add 0]).map
          (fun w => (w.pool.blocks, w.pool.large, w.heap)) =
        some (s.world.pool.blocks, s.world.pool.large, s.world.heap) ∧
      s.world.heap.live = [4096] ∧ tracked s.world.pool = [4096] ∧
      s.cleanup = some 4176 ∧ read_word s.words (4176 + 16) = some (Word.addr 4176) ∧
      (∀ fuel, ngx_destroy_pool_mem fuel s = Run.running []) ∧
      ∀ fuel, ngx_destroy_pool_mem fuel (store_handler 4176 (Handler.user 7) s) =
        Run.running (List.replicate fuel (Handler.user 7, none)) := by
  refine ⟨by unfold Heap.Fresh; decide, by decide, by decide, by decide,
    { world := mem_added.world
      cleanup := some 4176
      words := [(4192, Word.addr 4176), (4176, Word.null), (4184, Word.null),
                (4192, Word.null), (4176, Word.null), (4184, Word.null)] },
    by decide, by decide, by decide, by decide, rfl, by decide, ?_, ?_⟩
  · intro fuel
    apply ngx_destroy_pool_mem_running
    exact run_cleanups_mem_self_null _ 4176 (by decide) (by decide) fuel []
  · intro fuel
    apply ngx_destroy_pool_mem_running
    have h := run_cleanups_mem_self_handler
      (store_handler 4176 (Handler.user 7)
        { world := mem_added.world
          cleanup := some 4176
          words := [(4192, Word.addr 4176), (4176, Word.null), (4184, Word.null),
                    (4192, Word.null), (4176, Word.null), (4184, Word.null)] }).words
      4176 (Handler.user 7) none (by decide) (by decide) (by decide) fuel []
    simpa using h

end NgxPalloc
